import Mathlib

/-!
# Streaming graph sketching: histogram, weighted min-hash sketch and WL relabeler

A shallow embedding of `streaming/histogram.cpp` and `streaming/wl.hpp`.

Conventions of the embedding.

* `double` values are idealised as elements of a linear ordered field `α`
  (the theorems hold for every such field, in particular for the reals); the
  libm functions `pow(M_E, ·)` and `log` are the fields `exp` and `log` of
  the environment `Env`.
* `unsigned long` labels are natural numbers; `int` cursors are integers.
* `std::map<unsigned long, double>` is an association list that the map
  operations keep in ascending key order.
* Fixed-size C arrays are functions on indices; a `for (i = 0; i < n; i++)`
  loop is `forLoop n body`.
* Values drawn from C++ pseudo random engines are deterministic functions of
  the seed; they are fields of `Env`.
* The host runs the vertex callbacks one at a time, and a callback reads the
  edge data that the callbacks before it have written. A failed assertion or
  a read through a null pointer makes the result `none`.
* The tick counters and cursors stay far from the limits of `int`, so `int`
  arithmetic is arithmetic on integers.
-/

namespace Analyzer

/-! ## Generic helpers -/

/-- The loop `for (int i = 0; i < n; i++) s = body(i, s);`. -/
def forLoop {σ : Type} (n : Nat) (body : Nat → σ → σ) (s : σ) : σ :=
  (List.range n).foldl (fun acc i => body i acc) s

/-- The loop `for (int i = lo; i < hi; i++) s = body(i, s);`. -/
def forLoopFrom {σ : Type} (lo hi : Nat) (body : Nat → σ → σ) (s : σ) : σ :=
  forLoop (hi - lo) (fun k acc => body (lo + k) acc) s

/-- Array store `a[i] = v`. -/
def setAt {β : Type} (a : Nat → β) (i : Nat) (v : β) : Nat → β :=
  fun j => if j = i then v else a j

/-! ## Histogram (`streaming/histogram.cpp`) -/

/-- Parameters of one label: `struct hist_elem` with arrays `r`, `beta`, `c`. -/
structure hist_elem (α : Type) where
  r : Nat → α
  beta : Nat → α
  c : Nat → α

/-- Compile-time constants (`def.hpp`) and library functions used by the histogram. -/
structure Env (α : Type) where
  /-- Number of sketch slots. -/
  SKETCH_SIZE : Nat
  /-- Number of `decay` calls between two multiplications. -/
  DECAY : Int
  /-- Number of `decay` calls between two sketch lines written by `decay`. -/
  WINDOW : Int
  /-- Selects pregenerated (true) or on-the-fly (false) parameters. -/
  MEMORY : Bool
  /-- Number of pregenerated parameter rows. -/
  PREGEN : Nat
  /-- The decay rate; zero disables the call of `decay`. -/
  LAMBDA : α
  /-- The function `x ↦ pow(M_E, x)`. -/
  exp : α → α
  /-- The function `log`. -/
  log : α → α
  /-- The arrays `r`, `c` and `beta` that the loop of `construct_hist_elem` fills from
  `gamma_dist` and `uniform_dist` when the engines `r_generator`, `c_generator` and
  `beta_generator` are seeded with the three given seeds. -/
  draws : Nat → Nat → Nat → hist_elem α
  /-- Value number `k` returned by `rand()` after `srand(seed)`. -/
  rand : Nat → Nat → Nat
  /-- Value that `create_sketch` stores into `gamma_param[i][j]`. -/
  pregen_gamma : Nat → Nat → α
  /-- Value that `create_sketch` stores into `uniform_param[i][j]`. -/
  pregen_uniform : Nat → Nat → α

/-- The members of `class Histogram`. -/
structure Histogram (α : Type) where
  histogram_map : List (Nat × α)
  sketch : Nat → Nat
  hash : Nat → α
  t : Int
  w : Int
  /-- The decay factor that `decay` multiplies by. -/
  powerful : α
  gamma_param : Nat → Nat → α
  uniform_param : Nat → Nat → α

namespace Histogram

variable {α : Type} [LinearOrderedField α]

/-- Insertion of a fresh key into the ordered map, before the first larger key. -/
def map_emplace (k : Nat) (v : α) : List (Nat × α) → List (Nat × α)
  | [] => [(k, v)]
  | p :: rest => if k < p.1 then (k, v) :: p :: rest else p :: map_emplace k v rest

/-- The statements `rst = histogram_map.insert({label, 1}); if (!rst.second) rst.first->second++;`
of `update`: returns the new map and the value `rst.first->second` read afterwards. -/
def map_insert_incr (label : Nat) (m : List (Nat × α)) : List (Nat × α) × α :=
  match m.lookup label with
  | none => (map_emplace label 1 m, 1)
  | some v => (m.map (fun p => if p.1 = label then (p.1, p.2 + 1) else p), v + 1)

/-- `Histogram::construct_hist_elem`: engines seeded with `label`, `label / 2`, `label`. -/
def construct_hist_elem (env : Env α) (label : Nat) : hist_elem α :=
  env.draws label (label / 2) label

/-- The row selection `srand(label); pos1 = rand() % PREGEN; pos2 = rand() % PREGEN;`
(`srand` takes an `unsigned int`) and the three table rows read in the slot loop. -/
def pregen_elem (env : Env α) (h : Histogram α) (label : Nat) : hist_elem α :=
  let pos1 := env.rand (label % 2 ^ 32) 0 % env.PREGEN
  let pos2 := env.rand (label % 2 ^ 32) 1 % env.PREGEN
  { r := h.gamma_param pos1, beta := h.uniform_param pos1, c := h.gamma_param pos2 }

/-- The hash value computed for slot `i` from the parameters `p` and the counter `cnt`:
`y = pow(M_E, log(cnt) - r * beta); a = c / (y * pow(M_E, r))`. -/
def hash_value (env : Env α) (p : hist_elem α) (i : Nat) (cnt : α) : α :=
  let y := env.exp (env.log cnt - p.r i * p.beta i)
  p.c i / (y * env.exp (p.r i))

/-- Body of the slot loop of `update`. -/
def update_slot (env : Env α) (p : hist_elem α) (label : Nat) (cnt : α) (i : Nat)
    (h : Histogram α) : Histogram α :=
  let a := hash_value env p i cnt
  if a < h.hash i then
    { h with hash := setAt h.hash i a, sketch := setAt h.sketch i label }
  else h

/-- `Histogram::update(label, base)`. -/
def update (env : Env α) (label : Nat) (base : Bool) (h : Histogram α) : Histogram α :=
  let rst := map_insert_incr label h.histogram_map
  let h1 : Histogram α := { h with histogram_map := rst.1 }
  if !base then
    if !env.MEMORY then
      let generated_param := construct_hist_elem env label
      forLoop env.SKETCH_SIZE (update_slot env generated_param label rst.2) h1
    else
      forLoop env.SKETCH_SIZE (update_slot env (pregen_elem env h1 label) label rst.2) h1
  else h1

/-- The text `fprintf(fp, "%lu ", sketch[i])` for every slot, then `fprintf(fp, "\n")`,
appended to the content `fp` of the file. -/
def write_sketch (env : Env α) (h : Histogram α) (fp : String) : String :=
  forLoop env.SKETCH_SIZE (fun i out => out ++ (toString (h.sketch i) ++ " ")) fp ++ "\n"

/-- `Histogram::decay(fp)`: returns the new members and the new content of `fp`. -/
def decay (env : Env α) (h : Histogram α) (fp : String) : Histogram α × String :=
  let h1 : Histogram α := { h with t := h.t + 1, w := h.w + 1 }
  let h2 :=
    if h1.t ≥ env.DECAY then
      let h3 := { h1 with
        histogram_map := h1.histogram_map.map (fun it : Nat × α => (it.1, it.2 * h1.powerful)) }
      let h4 := forLoop env.SKETCH_SIZE
        (fun i s => { s with hash := setAt s.hash i (s.hash i * s.powerful) }) h3
      { h4 with t := 0 }
    else h1
  if h2.w ≥ env.WINDOW then ({ h2 with w := 0 }, write_sketch env h2 fp) else (h2, fp)

/-- `Histogram::record_sketch(fp)`: returns the members and the new content of `fp`. -/
def record_sketch (env : Env α) (h : Histogram α) (fp : String) : Histogram α × String :=
  (h, write_sketch env h fp)

/-- The local `base_map` of `create_sketch`: one entry `(label, construct_hist_elem(label))`
per histogram entry, in the order of the histogram. -/
def build_base_map (env : Env α) (m : List (Nat × α)) : List (Nat × hist_elem α) :=
  m.map (fun it => (it.1, construct_hist_elem env it.1))

/-- The inner loop of `create_sketch` over the histogram entries for slot `i`, with the
running minimum `(a_i, s_i)`; `find` is the parameter lookup and `none` is a lookup miss. -/
def sketch_scan (env : Env α) (find : Nat → Option (hist_elem α)) (i : Nat) :
    List (Nat × α) → α × Nat → Option (α × Nat)
  | [], acc => some acc
  | histoit :: rest, acc =>
    match find histoit.1 with
    | none => none
    | some histo_param =>
      let a := hash_value env histo_param i histoit.2
      sketch_scan env find i rest (if a < acc.1 then (a, histoit.1) else acc)

/-- The slot loop of `create_sketch`. The result is `none` when `histogram_map.begin()` is
dereferenced on an empty map; a lookup miss returns the members as they are at that point. -/
def sketch_slots (env : Env α) (find : Nat → Option (hist_elem α)) :
    List Nat → Histogram α → Option (Histogram α)
  | [], h => some h
  | i :: slots, h =>
    match h.histogram_map with
    | [] => none
    | histoit :: _ =>
      match find histoit.1 with
      | none => some h
      | some histo_param =>
        let a_i := hash_value env histo_param i histoit.2
        match sketch_scan env find i h.histogram_map (a_i, histoit.1) with
        | none => some h
        | some r =>
          sketch_slots env find slots
            { h with sketch := setAt h.sketch i r.2, hash := setAt h.hash i r.1 }

/-- The table generation of `create_sketch` in pregenerated mode. -/
def fill_params (env : Env α) (h : Histogram α) : Histogram α :=
  forLoop env.PREGEN (fun i h1 =>
    forLoop env.SKETCH_SIZE (fun j h2 =>
      { h2 with
        gamma_param := fun a b => if a = i ∧ b = j then env.pregen_gamma i j
          else h2.gamma_param a b
        uniform_param := fun a b => if a = i ∧ b = j then env.pregen_uniform i j
          else h2.uniform_param a b }) h1) h

/-- `Histogram::create_sketch()`. -/
def create_sketch (env : Env α) (h : Histogram α) : Option (Histogram α) :=
  if !env.MEMORY then
    let base_map := build_base_map env h.histogram_map
    sketch_slots env (fun label => base_map.lookup label) (List.range env.SKETCH_SIZE) h
  else
    let h1 := fill_params env h
    sketch_slots env (fun label => some (pregen_elem env h1 label))
      (List.range env.SKETCH_SIZE) h1

/-- The parameters `r`, `beta`, `c` that `update` uses for a label in the current mode. -/
def label_params (env : Env α) (h : Histogram α) (label : Nat) : hist_elem α :=
  if env.MEMORY then pregen_elem env h label else construct_hist_elem env label

/-- The per-slot hash `A(L, i, c)` of label `L` with counter `c`. -/
def A (env : Env α) (h : Histogram α) (L i : Nat) (c : α) : α :=
  hash_value env (label_params env h L) i c

/-- The counter of a label (`none` when the label is not a key). -/
def count (h : Histogram α) (L : Nat) : Option α := h.histogram_map.lookup L

/-- The keys of the histogram, in iteration order. -/
def keys (h : Histogram α) : List Nat := h.histogram_map.map Prod.fst

end Histogram

/-! ## WL relabeler (`streaming/wl.hpp`) -/

/-- Modelled from the spec: `struct node_label` of `def.hpp` (not among the sources):
generation labels `lb[0..K]`, timestamps `tm[0..K]` and the leaf flag. -/
structure node_label where
  lb : Nat → Nat
  tm : Nat → Int
  is_leaf : Bool

/-- Modelled from the spec: `struct edge_label` of `def.hpp` (not among the sources):
published source labels `src[0..K]`, timestamps `tme[0..K]`, destination type `dst`,
edge type `edg`, the cursor `itr` and the two freshness flags. -/
structure edge_label where
  src : Nat → Nat
  tme : Nat → Int
  dst : Nat
  edg : Nat
  itr : Int
  new_src : Bool
  new_dst : Bool

/-- An edge of the host graph: source vertex id, target vertex id and the edge data. -/
structure Edge where
  source : Nat
  target : Nat
  data : edge_label

/-- The host graph as the callback sees it: the data of every vertex and the edges. The
in-edges of a vertex are the edges that point to it, in list order, and likewise for the
out-edges. -/
structure Graph where
  vdata : Nat → node_label
  edges : List Edge

/-- Constants and helper functions (`def.hpp`, `helper.hpp`) used by the relabeler. -/
structure WLEnv where
  /-- Number of hops `K`. -/
  K_HOPS : Nat
  CHUNKIFY : Bool
  CHUNK_SIZE : Nat
  /-- The label hasher `hash(str)`. -/
  hash : String → Nat
  /-- The splitter `chunkify(str, chunk_size)`. -/
  chunkify : String → Nat → List Nat
  /-- Content of a `struct node_label nl;` declared without a value. -/
  fresh_nl : node_label

/-- What one call of the vertex callback does: the graph it leaves, the calls
`hist->update(label, base)` in program order and the calls `scheduler->add_task(id)` in
program order. -/
structure Effects where
  graph : Graph
  hist_updates : List (Nat × Bool)
  tasks : List Nat

namespace WeisfeilerLehman

/-- The data of `vertex.inedge(0)`, `vertex.inedge(1)`, ... -/
def in_edges (g : Graph) (v : Nat) : List edge_label :=
  (g.edges.filter (fun e => e.target = v)).map (fun e => e.data)

/-- The data of `vertex.outedge(0)`, `vertex.outedge(1)`, ... -/
def out_edges (g : Graph) (v : Nat) : List edge_label :=
  (g.edges.filter (fun e => e.source = v)).map (fun e => e.data)

/-- The ids `out_edge->vertex_id()` of the out-neighbours. -/
def out_targets (g : Graph) (v : Nat) : List Nat :=
  (g.edges.filter (fun e => e.source = v)).map (fun e => e.target)

/-- A loop `for (i < num_inedges) { el = inedge(i)->get_data(); el = f(el); set_data(el); }`. -/
def map_in (v : Nat) (f : edge_label → edge_label) (es : List Edge) : List Edge :=
  es.map (fun e => if e.target = v then { e with data := f e.data } else e)

/-- A loop `for (i < num_outedges) { el = outedge(i)->get_data(); el = f(el); set_data(el); }`. -/
def map_out (v : Nat) (f : edge_label → edge_label) (es : List Edge) : List Edge :=
  es.map (fun e => if e.source = v then { e with data := f e.data } else e)

/-- The host call `vertex.random_outedge()`: `none` (a null pointer) without out-edges,
otherwise the out-edge selected by the random number `pick`. -/
def random_outedge (pick : Nat) (outs : List edge_label) : Option edge_label :=
  if outs.length = 0 then none else outs[pick % outs.length]?

/-- Modelled from the spec: `std::sort(..., EdgeSorter(idx))` (`EdgeSorter` is not among
the sources): ascending order of `tme[idx]`. -/
def sort_by_tme (idx : Nat) (nb : List edge_label) : List edge_label :=
  nb.insertionSort (fun a b => a.tme idx ≤ b.tme idx)

/-- The value `neighborhood[0].tme[idx]` (the vector is not empty where it is read). -/
def front_tme (idx : Nat) : List edge_label → Int
  | [] => 0
  | n :: _ => n.tme idx

/-- The string built from the vertex label `first` and the sorted neighbourhood: for every
neighbour `" " + edg` when `with_edg` holds, then `" " + src[idx]`. -/
def relabel_string (first : Nat) (with_edg : Bool) (idx : Nat) (nb : List edge_label) :
    String :=
  nb.foldl (fun s it =>
    (if with_edg then s ++ (" " ++ toString it.edg) else s) ++ (" " ++ toString (it.src idx)))
    (toString first)

/-- The calls of `hist->update` for a relabeling string, depending on `CHUNKIFY`. -/
def publish (wl : WLEnv) (str : String) (base : Bool) : List (Nat × Bool) :=
  if !wl.CHUNKIFY then [(wl.hash str, base)]
  else (wl.chunkify str wl.CHUNK_SIZE).map (fun ti => (ti, base))

/-- The loop `for (j = 1; j < K_HOPS + 1; j++) { el.src[j] = nl.lb[j]; el.tme[j] = el.tme[j - 1]; }`. -/
def copy_leaf (wl : WLEnv) (nl : node_label) (el : edge_label) : edge_label :=
  forLoopFrom 1 (wl.K_HOPS + 1)
    (fun j e => { e with src := setAt e.src j (nl.lb j), tme := setAt e.tme j (e.tme (j - 1)) })
    el

/-- The loop `for (j = 1; j < K_HOPS + 1; j++) { el.src[j] = nl.lb[j]; el.tme[j] = nl.tm[j]; }`. -/
def copy_node (wl : WLEnv) (nl : node_label) (el : edge_label) : edge_label :=
  forLoopFrom 1 (wl.K_HOPS + 1)
    (fun j e => { e with src := setAt e.src j (nl.lb j), tme := setAt e.tme j (nl.tm j) })
    el

/-- Iteration 0 of `update`: the first label of a base vertex. -/
def update_first (sched : Bool) (pick v : Nat) (g : Graph) (nl0 : node_label) :
    Option Effects :=
  let r : Option (node_label × List Edge) :=
    match in_edges g v with
    | edge :: _ =>
      some ({ nl0 with lb := setAt nl0.lb 0 edge.dst, is_leaf := false },
        map_in v (fun el => { el with itr := el.itr + 1 }) g.edges)
    | [] =>
      match random_outedge pick (out_edges g v) with
      | none => none
      | some edge => some ({ nl0 with lb := setAt nl0.lb 0 (edge.src 0), is_leaf := true }, g.edges)
  match r with
  | none => none
  | some (nl1, es) =>
    let nl : node_label := { nl1 with tm := setAt nl1.tm 0 0 }
    some { graph := { vdata := setAt g.vdata v nl, edges := es }
           hist_updates := [(nl.lb 0, true)]
           tasks := if sched then [v] else [] }

/-- Iterations `1 .. K_HOPS` of `update`: propagation on the base graph. -/
def update_base (wl : WLEnv) (sched : Bool) (v iteration : Nat) (g : Graph) :
    Option Effects :=
  let neighborhood := in_edges g v
  if neighborhood.all (fun el => decide (el.itr = (iteration : Int))) then
    let es1 := map_in v (fun el => { el with itr := el.itr + 1 }) g.edges
    let nl := g.vdata v
    let tasks := if sched ∧ iteration < wl.K_HOPS then [v] else []
    match neighborhood with
    | [] =>
      let new_label := wl.hash (toString (nl.lb (iteration - 1)))
      let last_timestamp := nl.tm (iteration - 1)
      let nl1 : node_label :=
        { nl with lb := setAt nl.lb iteration new_label
                  tm := setAt nl.tm iteration last_timestamp }
      let es2 := map_out v (fun el =>
        { el with src := setAt el.src iteration new_label
                  tme := setAt el.tme iteration (el.tme (iteration - 1)) }) es1
      some { graph := { vdata := setAt g.vdata v nl1, edges := es2 }
             hist_updates := [(new_label, true)]
             tasks := tasks }
    | _ :: _ =>
      let sorted := sort_by_tme (iteration - 1) neighborhood
      let new_label_str :=
        relabel_string (nl.lb (iteration - 1)) (decide (iteration = 1)) (iteration - 1) sorted
      let new_label := wl.hash new_label_str
      let nl1 : node_label :=
        { nl with lb := setAt nl.lb iteration new_label
                  tm := setAt nl.tm iteration (front_tme (iteration - 1) sorted) }
      let es2 := map_out v (fun el =>
        { el with src := setAt el.src iteration new_label
                  tme := setAt el.tme iteration (nl1.tm iteration) }) es1
      some { graph := { vdata := setAt g.vdata v nl1, edges := es2 }
             hist_updates := publish wl new_label_str true
             tasks := tasks }
  else none

/-- The new-vertex test at the start of a streaming callback. -/
def is_new (g : Graph) (v : Nat) : Bool :=
  (out_edges g v).any (fun el => el.new_src) || (in_edges g v).any (fun el => el.new_dst)

/-- The labels of a new streamed leaf, computed from the data `el` of the chosen out-edge. -/
def new_leaf_label (wl : WLEnv) (el : edge_label) : node_label :=
  let nl0 : node_label :=
    { wl.fresh_nl with lb := setAt wl.fresh_nl.lb 0 (el.src 0), tm := setAt wl.fresh_nl.tm 0 0 }
  let nl1 := forLoopFrom 1 (wl.K_HOPS + 1)
    (fun i nl => { nl with lb := setAt nl.lb i (wl.hash (toString (nl.lb (i - 1))))
                           tm := setAt nl.tm i 0 }) nl0
  { nl1 with is_leaf := true }

/-- The first loop over the in-edges of a known vertex with in-edges: cursors 0 become 1. -/
def bump_zero (el : edge_label) : edge_label :=
  if el.itr = 0 then { el with itr := el.itr + 1 } else el

/-- The value of `min_itr` after the first loop over the in-edges. -/
def min_itr_of (wl : WLEnv) (ins : List edge_label) : Int :=
  ins.foldl (fun min_itr el => if el.itr < min_itr then el.itr else min_itr)
    ((wl.K_HOPS : Int) + 2)

/-- The streaming callback from the comment "Now node is known to the system" on. -/
def update_known (wl : WLEnv) (sched : Bool) (v : Nat) (g : Graph) : Option Effects :=
  match in_edges g v with
  | [] =>
    let nl := g.vdata v
    if nl.is_leaf then
      some { graph := { g with edges := map_out v (copy_leaf wl nl) g.edges }
             hist_updates := []
             tasks := [] }
    else none
  | _ :: _ =>
    let nl0 := g.vdata v
    let nl : node_label := if nl0.is_leaf then { nl0 with is_leaf := false } else nl0
    let es1 := map_out v (copy_node wl nl) g.edges
    let es2 := map_in v bump_zero es1
    let g2 : Graph := { g with edges := es2 }
    let min_itr := min_itr_of wl (in_edges g2 v)
    if 0 < min_itr ∧ min_itr < (wl.K_HOPS : Int) + 2 then
      if min_itr = (wl.K_HOPS : Int) + 1 then
        some { graph := g2, hist_updates := [], tasks := [] }
      else
        let neighborhood := in_edges g2 v
        let es3 := map_in v (fun el =>
          if el.itr < (wl.K_HOPS : Int) + 1 then { el with itr := el.itr + 1 } else el) es2
        let idx := (min_itr - 1).toNat
        let sorted := sort_by_tme idx neighborhood
        let new_label_str :=
          relabel_string ((g.vdata v).lb idx) (decide (min_itr = 1)) idx sorted
        let new_label := wl.hash new_label_str
        let nl1 : node_label := { nl with lb := setAt nl.lb min_itr.toNat new_label }
        let es4 := map_out v (fun el =>
          let el1 : edge_label :=
            { el with src := setAt el.src min_itr.toNat new_label
                      tme := setAt el.tme min_itr.toNat (front_tme idx sorted) }
          if el1.itr = (wl.K_HOPS : Int) + 1 then { el1 with itr := min_itr + 1 } else el1) es3
        some { graph := { vdata := setAt g.vdata v nl1, edges := es4 }
               hist_updates := publish wl new_label_str false
               tasks :=
                 (if min_itr < (wl.K_HOPS : Int) ∧ sched then out_targets g v else [])
                 ++ (if min_itr < (wl.K_HOPS : Int) + 1 ∧ sched then [v] else []) }
    else none

/-- The streaming branch of `update` (iterations after `K_HOPS`). -/
def update_stream (wl : WLEnv) (sched : Bool) (pick v : Nat) (g : Graph) : Option Effects :=
  if is_new g v then
    match in_edges g v with
    | [] =>
      match random_outedge pick (out_edges g v) with
      | none => none
      | some el =>
        let nl := new_leaf_label wl el
        some { graph :=
                 { vdata := setAt g.vdata v nl
                   edges := map_out v
                     (fun el => { copy_leaf wl nl el with new_src := false }) g.edges }
               hist_updates := (List.range (wl.K_HOPS + 1)).map (fun i => (nl.lb i, false))
               tasks := [] }
    | edge :: _ =>
      if (in_edges g v).all (fun el => decide (el.itr = 0)) then
        let nl := g.vdata v
        let nl1 : node_label :=
          { nl with lb := setAt nl.lb 0 edge.dst, tm := setAt nl.tm 0 0, is_leaf := false }
        let nl2 := forLoopFrom 1 (wl.K_HOPS + 1)
          (fun i (n : node_label) => { n with lb := setAt n.lb i 0 }) nl1
        let es1 := map_in v (fun el => { el with itr := el.itr + 1, new_dst := false }) g.edges
        let es2 := map_out v (fun el => { el with new_src := false }) es1
        match update_known wl sched v { vdata := setAt g.vdata v nl2, edges := es2 } with
        | none => none
        | some r => some { r with hist_updates := (nl2.lb 0, false) :: r.hist_updates }
      else none
  else update_known wl sched v g

/-- The vertex callback `WeisfeilerLehman::update(vertex, gcontext)` for the vertex `v`:
`sched` says whether `gcontext.scheduler` is not null and `pick` is the random number of
`random_outedge`. The result is `none` when an assertion fails or a null edge is read. -/
def update (wl : WLEnv) (sched : Bool) (pick v iteration : Nat) (g : Graph) :
    Option Effects :=
  if iteration = 0 then update_first sched pick v g wl.fresh_nl
  else if iteration < wl.K_HOPS + 1 then update_base wl sched v iteration g
  else update_stream wl sched pick v g

/-- One thing that happens to the graph: a vertex callback of the relabeler, or the host
adding a streamed edge. -/
inductive Step where
  /-- The call `update(vertex, gcontext)` for the vertex `v` in the given iteration. -/
  | callback (sched : Bool) (pick v iteration : Nat)
  /-- Modelled from the spec: the ingester of the host (not among the sources) appends a
  streamed edge, whose cursor is 0 ("never seen"). -/
  | ingest (e : Edge)

/-- The graph after one step; `none` when the callback fails or when the edge handed to the
graph does not have the cursor 0. -/
def step (wl : WLEnv) (g : Graph) : Step → Option Graph
  | .callback sched pick v iteration =>
    match update wl sched pick v iteration g with
    | none => none
    | some r => some r.graph
  | .ingest e => if e.data.itr = 0 then some { g with edges := g.edges ++ [e] } else none

/-- The graph after a sequence of steps. -/
def run (wl : WLEnv) : List Step → Graph → Option Graph
  | [], g => some g
  | s :: rest, g =>
    match step wl g s with
    | none => none
    | some g1 => run wl rest g1

/-- The callbacks of the base phase: iterations `0 .. K_HOPS`, in iteration `i` one
callback for every vertex of `order i`. -/
def base_schedule (wl : WLEnv) (sched : Bool) (pick : Nat → Nat → Nat)
    (order : Nat → List Nat) : List Step :=
  (List.range (wl.K_HOPS + 1)).flatMap
    (fun i => (order i).map (fun v => Step.callback sched (pick i v) v i))

/-- A step of the streaming phase: a callback of an iteration after `K_HOPS`, or an
ingested edge. -/
def Step.streaming (wl : WLEnv) : Step → Prop
  | .callback _ _ _ iteration => wl.K_HOPS < iteration
  | .ingest _ => True

end WeisfeilerLehman

/-! ## Driver coordination (`after_iteration` of `streaming/wl.hpp`) -/

/-- The state that `after_iteration` reads and writes: the histogram, the sketch file
`sfp`, the file that the call `hist->decay()` writes to, and the host flags. -/
structure Driver (α : Type) where
  hist : Histogram α
  sfp : String
  decay_fp : String
  base_graph_constructed : Bool
  no_new_tasks : Bool
  stop : Bool
  last_iteration : Option Nat

namespace WeisfeilerLehman

variable {α : Type} [LinearOrderedField α]

/-- `WeisfeilerLehman::after_iteration(iteration, gcontext)`; the two barrier waits only
block and are left out. -/
def after_iteration (env : Env α) (wl : WLEnv) (iteration : Nat) (d : Driver α) : Driver α :=
  let d1 : Driver α :=
    if iteration = wl.K_HOPS then { d with base_graph_constructed := true } else d
  if d1.no_new_tasks then
    let d2 : Driver α :=
      if env.LAMBDA ≠ 0 then
        let r := d1.hist.decay env d1.decay_fp
        { d1 with hist := r.1, decay_fp := r.2 }
      else d1
    let r := d2.hist.record_sketch env d2.sfp
    let d3 : Driver α := { d2 with hist := r.1, sfp := r.2 }
    if d3.stop then { d3 with last_iteration := some iteration }
    else { d3 with no_new_tasks := false }
  else d1

/-- A quiescent pass: the host has set `no_new_tasks` when `after_iteration` runs. -/
def quiescent_pass (env : Env α) (wl : WLEnv) (iteration : Nat) (d : Driver α) : Driver α :=
  after_iteration env wl iteration { d with no_new_tasks := true }

/-- The calls `hist->update(label, base)` of a callback applied to the histogram. -/
def apply_updates (env : Env α) (calls : List (Nat × Bool)) (h : Histogram α) : Histogram α :=
  calls.foldl (fun acc c => acc.update env c.1 c.2) h

end WeisfeilerLehman

/-! ## Observations used in the statements, and example inputs -/

namespace Histogram

variable {α : Type} [LinearOrderedField α]

/-- The sum of all histogram counters. -/
def counter_sum (h : Histogram α) : α := (h.histogram_map.map Prod.snd).sum

/-- The streaming updates `update(L, false)` for the labels of a sequence, in order. -/
def update_all (env : Env α) (labels : List Nat) (h : Histogram α) : Histogram α :=
  labels.foldl (fun acc L => acc.update env L false) h

/-- The counter of a label before an update, 0 when the label is not a key. -/
def base_count (h : Histogram α) (L : Nat) : α := (h.count L).getD 0

/-- No two distinct labels of `labels` produce the same hash value at a slot for the
counters that they reach: from the state `h` on, the streaming updates of `labels` give a
label `L` with counter `c` and `k` occurrences the counters `c + 1, ..., c + k`. -/
def tie_free (env : Env α) (h : Histogram α) (labels : List Nat) : Prop :=
  ∀ i, i < env.SKETCH_SIZE → ∀ L1 L2 : Nat, L1 ≠ L2 →
    ∀ m n : Nat, m < labels.count L1 → n < labels.count L2 →
      A env h L1 i (base_count h L1 + m + 1) ≠ A env h L2 i (base_count h L2 + n + 1)

/-- Two histograms that agree on every member other than `sketch`. -/
def agree_up_to_sketch (h1 h2 : Histogram α) : Prop :=
  h1.histogram_map = h2.histogram_map ∧ h1.hash = h2.hash ∧ h1.t = h2.t ∧ h1.w = h2.w ∧
  h1.powerful = h2.powerful ∧ h1.gamma_param = h2.gamma_param ∧
  h1.uniform_param = h2.uniform_param

/-- The line that the specification describes for a sketch: the values separated by single
spaces and terminated by a newline. -/
def spec_sketch_line (env : Env α) (h : Histogram α) : String :=
  " ".intercalate ((List.range env.SKETCH_SIZE).map (fun i => toString (h.sketch i))) ++ "\n"

/-- An environment for examples: `slots` sketch slots, on-the-fly parameters, the given
library functions, decay rate, decay period and parameter draws. -/
def example_env (slots : Nat) (exp log : α → α) (lambda : α) (decay_period : Int)
    (draws : Nat → Nat → Nat → hist_elem α) : Env α :=
  { SKETCH_SIZE := slots, DECAY := decay_period, WINDOW := 3, MEMORY := false, PREGEN := 1
    LAMBDA := lambda, exp := exp, log := log, draws := draws
    rand := fun _ _ => 0, pregen_gamma := fun _ _ => 1, pregen_uniform := fun _ _ => 0 }

/-- A histogram for examples: the given map, sketch labels, hash values and decay factor,
with both tick counters at 0. -/
def example_hist (m : List (Nat × α)) (sketch : Nat → Nat) (hash : Nat → α) (factor : α) :
    Histogram α :=
  { histogram_map := m, sketch := sketch, hash := hash, t := 0, w := 0, powerful := factor
    gamma_param := fun _ _ => 1, uniform_param := fun _ _ => 0 }

/-- Parameter draws for examples: `r = 1`, `beta = 1 / 2`, and `c = 1` when the engine of
`c` is seeded with 0 and `c = 3` otherwise. -/
def example_draws (_r_seed c_seed _beta_seed : Nat) : hist_elem α :=
  { r := fun _ => 1, beta := fun _ => 1 / 2, c := fun _ => if c_seed = 0 then 1 else 3 }

end Histogram

/-- The number of newline characters of a text, which is its number of lines when it ends
with a newline. -/
def line_count (s : String) : Nat := s.data.count (Char.ofNat 10)

namespace Histogram

variable {α : Type} [LinearOrderedField α]

end Histogram

namespace WeisfeilerLehman

/-- Modelled from the spec: the label hasher of `helper.hpp` (not among the sources), a
djb2-style multiply-add hash on 64 bits. -/
def example_hash (s : String) : Nat :=
  s.foldl (fun h c => (h * 33 + c.toNat) % 2 ^ 64) 5381

/-- An environment of the relabeler for examples: `K_HOPS = 1`, no chunks. -/
def example_wl : WLEnv :=
  { K_HOPS := 1, CHUNKIFY := false, CHUNK_SIZE := 1, hash := example_hash
    chunkify := fun s _ => [example_hash s]
    fresh_nl := { lb := fun _ => 0, tm := fun _ => 0, is_leaf := false } }

/-- The data of a base edge for examples: source type `s`, destination type `d`, edge type
`e`, cursor 0. -/
def example_edge_label (s d e : Nat) : edge_label :=
  { src := fun _ => s, tme := fun _ => 0, dst := d, edg := e, itr := 0
    new_src := false, new_dst := false }

/-- The base graph `A -> B` of the example scenario: vertex 0 of type 1, vertex 1 of type 2,
edge type 7. -/
def example_graph : Graph :=
  { vdata := fun _ => { lb := fun _ => 0, tm := fun _ => 0, is_leaf := false }
    edges := [{ source := 0, target := 1, data := example_edge_label 1 2 7 }] }

/-- The base graph `A -> B`, `C -> B` with the two leaves `A` (vertex 0 of type 1) and `C`
(vertex 2 of type 3); `B` is vertex 1 of type 2, the edge types are 7 and 9. -/
def example_two_leaves : Graph :=
  { vdata := fun _ => { lb := fun _ => 0, tm := fun _ => 0, is_leaf := false }
    edges := [{ source := 0, target := 1, data := example_edge_label 1 2 7 },
              { source := 2, target := 1, data := example_edge_label 3 2 9 }] }

/-- The bound on the edge cursor: `0 <= itr <= K_HOPS + 1`. -/
def itr_ok (wl : WLEnv) (el : edge_label) : Prop :=
  0 ≤ el.itr ∧ el.itr ≤ (wl.K_HOPS : Int) + 1

/-- Every edge of the graph satisfies the cursor bound. -/
def cursor_bound (wl : WLEnv) (g : Graph) : Prop :=
  ∀ e ∈ g.edges, itr_ok wl e.data

/-- The state of the cursors during iteration 0, when the vertices of `done` have had their
callback: cursor 1 on the in-edges of these vertices and cursor 0 on the other edges. -/
def first_pass_inv (done : List Nat) (g : Graph) : Prop :=
  ∀ e ∈ g.edges, (e.target ∈ done → e.data.itr = 1) ∧ (e.target ∉ done → e.data.itr = 0)

/-- A step that is not a callback of iteration 0. -/
def Step.late : Step → Prop
  | .callback _ _ _ iteration => 1 ≤ iteration
  | .ingest _ => True

/-- Streaming steps for examples, after the base phase of `example_graph`: the host adds the
edge `C -> B` (vertex 2 of type 3, edge type 9, timestamp 5), then the callbacks of `C`, of
`B` and of `B` again run. -/
def example_events : List Step :=
  [ Step.ingest
      { source := 2, target := 1
        data := { src := fun _ => 3, tme := fun _ => 5, dst := 2, edg := 9, itr := 0
                  new_src := true, new_dst := false } },
    Step.callback true 0 2 2,
    Step.callback true 0 1 2,
    Step.callback true 0 1 3 ]

/-- A driver state for examples: the given histogram, empty files, flags cleared. -/
def example_driver {α : Type} (h : Histogram α) : Driver α :=
  { hist := h, sfp := "", decay_fp := "", base_graph_constructed := false
    no_new_tasks := false, stop := false, last_iteration := none }

end WeisfeilerLehman

/-! ## Auxiliary definitions for the statements on the relabeler -/

namespace WeisfeilerLehman

/-- The body of a loop over the in-edges of `v`, as a function on the edges of the graph. -/
def edit_in (v : Nat) (f : edge_label → edge_label) (e : Edge) : Edge :=
  if e.target = v then { e with data := f e.data } else e

/-- The body of a loop over the out-edges of `v`, as a function on the edges of the graph. -/
def edit_out (v : Nat) (f : edge_label → edge_label) (e : Edge) : Edge :=
  if e.source = v then { e with data := f e.data } else e

/-- The value of `min_itr` that a streaming callback computes for a vertex with in-edges:
the least cursor of its in-edges once the cursors 0 have become 1. -/
def stream_min_itr (wl : WLEnv) (g : Graph) (v : Nat) : Int :=
  min_itr_of wl ((in_edges g v).map bump_zero)

/-- The relabeling string in the words of the specification: `str(prev)` followed, for each
neighbour `n` of the sorted neighbourhood, by `" " + str(n.edg)` only in generation 1 and
then by `" " + str(n.src[generation - 1])`. -/
def spec_relabel_string (prev generation : Nat) (sorted : List edge_label) : String :=
  toString prev ++ String.join (sorted.map (fun n =>
    (if generation = 1 then " " ++ toString n.edg else "")
      ++ (" " ++ toString (n.src (generation - 1)))))

/-- One step of the self-hash of a leaf: `hash(str(label))`. -/
def self_hash (wl : WLEnv) (label : Nat) : Nat := wl.hash (toString label)

/-- The in-edges of `v` are in ascending order of `tme[idx]`. -/
def sorted_by_tme (idx : Nat) (nb : List edge_label) : Prop :=
  nb.Sorted (fun a b => a.tme idx ≤ b.tme idx)

/-- The graph after the initialisation of a new streamed vertex with in-edges, `edge` being
the data of its first in-edge: the vertex gets `lb[0] = edge.dst`, `tm[0] = 0`, the other
labels 0 and `is_leaf = false`; every in-edge is counted once and marked as seen; every
out-edge is marked as seen. -/
def init_new_vertex (wl : WLEnv) (g : Graph) (v : Nat) (edge : edge_label) : Graph :=
  { vdata := setAt g.vdata v
      (forLoopFrom 1 (wl.K_HOPS + 1)
        (fun i (n : node_label) => { n with lb := setAt n.lb i 0 })
        { g.vdata v with
          lb := setAt (g.vdata v).lb 0 edge.dst, tm := setAt (g.vdata v).tm 0 0
          is_leaf := false })
    edges := map_out v (fun el => { el with new_src := false })
      (map_in v (fun el => { el with itr := el.itr + 1, new_dst := false }) g.edges) }

/-- An environment of the relabeler with two hops: as `example_wl`, with `K_HOPS = 2`. -/
def example_wl2 : WLEnv := { example_wl with K_HOPS := 2 }

/-- Streaming steps after the base phase of `example_graph` with two hops: the host adds the
edge `C -> A` (vertex 2 of type 3, edge type 9, timestamp 5), then the callback of the new
leaf `C` runs. The next callback is the one of `A`, the source of the base edge `A -> B`. -/
def example_rewind_events : List Step :=
  [ Step.ingest
      { source := 2, target := 0
        data := { src := fun _ => 3, tme := fun _ => 5, dst := 1, edg := 9, itr := 0
                  new_src := true, new_dst := false } },
    Step.callback true 0 2 3 ]

/-- The end points and the cursor of every edge, in the order of the edge list. -/
def cursors (g : Graph) : List (Nat × Nat × Int) :=
  g.edges.map (fun e => (e.source, e.target, e.data.itr))

/-- The graph `A -> B` during the base phase, after iteration 0: `A` is a leaf labelled 1,
`B` is labelled 2 and the cursor of the edge is `i`. -/
def example_base_state (i : Int) : Graph :=
  { vdata := fun w =>
      if w = 0 then { lb := fun _ => 1, tm := fun _ => 0, is_leaf := true }
      else { lb := fun _ => 2, tm := fun _ => 0, is_leaf := false }
    edges := [{ source := 0, target := 1, data := { example_edge_label 1 2 7 with itr := i } }] }

/-- The graph `A -> B` after its base phase together with the streamed edge `C -> B` (vertex
2 of type 3, edge type 9, timestamp 5): the cursors of the two edges are `i` and `j`, and
`fresh` is the flag `new_src` of the streamed edge. -/
def example_stream_state (i j : Int) (fresh : Bool) : Graph :=
  { vdata := fun w =>
      if w = 0 then { lb := fun _ => 1, tm := fun _ => 0, is_leaf := true }
      else if w = 1 then { lb := fun _ => 2, tm := fun _ => 0, is_leaf := false }
      else { lb := fun _ => 0, tm := fun _ => 0, is_leaf := false }
    edges :=
      [ { source := 0, target := 1, data := { example_edge_label 1 2 7 with itr := i } },
        { source := 2, target := 1
          data := { src := fun _ => 3, tme := fun _ => 5, dst := 2, edg := 9, itr := j
                    new_src := fresh, new_dst := false } } ] }

end WeisfeilerLehman

/-! ## Auxiliary definitions for the statements on cursors and streaming callbacks -/

namespace WeisfeilerLehman

/-- The body of the second loop over the in-edges in the relabeling branch of a streaming
callback: `if (el.itr < K_HOPS + 1) el.itr++;`. -/
def bump_below (wl : WLEnv) (el : edge_label) : edge_label :=
  if el.itr < (wl.K_HOPS : Int) + 1 then { el with itr := el.itr + 1 } else el

/-- The body of the last loop over the out-edges in the relabeling branch of a streaming
callback: `el.src[min_itr] = new_label; el.tme[min_itr] = neighborhood[0].tme[min_itr - 1];
if (el.itr == K_HOPS + 1) el.itr = min_itr + 1;`, with `m`, `L` and `T` the values of
`min_itr`, `new_label` and `neighborhood[0].tme[min_itr - 1]`. -/
def publish_out (wl : WLEnv) (m : Int) (L : Nat) (T : Int) (el : edge_label) : edge_label :=
  let el1 : edge_label :=
    { el with src := setAt el.src m.toNat L, tme := setAt el.tme m.toNat T }
  if el1.itr = (wl.K_HOPS : Int) + 1 then { el1 with itr := m + 1 } else el1

/-- What the relabeling branch of a streaming callback on `v` does to one edge: the out-edge
sync with the vertex data `nl`, the two loops over the in-edges and the last loop over the
out-edges, in this order. -/
def relabel_edge (wl : WLEnv) (v : Nat) (nl : node_label) (m : Int) (L : Nat) (T : Int)
    (e : Edge) : Edge :=
  edit_out v (publish_out wl m L T)
    (edit_in v (bump_below wl) (edit_in v bump_zero (edit_out v (copy_node wl nl) e)))

/-- The cursor of an in-edge after a relabeling at generation `m`, from its cursor `i`
before the callback: 0 counts as 1, a cursor below `K + 1` is incremented, and a self-loop
(`self`) that reaches `K + 1` is rewound to `m + 1`. -/
def next_cursor (wl : WLEnv) (m : Int) (self : Bool) (i : Int) : Int :=
  let i1 := if i = 0 then 1 else i
  let i2 := if i1 < (wl.K_HOPS : Int) + 1 then i1 + 1 else i1
  if self ∧ i2 = (wl.K_HOPS : Int) + 1 then m + 1 else i2

/-- The streamed edge `B -> D` for examples: `B` is vertex 1 of the base graph `A -> B`, `D`
is the new vertex 3 of type 4; edge type 9, timestamp 5. -/
def example_new_target : Step :=
  Step.ingest
    { source := 1, target := 3
      data := { src := fun _ => 2, tme := fun _ => 5, dst := 4, edg := 9, itr := 0
                new_src := false, new_dst := true } }

/-- The state of the cursors during base iteration `i`, when the vertices of `done` have
had their callback of this iteration: cursor `i + 1` on the in-edges of these vertices and
cursor `i` on the other edges. -/
def lockstep_inv (i : Int) (done : List Nat) (g : Graph) : Prop :=
  ∀ e ∈ g.edges, (e.target ∈ done → e.data.itr = i + 1) ∧ (e.target ∉ done → e.data.itr = i)

/-- The vertex is not isolated: `vertex.num_edges() > 0`. -/
def has_edge (g : Graph) (v : Nat) : Prop :=
  ∃ e ∈ g.edges, e.target = v ∨ e.source = v

/-- The end points of the edges, in the order of the edge list. -/
def ends (g : Graph) : List (Nat × Nat) :=
  g.edges.map (fun e => (e.source, e.target))

/-- The callbacks of base iteration `i`: one for every vertex of `order i`. -/
def base_pass (sched : Bool) (pick : Nat → Nat → Nat) (order : Nat → List Nat) (i : Nat) :
    List Step :=
  (order i).map (fun v => Step.callback sched (pick i v) v i)

/-- The streamed edge `D -> A` for examples, out of the new vertex 3 of type 4: edge type 8,
timestamp 6. -/
def example_new_source : Step :=
  Step.ingest
    { source := 3, target := 0
      data := { src := fun _ => 4, tme := fun _ => 6, dst := 1, edg := 8, itr := 0
                new_src := true, new_dst := false } }

end WeisfeilerLehman

/-! ## Lemmas on loops and on the ordered map -/

set_option linter.unusedSectionVars false
set_option linter.unusedVariables false

theorem forLoop_zero {σ : Type} (body : Nat → σ → σ) (s : σ) : forLoop 0 body s = s := rfl

theorem forLoop_succ {σ : Type} (n : Nat) (body : Nat → σ → σ) (s : σ) :
    forLoop (n + 1) body s = body n (forLoop n body s) := by
  simp [forLoop, List.range_succ, List.foldl_append]

theorem forLoop_inv {σ : Type} (P : σ → Prop) (body : Nat → σ → σ)
    (hstep : ∀ i s, P s → P (body i s)) : ∀ (n : Nat) (s : σ), P s → P (forLoop n body s) := by
  intro n
  induction n with
  | zero => intro s hs; simpa [forLoop_zero] using hs
  | succ n ih =>
    intro s hs
    rw [forLoop_succ]
    exact hstep _ _ (ih s hs)

namespace Histogram

variable {α : Type} [LinearOrderedField α]

theorem lookup_cons_if {β : Type} (k a : Nat) (b : β) (rest : List (Nat × β)) :
    List.lookup k ((a, b) :: rest) = if k = a then some b else List.lookup k rest := by
  by_cases h : k = a
  · subst h; simp [List.lookup]
  · have hb : (k == a) = false := by simpa using h
    simp [List.lookup, hb, h]

theorem lookup_map_emplace_self (k : Nat) (v : α) (m : List (Nat × α))
    (hk : m.lookup k = none) : (map_emplace k v m).lookup k = some v := by
  induction m with
  | nil => simp [map_emplace, lookup_cons_if]
  | cons p rest ih =>
    obtain ⟨a, b⟩ := p
    rw [lookup_cons_if] at hk
    by_cases hka : k = a
    · simp [hka] at hk
    · simp only [hka, if_false] at hk
      simp only [map_emplace]
      split_ifs with hlt
      · simp [lookup_cons_if]
      · rw [lookup_cons_if, if_neg hka]
        exact ih hk

theorem lookup_map_emplace_other (k k' : Nat) (v : α) (m : List (Nat × α)) (hne : k' ≠ k) :
    (map_emplace k v m).lookup k' = m.lookup k' := by
  induction m with
  | nil => simp [map_emplace, lookup_cons_if, hne]
  | cons p rest ih =>
    obtain ⟨a, b⟩ := p
    simp only [map_emplace]
    split_ifs with hlt
    · rw [lookup_cons_if, if_neg hne]
    · rw [lookup_cons_if, lookup_cons_if, ih]

theorem keys_map_emplace (k x : Nat) (v : α) (m : List (Nat × α)) :
    x ∈ (map_emplace k v m).map Prod.fst ↔ x ∈ m.map Prod.fst ∨ x = k := by
  induction m with
  | nil => simp [map_emplace]
  | cons p rest ih =>
    simp only [map_emplace]
    split_ifs with hlt
    · simp only [List.map_cons, List.mem_cons]; tauto
    · simp only [List.map_cons, List.mem_cons, ih]; tauto

theorem lookup_incr_self (k : Nat) (c : α) (m : List (Nat × α)) (hk : m.lookup k = some c) :
    (m.map (fun p => if p.1 = k then (p.1, p.2 + 1) else p)).lookup k = some (c + 1) := by
  induction m with
  | nil => simp [List.lookup] at hk
  | cons p rest ih =>
    obtain ⟨a, b⟩ := p
    rw [lookup_cons_if] at hk
    by_cases hka : k = a
    · subst hka
      simp only [if_true, Option.some.injEq] at hk
      rw [List.map_cons, if_pos rfl, lookup_cons_if, if_pos rfl, hk]
    · rw [if_neg hka] at hk
      rw [List.map_cons, if_neg (fun h => hka h.symm), lookup_cons_if, if_neg hka]
      exact ih hk

theorem lookup_incr_other (k k' : Nat) (m : List (Nat × α)) (hne : k' ≠ k) :
    (m.map (fun p => if p.1 = k then (p.1, p.2 + 1) else p)).lookup k' = m.lookup k' := by
  induction m with
  | nil => simp
  | cons p rest ih =>
    obtain ⟨a, b⟩ := p
    by_cases hak : a = k
    · subst hak
      rw [List.map_cons, if_pos rfl, lookup_cons_if, lookup_cons_if, if_neg hne, if_neg hne, ih]
    · rw [List.map_cons, if_neg hak, lookup_cons_if, lookup_cons_if, ih]

theorem keys_incr (k : Nat) (m : List (Nat × α)) :
    (m.map (fun p => if p.1 = k then (p.1, p.2 + 1) else p)).map Prod.fst = m.map Prod.fst := by
  induction m with
  | nil => simp
  | cons p rest ih =>
    simp only [List.map_cons, ih]
    split_ifs <;> simp

theorem mem_of_lookup {β : Type} (k : Nat) (c : β) (m : List (Nat × β))
    (hk : m.lookup k = some c) : (k, c) ∈ m := by
  induction m with
  | nil => simp [List.lookup] at hk
  | cons p rest ih =>
    obtain ⟨a, b⟩ := p
    rw [lookup_cons_if] at hk
    by_cases hka : k = a
    · subst hka
      simp only [if_true, Option.some.injEq] at hk
      simp [hk]
    · rw [if_neg hka] at hk
      exact List.mem_cons_of_mem _ (ih hk)

theorem mem_keys_of_lookup (k : Nat) (c : α) (m : List (Nat × α)) (hk : m.lookup k = some c) :
    k ∈ m.map Prod.fst :=
  List.mem_map.mpr ⟨(k, c), mem_of_lookup k c m hk, rfl⟩

/-- The slot loop of `update` touches only `hash` and `sketch`. -/
theorem update_loop_frame (env : Env α) (p : hist_elem α) (L : Nat) (c : α) (n : Nat)
    (h : Histogram α) :
    (forLoop n (update_slot env p L c) h).histogram_map = h.histogram_map ∧
    (forLoop n (update_slot env p L c) h).t = h.t ∧
    (forLoop n (update_slot env p L c) h).w = h.w ∧
    (forLoop n (update_slot env p L c) h).powerful = h.powerful ∧
    (forLoop n (update_slot env p L c) h).gamma_param = h.gamma_param ∧
    (forLoop n (update_slot env p L c) h).uniform_param = h.uniform_param := by
  induction n with
  | zero => simp [forLoop_zero]
  | succ n ih =>
    rw [forLoop_succ]
    unfold update_slot
    simp only []
    split_ifs <;> exact ih

theorem update_slot_at (env : Env α) (p : hist_elem α) (L : Nat) (c : α) (i : Nat)
    (s : Histogram α) (j : Nat) :
    (update_slot env p L c i s).hash j =
      (if j = i ∧ hash_value env p i c < s.hash i then hash_value env p i c else s.hash j) ∧
    (update_slot env p L c i s).sketch j =
      (if j = i ∧ hash_value env p i c < s.hash i then L else s.sketch j) := by
  unfold update_slot
  by_cases ha : hash_value env p i c < s.hash i
  · by_cases hj : j = i <;> simp [ha, hj, setAt]
  · simp [ha]

/-- The slot loop of `update`, slot by slot. -/
theorem update_loop_slot (env : Env α) (p : hist_elem α) (L : Nat) (c : α) (n : Nat)
    (h : Histogram α) (j : Nat) :
    (forLoop n (update_slot env p L c) h).hash j =
      (if j < n ∧ hash_value env p j c < h.hash j then hash_value env p j c else h.hash j) ∧
    (forLoop n (update_slot env p L c) h).sketch j =
      (if j < n ∧ hash_value env p j c < h.hash j then L else h.sketch j) := by
  induction n with
  | zero => simp [forLoop_zero]
  | succ n ih =>
    rw [forLoop_succ]
    obtain ⟨ih1, ih2⟩ := ih
    generalize forLoop n (update_slot env p L c) h = s at ih1 ih2 ⊢
    obtain ⟨e1, e2⟩ := update_slot_at env p L c n s j
    rw [e1, e2]
    by_cases hjn : j = n
    · subst hjn
      have hlt : ¬ j < j := lt_irrefl j
      simp only [hlt, false_and, if_false] at ih1 ih2
      simp [ih1, ih2]
    · have hiff : (j < n + 1) ↔ j < n := by omega
      simp only [hjn, false_and, if_false, hiff]
      exact ⟨ih1, ih2⟩

/-! ### Counters after `update` (C1) -/

theorem update_map_eq (env : Env α) (L : Nat) (base : Bool) (h : Histogram α) :
    (h.update env L base).histogram_map = (map_insert_incr L h.histogram_map).1 := by
  unfold update
  cases base <;> cases hM : env.MEMORY <;>
    simp [(update_loop_frame env _ L _ env.SKETCH_SIZE _).1]

theorem update_count_keys (env : Env α) (h : Histogram α) (L : Nat) (base : Bool) :
    (h.update env L base).count L
        = some (match h.count L with
                | none => 1
                | some c => c + 1) ∧
    (∀ k, k ∈ (h.update env L base).keys ↔ k ∈ h.keys ∨ k = L) ∧
    (∀ k, k ≠ L → (h.update env L base).count k = h.count k) := by
  simp only [count, keys, update_map_eq, map_insert_incr]
  cases hk : h.histogram_map.lookup L with
  | none =>
    refine ⟨lookup_map_emplace_self L 1 _ hk, fun k => keys_map_emplace L k 1 _, ?_⟩
    intro k hne
    exact lookup_map_emplace_other L k 1 _ hne
  | some c =>
    refine ⟨lookup_incr_self L c _ hk, ?_, fun k hne => lookup_incr_other L k _ hne⟩
    intro k
    simp only [keys_incr]
    constructor
    · intro hmem; exact Or.inl hmem
    · rintro (hmem | rfl)
      · exact hmem
      · exact mem_keys_of_lookup _ c _ hk

/-- C1. `update(L, base)`: the counter of `L` becomes 1 when `L` was absent and the old
counter plus 1 when it was present; the keys are the old keys and `L`; the counter of every
other label is unchanged. -/
theorem update_counter (env : Env α) (h : Histogram α) (L : Nat) (base : Bool) :
    (h.update env L base).count L
        = some (match h.count L with
                | none => 1
                | some c => c + 1) ∧
    (∀ k, k ∈ (h.update env L base).keys ↔ k ∈ h.keys ∨ k = L) ∧
    (∀ k, k ≠ L → (h.update env L base).count k = h.count k) :=
  update_count_keys env h L base

/-! ### The slot rule of `update` (C2) -/

theorem update_base_frame (env : Env α) (L : Nat) (h : Histogram α) :
    (h.update env L true).hash = h.hash ∧ (h.update env L true).sketch = h.sketch := by
  simp [update]

/-- The state of slot `j` after a streaming `update`, with `c` the counter read back. -/
theorem update_stream_slot (env : Env α) (L : Nat) (h : Histogram α) (j : Nat) :
    (h.update env L false).hash j =
      (if j < env.SKETCH_SIZE ∧ A env h L j (map_insert_incr L h.histogram_map).2 < h.hash j
       then A env h L j (map_insert_incr L h.histogram_map).2 else h.hash j) ∧
    (h.update env L false).sketch j =
      (if j < env.SKETCH_SIZE ∧ A env h L j (map_insert_incr L h.histogram_map).2 < h.hash j
       then L else h.sketch j) := by
  unfold update A label_params
  cases hM : env.MEMORY
  · simpa using update_loop_slot env (construct_hist_elem env L) L _ env.SKETCH_SIZE _ j
  · simpa [pregen_elem] using
      update_loop_slot env
        (pregen_elem env { h with histogram_map := (map_insert_incr L h.histogram_map).1 } L)
        L _ env.SKETCH_SIZE _ j

theorem count_after_update (env : Env α) (L : Nat) (base : Bool) (h : Histogram α) :
    (h.update env L base).count L = some (map_insert_incr L h.histogram_map).2 := by
  rw [(update_count_keys env h L base).1]
  simp only [count, map_insert_incr]
  cases h.histogram_map.lookup L <;> rfl

/-- C2. Slot rule of `update`: with `c` the counter of `L` after the increment and
`a = c_i(L) / (exp(ln c - r_i(L) * beta_i(L)) * exp(r_i(L)))`, a streaming update sets
`hash[i]` to `a` and `sketch[i]` to `L` when `a < hash[i]` and leaves both unchanged
otherwise, so the new `hash[i]` is `min(hash[i], a)`; a base update changes no slot. -/
theorem update_slot_rule (env : Env α) (h : Histogram α) (L i : Nat)
    (hi : i < env.SKETCH_SIZE) :
    (∃ c, (h.update env L false).count L = some c ∧
      (let p := label_params env h L
       let a := p.c i / (env.exp (env.log c - p.r i * p.beta i) * env.exp (p.r i))
       (a < h.hash i →
          (h.update env L false).hash i = a ∧ (h.update env L false).sketch i = L) ∧
       (¬ a < h.hash i →
          (h.update env L false).hash i = h.hash i ∧
          (h.update env L false).sketch i = h.sketch i) ∧
       (h.update env L false).hash i = min (h.hash i) a)) ∧
    (h.update env L true).hash i = h.hash i ∧
    (h.update env L true).sketch i = h.sketch i := by
  refine ⟨⟨(map_insert_incr L h.histogram_map).2, count_after_update env L false h, ?_⟩, ?_⟩
  · obtain ⟨e1, e2⟩ := update_stream_slot env L h i
    simp only [A, hash_value] at e1 e2
    simp only []
    rw [e1, e2]
    refine ⟨?_, ?_, ?_⟩
    · intro ha; simp [hi, ha]
    · intro ha; simp [ha]
    · by_cases ha : (label_params env h L).c i /
          (env.exp (env.log (map_insert_incr L h.histogram_map).2 -
            (label_params env h L).r i * (label_params env h L).beta i) *
            env.exp ((label_params env h L).r i)) < h.hash i
      · simp [hi, ha, min_eq_right (le_of_lt ha)]
      · simp [ha, min_eq_left (not_lt.mp ha)]
  · obtain ⟨e1, e2⟩ := update_base_frame env L h
    rw [e1, e2]
    exact ⟨rfl, rfl⟩

/-! ### `create_sketch` (C3) -/

theorem lookup_base_map (env : Env α) (m : List (Nat × α)) (p : Nat × α) (hp : p ∈ m) :
    (build_base_map env m).lookup p.1 = some (construct_hist_elem env p.1) := by
  induction m with
  | nil => simp at hp
  | cons q rest ih =>
    obtain ⟨a, b⟩ := q
    simp only [build_base_map, List.map_cons]
    rw [lookup_cons_if]
    by_cases hpa : p.1 = a
    · rw [if_pos hpa, hpa]
    · rw [if_neg hpa]
      rcases List.mem_cons.mp hp with h1 | h1
      · exact absurd (by rw [h1]) hpa
      · exact ih h1

/-- The inner loop of `create_sketch` returns a value that is at most the start value and
at most the hash of every entry; the pair it returns is the start pair or the pair of an
entry. -/
theorem sketch_scan_spec (env : Env α) (find : Nat → Option (hist_elem α))
    (params : Nat → hist_elem α) (i : Nat) :
    ∀ (l : List (Nat × α)) (acc : α × Nat),
      (∀ p ∈ l, find p.1 = some (params p.1)) →
      ∃ r, sketch_scan env find i l acc = some r ∧ r.1 ≤ acc.1 ∧
        (∀ p ∈ l, r.1 ≤ hash_value env (params p.1) i p.2) ∧
        (r = acc ∨ ∃ p ∈ l, r = (hash_value env (params p.1) i p.2, p.1)) := by
  intro l
  induction l with
  | nil =>
    intro acc _
    exact ⟨acc, rfl, le_refl _, by simp, Or.inl rfl⟩
  | cons q rest ih =>
    intro acc hfind
    have hq : find q.1 = some (params q.1) := hfind q (List.mem_cons_self _ _)
    have hrest : ∀ p ∈ rest, find p.1 = some (params p.1) :=
      fun p hp => hfind p (List.mem_cons_of_mem _ hp)
    simp only [sketch_scan, hq]
    by_cases ha : hash_value env (params q.1) i q.2 < acc.1
    · simp only [ha, if_true]
      obtain ⟨r, hr, hle, hall, hor⟩ := ih (hash_value env (params q.1) i q.2, q.1) hrest
      refine ⟨r, hr, le_trans hle (le_of_lt ha), ?_, ?_⟩
      · intro p hp
        rcases List.mem_cons.mp hp with h1 | h1
        · rw [h1]; exact hle
        · exact hall p h1
      · rcases hor with h1 | ⟨p, hp, h1⟩
        · exact Or.inr ⟨q, List.mem_cons_self _ _, h1⟩
        · exact Or.inr ⟨p, List.mem_cons_of_mem _ hp, h1⟩
    · simp only [ha, if_false]
      obtain ⟨r, hr, hle, hall, hor⟩ := ih acc hrest
      refine ⟨r, hr, hle, ?_, ?_⟩
      · intro p hp
        rcases List.mem_cons.mp hp with h1 | h1
        · rw [h1]; exact le_trans hle (not_lt.mp ha)
        · exact hall p h1
      · rcases hor with h1 | ⟨p, hp, h1⟩
        · exact Or.inl h1
        · exact Or.inr ⟨p, List.mem_cons_of_mem _ hp, h1⟩

/-- The slot loop of `create_sketch` on a non-empty map whose labels all have parameters:
it completes, touches only `sketch` and `hash`, and every processed slot is a lower bound
of the hashes of all entries. -/
theorem sketch_slots_spec (env : Env α) (find : Nat → Option (hist_elem α))
    (params : Nat → hist_elem α) :
    ∀ (slots : List Nat) (h : Histogram α),
      h.histogram_map ≠ [] →
      (∀ p ∈ h.histogram_map, find p.1 = some (params p.1)) →
      ∃ h1, sketch_slots env find slots h = some h1 ∧
        h1.histogram_map = h.histogram_map ∧ h1.t = h.t ∧ h1.w = h.w ∧
        h1.powerful = h.powerful ∧ h1.gamma_param = h.gamma_param ∧
        h1.uniform_param = h.uniform_param ∧
        (∀ j, (∀ p ∈ h.histogram_map, h.hash j ≤ hash_value env (params p.1) j p.2) →
          ∀ p ∈ h.histogram_map, h1.hash j ≤ hash_value env (params p.1) j p.2) ∧
        (∀ j ∈ slots, ∀ p ∈ h.histogram_map, h1.hash j ≤ hash_value env (params p.1) j p.2) := by
  intro slots
  induction slots with
  | nil =>
    intro h _ _
    exact ⟨h, rfl, rfl, rfl, rfl, rfl, rfl, rfl, fun j hj => hj, by simp⟩
  | cons i slots ih =>
    intro h hne hfind
    obtain ⟨q, rest, hm⟩ := List.exists_cons_of_ne_nil hne
    have hq : find q.1 = some (params q.1) := hfind q (by rw [hm]; exact List.mem_cons_self _ _)
    obtain ⟨r, hr, hle, hall, hor⟩ :=
      sketch_scan_spec env find params i h.histogram_map
        (hash_value env (params q.1) i q.2, q.1) hfind
    obtain ⟨h1, e, em, et, ew, ep, eg, eu, hkeep, hslots⟩ :=
      ih { h with sketch := setAt h.sketch i r.2, hash := setAt h.hash i r.1 } hne hfind
    simp only [] at em et ew ep eg eu hkeep hslots
    refine ⟨h1, ?_, em, et, ew, ep, eg, eu, ?_, ?_⟩
    · rw [← e]
      have hr1 : sketch_scan env find i (q :: rest)
          (hash_value env (params q.1) i q.2, q.1) = some r := by rw [← hm]; exact hr
      simp only [sketch_slots, hm, hq, hr1]
    · intro j hj
      apply hkeep j
      intro p hp
      by_cases hji : j = i
      · subst hji
        simp only [setAt, if_true]
        exact hall p hp
      · simp only [setAt, hji, if_false]
        exact hj p hp
    · intro j hj
      rcases List.mem_cons.mp hj with h2 | h2
      · subst h2
        apply hkeep j
        intro p hp
        simp only [setAt, if_true]
        exact hall p hp
      · exact hslots j h2

theorem fill_params_map (env : Env α) (h : Histogram α) :
    (fill_params env h).histogram_map = h.histogram_map := by
  unfold fill_params
  apply forLoop_inv (fun s : Histogram α => s.histogram_map = h.histogram_map)
  · intro i s hs
    apply forLoop_inv (fun s : Histogram α => s.histogram_map = h.histogram_map)
    · intro j s2 hs2; exact hs2
    · exact hs
  · rfl

/-- The result of `create_sketch` on a non-empty histogram. -/
theorem create_sketch_spec (env : Env α) (h : Histogram α) (hne : h.histogram_map ≠ []) :
    ∃ h1, h.create_sketch env = some h1 ∧ h1.histogram_map = h.histogram_map ∧
      ∀ i, i < env.SKETCH_SIZE → ∀ L c, h1.count L = some c → h1.hash i ≤ A env h1 L i c := by
  unfold create_sketch
  cases hM : env.MEMORY
  · obtain ⟨h1, e, em, -, -, -, -, -, -, hslots⟩ :=
      sketch_slots_spec env (fun label => (build_base_map env h.histogram_map).lookup label)
        (construct_hist_elem env) (List.range env.SKETCH_SIZE) h hne
        (fun p hp => lookup_base_map env h.histogram_map p hp)
    refine ⟨h1, by simpa using e, em, ?_⟩
    intro i hi L c hc
    have hmem : (L, c) ∈ h.histogram_map := by
      rw [← em]; exact mem_of_lookup L c _ hc
    simpa [A, label_params, hM] using hslots i (List.mem_range.mpr hi) (L, c) hmem
  · have hne1 : (fill_params env h).histogram_map ≠ [] := by
      rw [fill_params_map]; exact hne
    obtain ⟨h1, e, em, -, -, -, eg, eu, -, hslots⟩ :=
      sketch_slots_spec env (fun label => some (pregen_elem env (fill_params env h) label))
        (pregen_elem env (fill_params env h)) (List.range env.SKETCH_SIZE)
        (fill_params env h) hne1 (fun p hp => rfl)
    refine ⟨h1, by simpa using e, by rw [em, fill_params_map], ?_⟩
    intro i hi L c hc
    have hmem : (L, c) ∈ (fill_params env h).histogram_map := by
      rw [← em]; exact mem_of_lookup L c _ hc
    have := hslots i (List.mem_range.mpr hi) (L, c) hmem
    simpa [A, label_params, hM, pregen_elem, eg, eu] using this

/-- C3. After `create_sketch` on a non-empty histogram (the call completes), for every slot
`i` and every label `L` of the histogram with counter `c`, `hash[i] <= A(L, i, c)`. -/
theorem create_sketch_lower_bound (env : Env α) (h : Histogram α)
    (hne : h.histogram_map ≠ []) :
    ∃ h1, h.create_sketch env = some h1 ∧
      ∀ i, i < env.SKETCH_SIZE → ∀ L c, h1.count L = some c → h1.hash i ≤ A env h1 L i c := by
  obtain ⟨h1, e, -, hb⟩ := create_sketch_spec env h hne
  exact ⟨h1, e, hb⟩

/-! ### The min-hash invariant under streaming updates (C4) -/

theorem update_params_frame (env : Env α) (L : Nat) (base : Bool) (h : Histogram α) :
    (h.update env L base).gamma_param = h.gamma_param ∧
    (h.update env L base).uniform_param = h.uniform_param ∧
    (h.update env L base).t = h.t ∧ (h.update env L base).w = h.w ∧
    (h.update env L base).powerful = h.powerful := by
  unfold update
  cases base <;> cases hM : env.MEMORY <;>
    simp [update_loop_frame env _ L _ env.SKETCH_SIZE _]

theorem A_update (env : Env α) (L : Nat) (base : Bool) (h : Histogram α) (L1 i : Nat) (c : α) :
    A env (h.update env L base) L1 i c = A env h L1 i c := by
  obtain ⟨eg, eu, -⟩ := update_params_frame env L base h
  simp [A, label_params, pregen_elem, eg, eu]

theorem update_hash_le (env : Env α) (L : Nat) (h : Histogram α) (j : Nat) :
    (h.update env L false).hash j ≤ h.hash j := by
  rw [(update_stream_slot env L h j).1]
  split_ifs with hc
  · exact le_of_lt hc.2
  · exact le_refl _

theorem update_hash_le_new (env : Env α) (L : Nat) (h : Histogram α) (j : Nat)
    (hj : j < env.SKETCH_SIZE) :
    (h.update env L false).hash j ≤ A env h L j (map_insert_incr L h.histogram_map).2 := by
  rw [(update_stream_slot env L h j).1]
  split_ifs with hc
  · exact le_refl _
  · exact not_lt.mp (fun hlt => hc ⟨hj, hlt⟩)

/-- The min-hash invariant: every slot is a lower bound of `A` over the labels of the
histogram with their counters. -/
theorem update_inv (env : Env α) (h : Histogram α) (L : Nat)
    (hinv : ∀ i, i < env.SKETCH_SIZE → ∀ L1 c1, h.count L1 = some c1 →
      h.hash i ≤ A env h L1 i c1) :
    ∀ i, i < env.SKETCH_SIZE → ∀ L1 c1, (h.update env L false).count L1 = some c1 →
      (h.update env L false).hash i ≤ A env (h.update env L false) L1 i c1 := by
  intro i hi L1 c1 hc
  rw [A_update]
  by_cases hL : L1 = L
  · subst hL
    rw [count_after_update] at hc
    simp only [Option.some.injEq] at hc
    rw [← hc]
    exact update_hash_le_new env L1 h i hi
  · rw [(update_count_keys env h L false).2.2 L1 hL] at hc
    exact le_trans (update_hash_le env L h i) (hinv i hi L1 c1 hc)

/-- C4. A streaming `update(L, false)` keeps the min-hash invariant: if `hash[i] <= A(L1, i, c1)`
for every slot and every label `L1` of the histogram with counter `c1`, then the same holds
afterwards for every slot and every label with its new counter, in particular for `L`. -/
theorem update_keeps_min_hash (env : Env α) (h : Histogram α) (L : Nat)
    (hinv : ∀ i, i < env.SKETCH_SIZE → ∀ L1 c1, h.count L1 = some c1 →
      h.hash i ≤ A env h L1 i c1) :
    (∀ i, i < env.SKETCH_SIZE → ∀ L1 c1, (h.update env L false).count L1 = some c1 →
      (h.update env L false).hash i ≤ A env (h.update env L false) L1 i c1) ∧
    (∃ c, (h.update env L false).count L = some c ∧
      ∀ i, i < env.SKETCH_SIZE → (h.update env L false).hash i ≤ A env h L i c) :=
  ⟨update_inv env h L hinv,
    ⟨(map_insert_incr L h.histogram_map).2, count_after_update env L false h,
      fun i hi => update_hash_le_new env L h i hi⟩⟩

/-! ### `decay` (C5, C6) -/

/-- The hash loop of `decay`. -/
theorem decay_loop (n : Nat) (h : Histogram α) :
    (forLoop n (fun i s => { s with hash := setAt s.hash i (s.hash i * s.powerful) }) h)
      = { h with hash := fun j => if j < n then h.hash j * h.powerful else h.hash j } := by
  induction n with
  | zero => simp [forLoop_zero]
  | succ n ih =>
    rw [forLoop_succ, ih]
    simp only [Histogram.mk.injEq, true_and, and_true]
    funext j
    simp only [setAt]
    by_cases hjn : j = n
    · subst hjn; simp
    · have hiff : (j < n + 1) ↔ j < n := by omega
      simp [hjn, hiff]

theorem lookup_scale (k : Nat) (f : α) (m : List (Nat × α)) :
    (m.map (fun it : Nat × α => (it.1, it.2 * f))).lookup k = (m.lookup k).map (fun c => c * f) := by
  induction m with
  | nil => simp
  | cons p rest ih =>
    obtain ⟨a, b⟩ := p
    rw [List.map_cons, lookup_cons_if, lookup_cons_if, ih]
    split_ifs <;> simp

/-- The members after `decay` when the multiplication is triggered. -/
theorem decay_trigger (env : Env α) (h : Histogram α) (fp : String)
    (ht : env.DECAY ≤ h.t + 1) :
    (h.decay env fp).1.t = 0 ∧
    (h.decay env fp).1.histogram_map
      = h.histogram_map.map (fun it : Nat × α => (it.1, it.2 * h.powerful)) ∧
    (h.decay env fp).1.hash
      = (fun j => if j < env.SKETCH_SIZE then h.hash j * h.powerful else h.hash j) ∧
    (h.decay env fp).1.sketch = h.sketch := by
  unfold decay
  simp only [ge_iff_le, ht, if_true, decay_loop]
  split_ifs <;> simp

/-- The members after `decay` when the multiplication is not triggered. -/
theorem decay_idle (env : Env α) (h : Histogram α) (fp : String)
    (ht : ¬ env.DECAY ≤ h.t + 1) :
    (h.decay env fp).1.t = h.t + 1 ∧
    (h.decay env fp).1.histogram_map = h.histogram_map ∧
    (h.decay env fp).1.hash = h.hash ∧
    (h.decay env fp).1.sketch = h.sketch := by
  unfold decay
  simp only [ge_iff_le, ht, if_false]
  split_ifs <;> simp

theorem real_factor_half : Real.exp (-(Real.log 2)) = 1 / 2 := by
  rw [Real.exp_neg, Real.exp_log (by norm_num : (0 : ℝ) < 2)]
  norm_num

/-- C5. `decay` increments `t`; when the incremented `t` reaches `DECAY` every counter and
every `hash[i]` is multiplied by the decay factor and `t` is reset to 0, otherwise counters
and hashes are unchanged; the keys and every `sketch[i]` are unchanged in both cases. With
`lambda = ln 2` (decay factor `e^(-lambda)`), `DECAY = 1` and a single label of count 4, one
decay leaves count 2 and halves every `hash[i]`. -/
theorem decay_tick (env : Env α) (h : Histogram α) (fp : String) :
    (env.DECAY ≤ h.t + 1 →
      (h.decay env fp).1.t = 0 ∧
      (∀ L, (h.decay env fp).1.count L = (h.count L).map (fun c => c * h.powerful)) ∧
      (∀ i, i < env.SKETCH_SIZE → (h.decay env fp).1.hash i = h.hash i * h.powerful)) ∧
    (¬ env.DECAY ≤ h.t + 1 →
      (h.decay env fp).1.t = h.t + 1 ∧
      (∀ L, (h.decay env fp).1.count L = h.count L) ∧
      (∀ i, (h.decay env fp).1.hash i = h.hash i)) ∧
    (h.decay env fp).1.keys = h.keys ∧
    (∀ i, (h.decay env fp).1.sketch i = h.sketch i) ∧
    (∀ (envR : Env ℝ) (hR : Histogram ℝ) (L : Nat),
      envR.exp = Real.exp → envR.LAMBDA = Real.log 2 →
      hR.powerful = envR.exp (-envR.LAMBDA) → envR.DECAY = 1 → 0 ≤ hR.t →
      hR.histogram_map = [(L, 4)] →
      (hR.decay envR fp).1.histogram_map = [(L, 2)] ∧
      ∀ i, i < envR.SKETCH_SIZE →
        (hR.decay envR fp).1.hash i = hR.hash i / 2 ∧
        (hR.decay envR fp).1.sketch i = hR.sketch i) := by
  refine ⟨?_, ?_, ?_, ?_, ?_⟩
  · intro ht
    obtain ⟨e1, e2, e3, -⟩ := decay_trigger env h fp ht
    refine ⟨e1, ?_, ?_⟩
    · intro L; simp only [count, e2, lookup_scale]
    · intro i hi; rw [e3]; simp [hi]
  · intro ht
    obtain ⟨e1, e2, e3, -⟩ := decay_idle env h fp ht
    exact ⟨e1, fun L => by simp only [count, e2], fun i => by rw [e3]⟩
  · by_cases ht : env.DECAY ≤ h.t + 1
    · simp only [keys, (decay_trigger env h fp ht).2.1, List.map_map]
      rfl
    · simp only [keys, (decay_idle env h fp ht).2.1]
  · intro i
    by_cases ht : env.DECAY ≤ h.t + 1
    · rw [(decay_trigger env h fp ht).2.2.2]
    · rw [(decay_idle env h fp ht).2.2.2]
  · intro envR hR L hexp hlam hpow hdecay ht hmap
    have hfac : hR.powerful = 1 / 2 := by rw [hpow, hexp, hlam, real_factor_half]
    have htr : envR.DECAY ≤ hR.t + 1 := by rw [hdecay]; omega
    obtain ⟨-, e2, e3, e4⟩ := decay_trigger envR hR fp htr
    refine ⟨?_, ?_⟩
    · rw [e2, hmap, hfac]; norm_num
    · intro i hi
      rw [e3, e4, hfac]
      simp [hi]
      ring

theorem sum_scale (f : α) (m : List (Nat × α)) :
    ((m.map (fun it : Nat × α => (it.1, it.2 * f))).map Prod.snd).sum
      = (m.map Prod.snd).sum * f := by
  induction m with
  | nil => simp
  | cons p rest ih =>
    simp only [List.map_cons, List.sum_cons, ih]
    ring

/-- C6 (amended). When the incremented `t` reaches `DECAY`, the sum of all counters after
`decay` is the sum before multiplied by the decay factor; otherwise the sum is unchanged. -/
theorem decay_sum (env : Env α) (h : Histogram α) (fp : String) :
    (env.DECAY ≤ h.t + 1 →
      (h.decay env fp).1.counter_sum = h.counter_sum * h.powerful) ∧
    (¬ env.DECAY ≤ h.t + 1 → (h.decay env fp).1.counter_sum = h.counter_sum) := by
  constructor
  · intro ht
    simp only [counter_sum, (decay_trigger env h fp ht).2.1, sum_scale]
  · intro ht
    simp only [counter_sum, (decay_idle env h fp ht).2.1]

/-- C6 fails as stated: with `lambda = ln 2`, decay factor `e^(-lambda)`, `DECAY = 2`, `t = 0`
and the histogram `{1 : 1}`, the sum after one call of `decay` is 1 and not `1 * e^(-lambda)`. -/
theorem decay_sum_counterexample :
    ((example_hist [(1, (1 : ℝ))] (fun _ => 0) (fun _ => 1) (Real.exp (-(Real.log 2)))).decay
        (example_env 1 Real.exp Real.log (Real.log 2) 2 example_draws) "").1.counter_sum
      ≠ (example_hist [(1, (1 : ℝ))] (fun _ => 0) (fun _ => 1)
          (Real.exp (-(Real.log 2)))).counter_sum
        * (example_env 1 Real.exp Real.log (Real.log 2) 2 example_draws).exp
            (-(example_env 1 Real.exp Real.log (Real.log 2) 2 example_draws).LAMBDA) := by
  have ht : ¬ (example_env 1 Real.exp Real.log (Real.log 2) 2 example_draws).DECAY
      ≤ (example_hist [(1, (1 : ℝ))] (fun _ => 0) (fun _ => 1)
          (Real.exp (-(Real.log 2)))).t + 1 := by
    simp [example_env, example_hist]
  simp only [counter_sum, (decay_idle _ _ "" ht).2.1]
  simp only [example_env, example_hist, real_factor_half]
  norm_num

/-! ### The text written by `record_sketch` (C7) -/

theorem foldl_append_string (l : List String) (init : String) :
    l.foldl (fun r s => r ++ s) init = init ++ String.join l := by
  induction l generalizing init with
  | nil => simp [String.join]
  | cons x rest ih =>
    simp only [List.foldl_cons, String.join]
    rw [ih, ih ("" ++ x)]
    simp [String.append_assoc]

theorem join_append_one (l : List String) (x : String) :
    String.join (l ++ [x]) = String.join l ++ x := by
  simp [String.join, List.foldl_append]

/-- The text written by the slot loop of `record_sketch` and of `decay`. -/
theorem write_sketch_eq (env : Env α) (h : Histogram α) (fp : String) :
    write_sketch env h fp
      = fp ++ String.join ((List.range env.SKETCH_SIZE).map
          (fun i => toString (h.sketch i) ++ " ")) ++ "\n" := by
  unfold write_sketch
  congr 1
  induction env.SKETCH_SIZE with
  | zero => simp [forLoop_zero, String.join]
  | succ n ih =>
    rw [forLoop_succ, ih, List.range_succ, List.map_append, List.map_cons, List.map_nil,
      join_append_one, String.append_assoc]

/-- C7 (amended). `record_sketch` appends to the file, for each of the `S` slots in order,
the value `sketch[i]` in decimal followed by one space, and then one newline; it leaves the
histogram, the sketch and the hashes unchanged. -/
theorem record_sketch_format (env : Env α) (h : Histogram α) (fp : String) :
    (h.record_sketch env fp).2
      = fp ++ String.join ((List.range env.SKETCH_SIZE).map
          (fun i => toString (h.sketch i) ++ " ")) ++ "\n" ∧
    (h.record_sketch env fp).1 = h :=
  ⟨write_sketch_eq env h fp, rfl⟩

/-- C7 fails as stated: with one slot holding the label 5, `record_sketch` writes `"5 \n"`
(a space precedes the newline) and not the line `"5\n"` of the specification. -/
theorem record_sketch_counterexample :
    ((example_hist [(5, (1 : ℚ))] (fun _ => 5) (fun _ => 1) 1).record_sketch
        (example_env 1 (fun x => x) (fun x => x) 0 1 example_draws) "").2 = "5 \n" ∧
    spec_sketch_line (example_env 1 (fun x => x) (fun x => x) 0 1 example_draws)
        (example_hist [(5, (1 : ℚ))] (fun _ => 5) (fun _ => 1) 1) = "5\n" ∧
    ((example_hist [(5, (1 : ℚ))] (fun _ => 5) (fun _ => 1) 1).record_sketch
        (example_env 1 (fun x => x) (fun x => x) 0 1 example_draws) "").2
      ≠ spec_sketch_line (example_env 1 (fun x => x) (fun x => x) 0 1 example_draws)
        (example_hist [(5, (1 : ℚ))] (fun _ => 5) (fun _ => 1) 1) := by
  refine ⟨by decide, by decide, by decide⟩

end Histogram

/-! ### Lines written by quiescent passes (C8) -/

theorem digitChar_ne_newline (d : Nat) (hd : d < 10) : Nat.digitChar d ≠ Char.ofNat 10 := by
  interval_cases d <;> decide

theorem toDigitsCore_no_newline :
    ∀ (fuel n : Nat) (ds : List Char), (∀ c ∈ ds, c ≠ Char.ofNat 10) →
      ∀ c ∈ Nat.toDigitsCore 10 fuel n ds, c ≠ Char.ofNat 10 := by
  intro fuel
  induction fuel with
  | zero => intro n ds hds; simpa [Nat.toDigitsCore] using hds
  | succ fuel ih =>
    intro n ds hds
    simp only [Nat.toDigitsCore]
    have hcons : ∀ c ∈ Nat.digitChar (n % 10) :: ds, c ≠ Char.ofNat 10 := by
      intro c hc
      rcases List.mem_cons.mp hc with h1 | h1
      · rw [h1]; exact digitChar_ne_newline _ (Nat.mod_lt _ (by decide))
      · exact hds c h1
    split_ifs
    · exact hcons
    · exact ih _ _ hcons

theorem line_count_toString (n : Nat) : line_count (toString n) = 0 := by
  have hdata : (toString n).data = Nat.toDigits 10 n := rfl
  have h : ∀ c ∈ (toString n).data, c ≠ Char.ofNat 10 := by
    intro c hc
    rw [hdata] at hc
    exact toDigitsCore_no_newline _ _ [] (by simp) c hc
  unfold line_count
  exact List.count_eq_zero.mpr (fun hmem => h _ hmem rfl)

theorem line_count_append (s t : String) :
    line_count (s ++ t) = line_count s + line_count t := by
  simp [line_count, String.data_append, List.count_append]

namespace Histogram

variable {α : Type} [LinearOrderedField α]

theorem line_count_join_slots (sketch : Nat → Nat) (n : Nat) :
    line_count (String.join ((List.range n).map (fun i => toString (sketch i) ++ " "))) = 0 := by
  induction n with
  | zero => simp [String.join, line_count]
  | succ n ih =>
    rw [List.range_succ, List.map_append, List.map_cons, List.map_nil, join_append_one,
      line_count_append, ih, line_count_append, line_count_toString]
    decide

/-- One call of `record_sketch` or one sketch written by `decay` adds exactly one line. -/
theorem line_count_write_sketch (env : Env α) (h : Histogram α) (fp : String) :
    line_count (write_sketch env h fp) = line_count fp + 1 := by
  rw [write_sketch_eq, line_count_append, line_count_append, line_count_join_slots]
  have : line_count "\n" = 1 := by decide
  omega

theorem write_sketch_append (env : Env α) (h : Histogram α) (fp : String) :
    write_sketch env h fp = fp ++ write_sketch env h "" := by
  rw [write_sketch_eq, write_sketch_eq env h ""]
  simp [String.append_assoc]

end Histogram

namespace WeisfeilerLehman

variable {α : Type} [LinearOrderedField α]

/-- A quiescent pass without decay: the histogram is untouched and the sketch file gets the
output of one `record_sketch`. -/
theorem quiescent_pass_no_decay (env : Env α) (wl : WLEnv) (iteration : Nat) (d : Driver α)
    (hl : env.LAMBDA = 0) :
    (quiescent_pass env wl iteration d).hist = d.hist ∧
    (quiescent_pass env wl iteration d).sfp = d.sfp ++ Histogram.write_sketch env d.hist "" ∧
    (quiescent_pass env wl iteration d).decay_fp = d.decay_fp := by
  unfold quiescent_pass after_iteration
  by_cases hi : iteration = wl.K_HOPS <;> by_cases hs : d.stop = true <;>
    simp [hi, hs, hl, Histogram.record_sketch, ← Histogram.write_sketch_append]

end WeisfeilerLehman

namespace WeisfeilerLehman

variable {α : Type} [LinearOrderedField α]

/-- C8. With `lambda = 0`, each of three successive quiescent passes appends to the sink
exactly one sketch line, namely the text `line` made of the `S` values `sketch[i]` in
decimal, each followed by a space, and closed by the only newline of the text; the histogram
and its sketch are not changed by a pass. Hence the sink gains three lines, and a sink that
was empty consists of exactly these three lines. The path does not read `WINDOW`, so this
holds for `WINDOW = 3` as for every other value. -/
theorem window_emission (env : Env α) (wl : WLEnv) (d : Driver α) (i1 i2 i3 : Nat)
    (hl : env.LAMBDA = 0) :
    ∃ line : String,
      line = String.join ((List.range env.SKETCH_SIZE).map
          (fun i => toString (d.hist.sketch i) ++ " ")) ++ "\n" ∧
      line_count (String.join ((List.range env.SKETCH_SIZE).map
          (fun i => toString (d.hist.sketch i) ++ " "))) = 0 ∧
      line_count line = 1 ∧
      (quiescent_pass env wl i1 d).sfp = d.sfp ++ line ∧
      (quiescent_pass env wl i1 d).hist = d.hist ∧
      (quiescent_pass env wl i2 (quiescent_pass env wl i1 d)).sfp
        = (quiescent_pass env wl i1 d).sfp ++ line ∧
      (quiescent_pass env wl i2 (quiescent_pass env wl i1 d)).hist = d.hist ∧
      (quiescent_pass env wl i3 (quiescent_pass env wl i2 (quiescent_pass env wl i1 d))).sfp
        = (quiescent_pass env wl i2 (quiescent_pass env wl i1 d)).sfp ++ line ∧
      (quiescent_pass env wl i3 (quiescent_pass env wl i2 (quiescent_pass env wl i1 d))).hist
        = d.hist ∧
      (quiescent_pass env wl i3 (quiescent_pass env wl i2 (quiescent_pass env wl i1 d))).sfp
        = d.sfp ++ line ++ line ++ line ∧
      line_count
          (quiescent_pass env wl i3 (quiescent_pass env wl i2 (quiescent_pass env wl i1 d))).sfp
        = line_count d.sfp + 3 := by
  obtain ⟨a1, b1, -⟩ := quiescent_pass_no_decay env wl i1 d hl
  obtain ⟨a2, b2, -⟩ := quiescent_pass_no_decay env wl i2 (quiescent_pass env wl i1 d) hl
  obtain ⟨a3, b3, -⟩ :=
    quiescent_pass_no_decay env wl i3 (quiescent_pass env wl i2 (quiescent_pass env wl i1 d)) hl
  rw [a1] at b2 a2
  rw [a2] at b3 a3
  have hw : Histogram.write_sketch env d.hist ""
      = String.join ((List.range env.SKETCH_SIZE).map
          (fun i => toString (d.hist.sketch i) ++ " ")) ++ "\n" := by
    rw [Histogram.write_sketch_eq]
    simp
  rw [hw] at b1 b2 b3
  have h0 := Histogram.line_count_join_slots d.hist.sketch env.SKETCH_SIZE
  have h1 : line_count (String.join ((List.range env.SKETCH_SIZE).map
      (fun i => toString (d.hist.sketch i) ++ " ")) ++ "\n") = 1 := by
    rw [line_count_append, h0]
    decide
  refine ⟨_, rfl, h0, h1, b1, a1, b2, a2, b3, a3, ?_, ?_⟩
  · rw [b3, b2, b1]
  · rw [b3, b2, b1, line_count_append, line_count_append, line_count_append, h1]

end WeisfeilerLehman

/-! ### Order of streaming updates (C9) -/

/-- Folding over two permutations of a list gives the same result when any two steps commute
on the states that satisfy an invariant of the steps. -/
theorem foldl_perm_inv {σ β : Type} (f : σ → β → σ) (P : σ → Prop) (Q : β → Prop)
    (hP : ∀ s x, Q x → P s → P (f s x))
    (hcomm : ∀ s x y, Q x → Q y → P s → f (f s x) y = f (f s y) x) :
    ∀ (l1 l2 : List β), l1.Perm l2 → (∀ x ∈ l1, Q x) → ∀ s, P s →
      l1.foldl f s = l2.foldl f s := by
  intro l1 l2 hperm
  induction hperm with
  | nil => intro _ s _; rfl
  | cons x _ ih =>
    intro hq s hs
    simp only [List.foldl_cons]
    exact ih (fun y hy => hq y (List.mem_cons_of_mem _ hy)) _
      (hP s x (hq x (List.mem_cons_self _ _)) hs)
  | swap x y l =>
    intro hq s hs
    simp only [List.foldl_cons]
    rw [hcomm s y x (hq y (List.mem_cons_self _ _))
      (hq x (List.mem_cons_of_mem _ (List.mem_cons_self _ _))) hs]
  | trans h12 _ ih1 ih2 =>
    intro hq s hs
    rw [ih1 hq s hs]
    exact ih2 (fun y hy => hq y (h12.mem_iff.mpr hy)) s hs

namespace Histogram

variable {α : Type} [LinearOrderedField α]

theorem hist_ext (h1 h2 : Histogram α) (e1 : h1.histogram_map = h2.histogram_map)
    (e2 : h1.sketch = h2.sketch) (e3 : h1.hash = h2.hash) (e4 : h1.t = h2.t)
    (e5 : h1.w = h2.w) (e6 : h1.powerful = h2.powerful)
    (e7 : h1.gamma_param = h2.gamma_param) (e8 : h1.uniform_param = h2.uniform_param) :
    h1 = h2 := by
  cases h1; cases h2; simp_all

theorem map_emplace_comm (x y : Nat) (u v : α) (hxy : x ≠ y) (m : List (Nat × α)) :
    map_emplace x u (map_emplace y v m) = map_emplace y v (map_emplace x u m) := by
  induction m with
  | nil =>
    simp only [map_emplace]
    split_ifs with h1 h2 h2
    · omega
    · rfl
    · rfl
    · omega
  | cons p rest ih =>
    simp only [map_emplace]
    split_ifs with h1 h2 h3 <;> simp only [map_emplace] <;>
      first
        | omega
        | (split_ifs <;> first | rfl | omega | (rw [ih]))

theorem map_emplace_incr (x y : Nat) (v : α) (hxy : x ≠ y) (m : List (Nat × α)) :
    (map_emplace y v m).map (fun p => if p.1 = x then (p.1, p.2 + 1) else p)
      = map_emplace y v (m.map (fun p => if p.1 = x then (p.1, p.2 + 1) else p)) := by
  have hyx : ¬ y = x := fun h => hxy h.symm
  induction m with
  | nil => simp [map_emplace, hyx]
  | cons p rest ih =>
    obtain ⟨a, b⟩ := p
    by_cases hax : a = x
    · subst hax
      by_cases hlt : y < a
      · simp [map_emplace, hlt, hyx]
      · simp [map_emplace, hlt, ih]
    · by_cases hlt : y < a
      · simp [map_emplace, hlt, hax, hyx]
      · simp [map_emplace, hlt, hax, ih]

theorem incr_incr (x y : Nat) (m : List (Nat × α)) :
    (m.map (fun p => if p.1 = x then (p.1, p.2 + 1) else p)).map
        (fun p => if p.1 = y then (p.1, p.2 + 1) else p)
      = (m.map (fun p => if p.1 = y then (p.1, p.2 + 1) else p)).map
        (fun p => if p.1 = x then (p.1, p.2 + 1) else p) := by
  simp only [List.map_map]
  apply List.map_congr_left
  intro p _
  obtain ⟨a, b⟩ := p
  simp only [Function.comp]
  by_cases hx : a = x
  · subst hx
    by_cases hy : a = y
    · subst hy; simp
    · simp [hy]
  · by_cases hy : a = y
    · subst hy; simp [hx]
    · simp [hx, hy]

theorem lookup_insert_incr_other (x y : Nat) (hxy : y ≠ x) (m : List (Nat × α)) :
    (map_insert_incr x m).1.lookup y = m.lookup y := by
  unfold map_insert_incr
  cases m.lookup x with
  | none => exact lookup_map_emplace_other x y 1 m hxy
  | some c => exact lookup_incr_other x y m hxy

/-- Two updates of the map commute. -/
theorem map_insert_incr_comm (x y : Nat) (m : List (Nat × α)) :
    (map_insert_incr y (map_insert_incr x m).1).1
      = (map_insert_incr x (map_insert_incr y m).1).1 := by
  by_cases hxy : x = y
  · subst hxy; rfl
  · have hyx : y ≠ x := fun h => hxy h.symm
    have e1 := lookup_insert_incr_other x y hyx m
    have e2 := lookup_insert_incr_other y x hxy m
    simp only [map_insert_incr] at e1 e2 ⊢
    cases hx : m.lookup x <;> cases hy : m.lookup y <;>
      simp only [hx, hy] at e1 e2 ⊢ <;> simp only [e1, e2]
    · exact map_emplace_comm y x 1 1 hyx m
    · exact map_emplace_incr y x 1 hyx m
    · exact (map_emplace_incr x y 1 hxy m).symm
    · exact incr_incr x y m

/-- The counter read back by an update is not changed by an earlier update of another
label. -/
theorem insert_incr_snd_other (x y : Nat) (hxy : y ≠ x) (m : List (Nat × α)) :
    (map_insert_incr y (map_insert_incr x m).1).2 = (map_insert_incr y m).2 := by
  have e1 := lookup_insert_incr_other x y hxy m
  simp only [map_insert_incr] at e1 ⊢
  rw [e1]
  cases m.lookup y <;> rfl

theorem insert_incr_snd (L : Nat) (m : List (Nat × α)) :
    (map_insert_incr L m).2 = (m.lookup L).getD 0 + 1 := by
  unfold map_insert_incr
  cases m.lookup L <;> simp

theorem A_congr (env : Env α) (h1 h2 : Histogram α) (eg : h1.gamma_param = h2.gamma_param)
    (eu : h1.uniform_param = h2.uniform_param) (L i : Nat) (c : α) :
    A env h1 L i c = A env h2 L i c := by
  simp [A, label_params, pregen_elem, eg, eu]

/-- A streaming update respects agreement up to the sketch labels. -/
theorem update_agree (env : Env α) (L : Nat) (h1 h2 : Histogram α)
    (hr : agree_up_to_sketch h1 h2) :
    agree_up_to_sketch (h1.update env L false) (h2.update env L false) := by
  obtain ⟨em, eh, et, ew, ep, eg, eu⟩ := hr
  obtain ⟨g1, u1, t1, w1, p1⟩ := update_params_frame env L false h1
  obtain ⟨g2, u2, t2, w2, p2⟩ := update_params_frame env L false h2
  refine ⟨?_, ?_, ?_, ?_, ?_, ?_, ?_⟩
  · rw [update_map_eq, update_map_eq, em]
  · funext j
    rw [(update_stream_slot env L h1 j).1, (update_stream_slot env L h2 j).1, em, eh]
    simp only [A_congr env h1 h2 eg eu]
  · rw [t1, t2, et]
  · rw [w1, w2, ew]
  · rw [p1, p2, ep]
  · rw [g1, g2, eg]
  · rw [u1, u2, eu]

/-- Slot `j` after two streaming updates of different labels `x` then `y`. -/
theorem update_twice_slot (env : Env α) (x y : Nat) (hxy : y ≠ x) (h : Histogram α) (j : Nat) :
    ((h.update env x false).update env y false).hash j =
      (if j < env.SKETCH_SIZE ∧ A env h y j (map_insert_incr y h.histogram_map).2
            < (if j < env.SKETCH_SIZE ∧ A env h x j (map_insert_incr x h.histogram_map).2 < h.hash j
               then A env h x j (map_insert_incr x h.histogram_map).2 else h.hash j)
       then A env h y j (map_insert_incr y h.histogram_map).2
       else (if j < env.SKETCH_SIZE ∧ A env h x j (map_insert_incr x h.histogram_map).2 < h.hash j
               then A env h x j (map_insert_incr x h.histogram_map).2 else h.hash j)) ∧
    ((h.update env x false).update env y false).sketch j =
      (if j < env.SKETCH_SIZE ∧ A env h y j (map_insert_incr y h.histogram_map).2
            < (if j < env.SKETCH_SIZE ∧ A env h x j (map_insert_incr x h.histogram_map).2 < h.hash j
               then A env h x j (map_insert_incr x h.histogram_map).2 else h.hash j)
       then y
       else (if j < env.SKETCH_SIZE ∧ A env h x j (map_insert_incr x h.histogram_map).2 < h.hash j
               then x else h.sketch j)) := by
  obtain ⟨e1, e2⟩ := update_stream_slot env y (h.update env x false) j
  obtain ⟨f1, f2⟩ := update_stream_slot env x h j
  constructor
  · rw [e1]
    simp only [A_update, update_map_eq, insert_incr_snd_other x y hxy, f1]
  · rw [e2]
    simp only [A_update, update_map_eq, insert_incr_snd_other x y hxy, f1, f2]

/-- Two streaming updates commute up to the sketch labels. -/
theorem update_swap_agree (env : Env α) (x y : Nat) (h : Histogram α) :
    agree_up_to_sketch ((h.update env x false).update env y false)
      ((h.update env y false).update env x false) := by
  by_cases hxy : y = x
  · subst hxy; exact ⟨rfl, rfl, rfl, rfl, rfl, rfl, rfl⟩
  · have hyx : x ≠ y := fun e => hxy e.symm
    obtain ⟨g1, u1, t1, w1, p1⟩ := update_params_frame env x false h
    obtain ⟨g2, u2, t2, w2, p2⟩ := update_params_frame env y false h
    obtain ⟨g3, u3, t3, w3, p3⟩ := update_params_frame env y false (h.update env x false)
    obtain ⟨g4, u4, t4, w4, p4⟩ := update_params_frame env x false (h.update env y false)
    refine ⟨?_, ?_, ?_, ?_, ?_, ?_, ?_⟩
    · simp only [update_map_eq]
      exact map_insert_incr_comm x y _
    · funext j
      rw [(update_twice_slot env x y hxy h j).1, (update_twice_slot env y x hyx h j).1]
      split_ifs <;> first | rfl | (exfalso; simp_all; linarith) | (simp_all; linarith)
    · rw [t3, t4, t1, t2]
    · rw [w3, w4, w1, w2]
    · rw [p3, p4, p1, p2]
    · rw [g3, g4, g1, g2]
    · rw [u3, u4, u1, u2]

/-- Two streaming updates commute when the two hash values differ at every slot. -/
theorem update_swap_full (env : Env α) (x y : Nat) (h : Histogram α)
    (hne : y ≠ x → ∀ j, j < env.SKETCH_SIZE →
      A env h x j (map_insert_incr x h.histogram_map).2
        ≠ A env h y j (map_insert_incr y h.histogram_map).2) :
    (h.update env x false).update env y false = (h.update env y false).update env x false := by
  by_cases hxy : y = x
  · subst hxy; rfl
  · have hyx : x ≠ y := fun e => hxy e.symm
    obtain ⟨em, eh, et, ew, ep, eg, eu⟩ := update_swap_agree env x y h
    refine hist_ext _ _ em ?_ eh et ew ep eg eu
    funext j
    rw [(update_twice_slot env x y hxy h j).2, (update_twice_slot env y x hyx h j).2]
    by_cases hj : j < env.SKETCH_SIZE
    · have hd := hne hxy j hj
      rcases lt_or_gt_of_ne hd with hlt | hgt
      · split_ifs <;> first | rfl | (exfalso; linarith) | (exfalso; simp_all; linarith) | simp_all
      · split_ifs <;> first | rfl | (exfalso; linarith) | (exfalso; simp_all; linarith) | simp_all
    · simp [hj]

theorem base_count_update (env : Env α) (z L : Nat) (h : Histogram α) :
    base_count (h.update env z false) L = base_count h L + (if L = z then 1 else 0) := by
  unfold base_count
  by_cases hL : L = z
  · subst hL
    rw [count_after_update, insert_incr_snd]
    simp [count]
  · rw [(update_count_keys env h z false).2.2 L hL]
    simp [hL]

/-- Freedom from ties depends only on the number of occurrences of each label. -/
theorem tie_free_perm (env : Env α) (h : Histogram α) (l1 l2 : List Nat) (hp : l1.Perm l2)
    (hf : tie_free env h l1) : tie_free env h l2 := by
  intro i hi L1 L2 hne m n hm hn
  rw [← hp.count_eq] at hm hn
  exact hf i hi L1 L2 hne m n hm hn

/-- Freedom from ties for a sequence carries over to its tail in the state after the
streaming update of its head. -/
theorem tie_free_tail (env : Env α) (x : Nat) (l : List Nat) (h : Histogram α)
    (hf : tie_free env h (x :: l)) : tie_free env (h.update env x false) l := by
  intro i hi L1 L2 hne m n hm hn
  rw [A_update, A_update, base_count_update, base_count_update]
  by_cases e1 : L1 = x <;> by_cases e2 : L2 = x
  · exact absurd (e1.trans e2.symm) hne
  · have := hf i hi L1 L2 hne (m + 1) n
      (by rw [e1, List.count_cons_self]; rw [e1] at hm; omega)
      (by rw [List.count_cons_of_ne e2]; exact hn)
    simpa [e1, e2, add_assoc, add_comm, add_left_comm] using this
  · have := hf i hi L1 L2 hne m (n + 1)
      (by rw [List.count_cons_of_ne e1]; exact hm)
      (by rw [e2, List.count_cons_self]; rw [e2] at hn; omega)
    simpa [e1, e2, add_assoc, add_comm, add_left_comm] using this
  · have := hf i hi L1 L2 hne m n
      (by rw [List.count_cons_of_ne e1]; exact hm)
      (by rw [List.count_cons_of_ne e2]; exact hn)
    simpa [e1, e2] using this

theorem update_all_agree (env : Env α) (l : List Nat) :
    ∀ (h1 h2 : Histogram α), agree_up_to_sketch h1 h2 →
      agree_up_to_sketch (update_all env l h1) (update_all env l h2) := by
  induction l with
  | nil => intro h1 h2 hr; exact hr
  | cons x rest ih =>
    intro h1 h2 hr
    exact ih _ _ (update_agree env x h1 h2 hr)

theorem agree_trans (h1 h2 h3 : Histogram α) (a : agree_up_to_sketch h1 h2)
    (b : agree_up_to_sketch h2 h3) : agree_up_to_sketch h1 h3 := by
  obtain ⟨a1, a2, a3, a4, a5, a6, a7⟩ := a
  obtain ⟨b1, b2, b3, b4, b5, b6, b7⟩ := b
  exact ⟨a1.trans b1, a2.trans b2, a3.trans b3, a4.trans b4, a5.trans b5, a6.trans b6,
    a7.trans b7⟩

/-- Permuted label sequences give the same histogram and the same hashes. -/
theorem update_all_perm_agree (env : Env α) (l1 l2 : List Nat) (hp : l1.Perm l2) :
    ∀ (h : Histogram α), agree_up_to_sketch (update_all env l1 h) (update_all env l2 h) := by
  induction hp with
  | nil => intro h; exact ⟨rfl, rfl, rfl, rfl, rfl, rfl, rfl⟩
  | cons x _ ih => intro h; exact ih _
  | swap x y l =>
    intro h
    exact update_all_agree env l _ _ (update_swap_agree env y x h)
  | trans _ _ ih1 ih2 => intro h; exact agree_trans _ _ _ (ih1 h) (ih2 h)

/-- Permuted label sequences give the same state when no two labels tie at the counters
they reach. -/
theorem update_all_perm_full (env : Env α) (l1 l2 : List Nat) (hp : l1.Perm l2) :
    ∀ (h : Histogram α), tie_free env h l1 → update_all env l1 h = update_all env l2 h := by
  induction hp with
  | nil => intro h _; rfl
  | cons x _ ih =>
    intro h hf
    exact ih _ (tie_free_tail env x _ h hf)
  | swap x y l =>
    intro h hf
    show update_all env l ((h.update env y false).update env x false)
      = update_all env l ((h.update env x false).update env y false)
    rw [update_swap_full env y x h]
    intro hne j hj
    have := hf j hj y x (fun e => hne e.symm) 0 0
      (by rw [List.count_cons_self]; omega)
      (by rw [List.count_cons_of_ne hne, List.count_cons_self]; omega)
    simpa [insert_incr_snd, base_count, count] using this
  | trans h12 _ ih1 ih2 =>
    intro h hf
    rw [ih1 h hf]
    exact ih2 h (tie_free_perm env h _ _ h12 hf)

/-- Two different labels that each occur once are free of ties when their hash values at
their next counters differ at every slot. -/
theorem tie_free_pair (env : Env α) (h : Histogram α) (x y : Nat) (hxy : x ≠ y)
    (hne : ∀ i, i < env.SKETCH_SIZE →
      A env h x i (base_count h x + 1) ≠ A env h y i (base_count h y + 1)) :
    tie_free env h [x, y] := by
  intro i hi L1 L2 hL m n hm hn
  have hc : ∀ L : Nat, ∀ k : Nat, k < [x, y].count L → k = 0 ∧ (L = x ∨ L = y) := by
    intro L k hk
    by_cases e1 : L = x
    · subst e1
      rw [List.count_cons_self, List.count_cons_of_ne hxy, List.count_nil] at hk
      exact ⟨by omega, Or.inl rfl⟩
    · by_cases e2 : L = y
      · subst e2
        rw [List.count_cons_of_ne e1, List.count_cons_self, List.count_nil] at hk
        exact ⟨by omega, Or.inr rfl⟩
      · rw [List.count_cons_of_ne e1, List.count_cons_of_ne e2,
          List.count_nil] at hk
        omega
  obtain ⟨m0, h1⟩ := hc L1 m hm
  obtain ⟨n0, h2⟩ := hc L2 n hn
  subst m0 n0
  simp only [Nat.cast_zero, add_zero]
  rcases h1 with h1 | h1 <;> rcases h2 with h2 | h2
  · exact absurd (h1.trans h2.symm) hL
  · rw [h1, h2]; exact hne i hi
  · rw [h1, h2]; exact fun e => hne i hi e.symm
  · exact absurd (h1.trans h2.symm) hL

/-- `create_sketch` with one slot, on-the-fly parameters and a single histogram entry. -/
theorem create_sketch_single (env : Env α) (h : Histogram α) (L : Nat) (c : α)
    (hS : env.SKETCH_SIZE = 1) (hM : env.MEMORY = false) (hm : h.histogram_map = [(L, c)]) :
    h.create_sketch env
      = some { h with sketch := setAt h.sketch 0 L
                      hash := setAt h.hash 0 (hash_value env (construct_hist_elem env L) 0 c) } := by
  simp [create_sketch, hS, hM, hm, build_base_map, List.range_succ, sketch_slots,
    sketch_scan, lookup_cons_if]

/-- C9 (amended). For every state and every two label sequences that are permutations of
each other, the streaming updates in either order give the same histogram and the same
`hash[]` values; they give the same `sketch[]` labels when no two distinct labels of the
sequence produce equal hash values at a slot for the counters they reach. -/
theorem sketch_permutation_invariance (env : Env α) (h : Histogram α) (l1 l2 : List Nat)
    (hp : l1.Perm l2) :
    (update_all env l1 h).histogram_map = (update_all env l2 h).histogram_map ∧
    (∀ i, (update_all env l1 h).hash i = (update_all env l2 h).hash i) ∧
    (tie_free env h l1 →
      ∀ i, (update_all env l1 h).sketch i = (update_all env l2 h).sketch i) := by
  obtain ⟨em, eh, -⟩ := update_all_perm_agree env l1 l2 hp h
  refine ⟨em, fun i => by rw [eh], ?_⟩
  intro hf i
  rw [update_all_perm_full env l1 l2 hp h hf]

/-- With the example draws the labels 0 and 1 have the same parameters (`c` is drawn from an
engine seeded with `label / 2`), and a label whose counter becomes 1 is hashed with the
numerator 1 (labels 0 and 1) or 3 (other seeds) over one common denominator. -/
theorem example_A (exp log : α → α) (lambda : α) (h : Histogram α) (L : Nat) (c : α) :
    A (example_env 1 exp log lambda 1 example_draws) h L 0 c
      = (if L / 2 = 0 then 1 else 3) / (exp (log c - 1 * (1 / 2)) * exp 1) := by
  simp [A, label_params, example_env, construct_hist_elem, example_draws, hash_value]

/-- Two different labels whose hash values at slot 0 are equal and below `hash[0]`: the
label that is streamed first takes the slot. -/
theorem tie_order (env : Env α) (h : Histogram α) (x y : Nat) (hxy : y ≠ x)
    (hS : 0 < env.SKETCH_SIZE) (a : α)
    (hx : A env h x 0 (map_insert_incr x h.histogram_map).2 = a)
    (hy : A env h y 0 (map_insert_incr y h.histogram_map).2 = a)
    (hlt : a < h.hash 0) :
    (update_all env [x, y] h).sketch 0 = x ∧ (update_all env [y, x] h).sketch 0 = y := by
  have hyx : x ≠ y := fun e => hxy e.symm
  simp only [update_all, List.foldl_cons, List.foldl_nil]
  rw [(update_twice_slot env x y hxy h 0).2, (update_twice_slot env y x hyx h 0).2, hx, hy]
  simp [hS, hlt]

/-- C9 fails as stated: in on-the-fly mode with one slot, from the state that `create_sketch`
reaches on the histogram `{5 : 1}`, the labels 0 and 1 (which have equal parameters) streamed
in the order `0, 1` leave `sketch[0] = 0`, and streamed in the order `1, 0` leave
`sketch[0] = 1`. -/
theorem sketch_permutation_counterexample :
    ((example_hist [(5, (1 : ℝ))] (fun _ => 0) (fun _ => 1) 1).create_sketch
        (example_env 1 Real.exp Real.log 0 1 example_draws)).map
      (fun h => ((update_all (example_env 1 Real.exp Real.log 0 1 example_draws) [0, 1] h).sketch 0,
                 (update_all (example_env 1 Real.exp Real.log 0 1 example_draws) [1, 0] h).sketch 0))
      = some (0, 1) := by
  have hD : (0 : ℝ) < Real.exp (Real.log 1 - 1 * (1 / 2)) * Real.exp 1 :=
    mul_pos (Real.exp_pos _) (Real.exp_pos _)
  have h13 : (1 : ℝ) / (Real.exp (Real.log 1 - 1 * (1 / 2)) * Real.exp 1)
      < 3 / (Real.exp (Real.log 1 - 1 * (1 / 2)) * Real.exp 1) :=
    div_lt_div_of_pos_right (by norm_num) hD
  have e5 : hash_value (example_env 1 Real.exp Real.log 0 1 example_draws)
      (construct_hist_elem (example_env 1 Real.exp Real.log 0 1 example_draws) 5) 0 (1 : ℝ)
      = 3 / (Real.exp (Real.log 1 - 1 * (1 / 2)) * Real.exp 1) := by
    simp [hash_value, construct_hist_elem, example_env, example_draws]
  rw [create_sketch_single _ _ 5 1 rfl rfl rfl]
  simp only [Option.map_some', Option.some.injEq, Prod.mk.injEq]
  refine tie_order _ _ 0 1 (by decide) (by decide)
    (1 / (Real.exp (Real.log 1 - 1 * (1 / 2)) * Real.exp 1)) ?_ ?_ ?_
  · rw [example_A]
    simp [example_hist, map_insert_incr, lookup_cons_if]
  · rw [example_A]
    simp [example_hist, map_insert_incr, lookup_cons_if]
  · simp only [setAt, if_true, e5]
    exact h13

end Histogram

namespace WeisfeilerLehman

/-! ### The edge cursor (C10) -/

theorem mem_map_in (v : Nat) (f : edge_label → edge_label) (es : List Edge) (e1 : Edge)
    (h : e1 ∈ map_in v f es) :
    ∃ e ∈ es, e1.source = e.source ∧ e1.target = e.target ∧
      ((e.target = v ∧ e1.data = f e.data) ∨ (e.target ≠ v ∧ e1.data = e.data)) := by
  unfold map_in at h
  obtain ⟨e, he, rfl⟩ := List.mem_map.mp h
  refine ⟨e, he, ?_⟩
  by_cases hv : e.target = v
  · simp [hv]
  · simp [hv]

theorem mem_map_out (v : Nat) (f : edge_label → edge_label) (es : List Edge) (e1 : Edge)
    (h : e1 ∈ map_out v f es) :
    ∃ e ∈ es, e1.source = e.source ∧ e1.target = e.target ∧
      ((e.source = v ∧ e1.data = f e.data) ∨ (e.source ≠ v ∧ e1.data = e.data)) := by
  unfold map_out at h
  obtain ⟨e, he, rfl⟩ := List.mem_map.mp h
  refine ⟨e, he, ?_⟩
  by_cases hv : e.source = v
  · simp [hv]
  · simp [hv]

/-- A loop over the in-edges keeps a property of the edge data that its body keeps on the
in-edges of the vertex. -/
theorem map_in_keeps (P Q : edge_label → Prop) (v : Nat) (f : edge_label → edge_label)
    (es : List Edge) (hPQ : ∀ el, P el → Q el)
    (hf : ∀ e ∈ es, e.target = v → P e.data → Q (f e.data))
    (hes : ∀ e ∈ es, P e.data) : ∀ e ∈ map_in v f es, Q e.data := by
  intro e1 h1
  obtain ⟨e, he, -, -, hc⟩ := mem_map_in v f es e1 h1
  rcases hc with ⟨hv, hd⟩ | ⟨-, hd⟩
  · rw [hd]; exact hf e he hv (hes e he)
  · rw [hd]; exact hPQ _ (hes e he)

/-- A loop over the out-edges keeps a property of the edge data that its body keeps. -/
theorem map_out_keeps (P : edge_label → Prop) (v : Nat) (f : edge_label → edge_label)
    (es : List Edge) (hf : ∀ el, P el → P (f el))
    (hes : ∀ e ∈ es, P e.data) : ∀ e ∈ map_out v f es, P e.data := by
  intro e1 h1
  obtain ⟨e, he, -, -, hc⟩ := mem_map_out v f es e1 h1
  rcases hc with ⟨-, hd⟩ | ⟨-, hd⟩
  · rw [hd]; exact hf _ (hes e he)
  · rw [hd]; exact hes e he

theorem in_edges_all (g : Graph) (v : Nat) (p : edge_label → Bool)
    (h : (in_edges g v).all p = true) : ∀ e ∈ g.edges, e.target = v → p e.data = true := by
  intro e he hv
  rw [List.all_eq_true] at h
  apply h
  unfold in_edges
  exact List.mem_map.mpr ⟨e, List.mem_filter.mpr ⟨he, by simpa using hv⟩, rfl⟩

theorem in_edges_nil (g : Graph) (v : Nat) (h : in_edges g v = []) :
    ∀ e ∈ g.edges, e.target ≠ v := by
  intro e he hv
  have : e.data ∈ in_edges g v := by
    unfold in_edges
    exact List.mem_map.mpr ⟨e, List.mem_filter.mpr ⟨he, by simpa using hv⟩, rfl⟩
  rw [h] at this
  simp at this

theorem map_in_nil (g : Graph) (v : Nat) (f : edge_label → edge_label)
    (h : in_edges g v = []) : map_in v f g.edges = g.edges := by
  unfold map_in
  have hne := in_edges_nil g v h
  calc g.edges.map (fun e => if e.target = v then { e with data := f e.data } else e)
      = g.edges.map (fun e => e) := by
        apply List.map_congr_left
        intro e he
        simp [hne e he]
    _ = g.edges := List.map_id' _

theorem copy_leaf_itr (wl : WLEnv) (nl : node_label) (el : edge_label) :
    (copy_leaf wl nl el).itr = el.itr := by
  unfold copy_leaf forLoopFrom
  apply forLoop_inv (fun e : edge_label => e.itr = el.itr)
  · intro i s hs; exact hs
  · rfl

theorem copy_node_itr (wl : WLEnv) (nl : node_label) (el : edge_label) :
    (copy_node wl nl el).itr = el.itr := by
  unfold copy_node forLoopFrom
  apply forLoop_inv (fun e : edge_label => e.itr = el.itr)
  · intro i s hs; exact hs
  · rfl

/-- The edges after a callback of iteration 0: the cursor of every in-edge of the vertex has
been incremented. -/
theorem update_first_edges (sched : Bool) (pick v : Nat) (g : Graph) (nl0 : node_label)
    (r : Effects) (h : update_first sched pick v g nl0 = some r) :
    r.graph.edges = map_in v (fun el => { el with itr := el.itr + 1 }) g.edges := by
  unfold update_first at h
  cases hin : in_edges g v with
  | nil =>
    rw [hin] at h
    simp only [] at h
    cases hro : random_outedge pick (out_edges g v) with
    | none => rw [hro] at h; simp at h
    | some edge =>
      rw [hro] at h
      simp only [Option.some.injEq] at h
      rw [← h, map_in_nil g v _ hin]
  | cons edge rest =>
    rw [hin] at h
    simp only [Option.some.injEq] at h
    rw [← h]

/-- A callback of a base iteration `1 .. K_HOPS` keeps the cursor bound. -/
theorem update_base_bound (wl : WLEnv) (sched : Bool) (v iteration : Nat) (g : Graph)
    (r : Effects) (hit : iteration < wl.K_HOPS + 1) (hb : cursor_bound wl g)
    (h : update_base wl sched v iteration g = some r) : cursor_bound wl r.graph := by
  unfold update_base at h
  simp only [] at h
  by_cases hall : ((in_edges g v).all fun el => decide (el.itr = (iteration : Int))) = true
  · rw [if_pos hall] at h
    have hin := in_edges_all g v _ hall
    have hes1 : ∀ e ∈ map_in v (fun el => { el with itr := el.itr + 1 }) g.edges,
        itr_ok wl e.data := by
      apply map_in_keeps (itr_ok wl) (itr_ok wl) v _ g.edges (fun _ h => h) _ hb
      intro e he hv _
      have hi : e.data.itr = (iteration : Int) := by simpa using hin e he hv
      simp only [itr_ok, hi]
      omega
    cases hne : in_edges g v with
    | nil =>
      rw [hne] at h
      simp only [Option.some.injEq] at h
      rw [← h]
      dsimp only [cursor_bound]
      apply map_out_keeps (itr_ok wl) v _ _ _ hes1
      intro el hel
      exact hel
    | cons n rest =>
      rw [hne] at h
      simp only [Option.some.injEq] at h
      rw [← h]
      dsimp only [cursor_bound]
      apply map_out_keeps (itr_ok wl) v _ _ _ hes1
      intro el hel
      exact hel
  · rw [if_neg hall] at h
    simp at h

theorem min_itr_le (wl : WLEnv) (ins : List edge_label) :
    ∀ (m : Int), ins.foldl (fun min_itr el => if el.itr < min_itr then el.itr else min_itr) m ≤ m := by
  induction ins with
  | nil => intro m; exact le_refl _
  | cons a rest ih =>
    intro m
    simp only [List.foldl_cons]
    split_ifs with hlt
    · exact le_trans (ih _) (le_of_lt hlt)
    · exact ih _

/-- The streaming callback of a known vertex keeps the cursor bound. -/
theorem update_known_bound (wl : WLEnv) (sched : Bool) (v : Nat) (g : Graph) (r : Effects)
    (hb : cursor_bound wl g) (h : update_known wl sched v g = some r) :
    cursor_bound wl r.graph := by
  unfold update_known at h
  cases hne : in_edges g v with
  | nil =>
    rw [hne] at h
    simp only [] at h
    split_ifs at h
    simp only [Option.some.injEq] at h
    rw [← h]
    dsimp only [cursor_bound]
    apply map_out_keeps (itr_ok wl) v _ _ _ hb
    intro el hel
    simpa [itr_ok, copy_leaf_itr] using hel
  | cons n rest =>
    rw [hne] at h
    simp only [] at h
    generalize (if (g.vdata v).is_leaf = true then
      ({ g.vdata v with is_leaf := false } : node_label) else g.vdata v) = nl at h
    have hes1 : ∀ e ∈ map_out v (copy_node wl nl) g.edges, itr_ok wl e.data := by
      apply map_out_keeps (itr_ok wl) v _ _ _ hb
      intro el hel
      simpa [itr_ok, copy_node_itr] using hel
    have hes2 := map_in_keeps (itr_ok wl) (itr_ok wl) v bump_zero _ (fun _ h => h)
      (by
        intro e _ _ hP
        unfold bump_zero
        split_ifs with h0
        · simp only [itr_ok, h0]; omega
        · exact hP) hes1
    generalize min_itr_of wl (in_edges
      (Graph.mk g.vdata (map_in v bump_zero (map_out v (copy_node wl nl) g.edges))) v) = m at h
    by_cases hassert : 0 < m ∧ m < (wl.K_HOPS : Int) + 2
    · rw [if_pos hassert] at h
      by_cases hsat : m = (wl.K_HOPS : Int) + 1
      · rw [if_pos hsat] at h
        simp only [Option.some.injEq] at h
        rw [← h]
        exact hes2
      · rw [if_neg hsat] at h
        simp only [Option.some.injEq] at h
        rw [← h]
        dsimp only [cursor_bound]
        apply map_out_keeps (itr_ok wl) v _ _ _
        · apply map_in_keeps (itr_ok wl) (itr_ok wl) v _ _ (fun _ h => h) _ hes2
          intro e _ _ hP
          split_ifs with hlt
          · simp only [itr_ok] at hP ⊢; omega
          · exact hP
        · intro el hel
          split_ifs with hk
          · simp only [itr_ok]
            omega
          · exact hel
    · rw [if_neg hassert] at h
      simp at h

/-- A streaming callback keeps the cursor bound. -/
theorem update_stream_bound (wl : WLEnv) (sched : Bool) (pick v : Nat) (g : Graph)
    (r : Effects) (hb : cursor_bound wl g) (h : update_stream wl sched pick v g = some r) :
    cursor_bound wl r.graph := by
  unfold update_stream at h
  by_cases hnew : is_new g v = true
  · rw [if_pos hnew] at h
    cases hne : in_edges g v with
    | nil =>
      rw [hne] at h
      simp only [] at h
      cases hro : random_outedge pick (out_edges g v) with
      | none => rw [hro] at h; simp at h
      | some el =>
        rw [hro] at h
        simp only [Option.some.injEq] at h
        rw [← h]
        dsimp only [cursor_bound]
        apply map_out_keeps (itr_ok wl) v _ _ _ hb
        intro el1 hel
        simpa [itr_ok, copy_leaf_itr] using hel
    | cons n rest =>
      rw [hne] at h
      simp only [] at h
      by_cases hall : ((n :: rest).all fun el => decide (el.itr = 0)) = true
      · rw [if_pos hall] at h
        rw [← hne] at hall
        have hin := in_edges_all g v _ hall
        have hes1 : ∀ e ∈ map_in v
            (fun el => { el with itr := el.itr + 1, new_dst := false }) g.edges,
            itr_ok wl e.data := by
          apply map_in_keeps (itr_ok wl) (itr_ok wl) v _ g.edges (fun _ h => h) _ hb
          intro e he hv _
          have hi : e.data.itr = 0 := by simpa using hin e he hv
          simp only [itr_ok, hi]
          omega
        have hes2 : ∀ e ∈ map_out v (fun el => { el with new_src := false })
            (map_in v (fun el => { el with itr := el.itr + 1, new_dst := false }) g.edges),
            itr_ok wl e.data := by
          apply map_out_keeps (itr_ok wl) v _ _ _ hes1
          intro el hel
          exact hel
        split at h
        · simp at h
        · rename_i r1 hk
          simp only [Option.some.injEq] at h
          rw [← h]
          exact update_known_bound wl sched v _ r1 (fun e he => hes2 e he) hk
      · rw [if_neg hall] at h
        simp at h
  · rw [if_neg hnew] at h
    exact update_known_bound wl sched v g r hb h

/-- A step other than a callback of iteration 0 keeps the cursor bound. -/
theorem step_late_bound (wl : WLEnv) (g g1 : Graph) (s : Step) (hs : s.late)
    (hb : cursor_bound wl g) (h : step wl g s = some g1) : cursor_bound wl g1 := by
  cases s with
  | callback sched pick v iteration =>
    simp only [Step.late] at hs
    simp only [step] at h
    split at h
    · simp at h
    · rename_i r hr
      simp only [Option.some.injEq] at h
      rw [← h]
      unfold update at hr
      have h0 : ¬ iteration = 0 := by omega
      rw [if_neg h0] at hr
      by_cases hit : iteration < wl.K_HOPS + 1
      · rw [if_pos hit] at hr
        exact update_base_bound wl sched v iteration g r hit hb hr
      · rw [if_neg hit] at hr
        exact update_stream_bound wl sched pick v g r hb hr
  | ingest e =>
    simp only [step] at h
    split_ifs at h with h0
    simp only [Option.some.injEq] at h
    rw [← h]
    intro e1 he1
    rcases List.mem_append.mp he1 with h1 | h1
    · exact hb e1 h1
    · have : e1 = e := by simpa using h1
      rw [this]
      simp only [itr_ok, h0]
      omega

theorem run_late_bound (wl : WLEnv) (steps : List Step) :
    ∀ (g g1 : Graph), (∀ s ∈ steps, s.late) → cursor_bound wl g →
      run wl steps g = some g1 → cursor_bound wl g1 := by
  induction steps with
  | nil =>
    intro g g1 _ hb h
    simp only [run, Option.some.injEq] at h
    rw [← h]; exact hb
  | cons s rest ih =>
    intro g g1 hl hb h
    simp only [run] at h
    split at h
    · simp at h
    · rename_i g2 hg2
      exact ih g2 g1 (fun s1 h1 => hl s1 (List.mem_cons_of_mem _ h1))
        (step_late_bound wl g g2 s (hl s (List.mem_cons_self _ _)) hb hg2) h

theorem run_append (wl : WLEnv) (l1 l2 : List Step) :
    ∀ (g g2 : Graph), run wl (l1 ++ l2) g = some g2 →
      ∃ g1, run wl l1 g = some g1 ∧ run wl l2 g1 = some g2 := by
  induction l1 with
  | nil => intro g g2 h; exact ⟨g, rfl, h⟩
  | cons s rest ih =>
    intro g g2 h
    simp only [List.cons_append, run] at h ⊢
    split at h
    · simp at h
    · rename_i g3 hg3
      exact ih g3 g2 h

/-- The callbacks of iteration 0 on vertices that are pairwise different: cursor 1 on the
in-edges of the vertices that had their callback, cursor 0 elsewhere. -/
theorem run_first_pass (wl : WLEnv) (sched : Bool) (pick : Nat → Nat) (vs : List Nat) :
    ∀ (done : List Nat) (g g1 : Graph), vs.Nodup → (∀ v ∈ vs, v ∉ done) →
      first_pass_inv done g →
      run wl (vs.map (fun v => Step.callback sched (pick v) v 0)) g = some g1 →
      first_pass_inv (done ++ vs) g1 := by
  induction vs with
  | nil =>
    intro done g g1 _ _ hinv h
    simp only [List.map_nil, run, Option.some.injEq] at h
    rw [← h]
    simpa using hinv
  | cons v rest ih =>
    intro done g g1 hnd hfresh hinv h
    simp only [List.map_cons, run] at h
    split at h
    · simp at h
    · rename_i g2 hg2
      have hv : v ∉ done := hfresh v (List.mem_cons_self _ _)
      have hvr : v ∉ rest := (List.nodup_cons.mp hnd).1
      have hinv2 : first_pass_inv (done ++ [v]) g2 := by
        simp only [step] at hg2
        split at hg2
        · simp at hg2
        · rename_i r hr
          simp only [Option.some.injEq] at hg2
          simp only [update, if_true] at hr
          have he := update_first_edges sched (pick v) v g wl.fresh_nl r hr
          rw [← hg2]
          intro e1 he1
          rw [he] at he1
          obtain ⟨e, hmem, -, ht, hc⟩ := mem_map_in v _ g.edges e1 he1
          obtain ⟨hd1, hd0⟩ := hinv e hmem
          rcases hc with ⟨hev, hd⟩ | ⟨hev, hd⟩
          · have h0 : e.data.itr = 0 := hd0 (by rw [hev]; exact hv)
            constructor
            · intro _; rw [hd]; simp [h0]
            · intro hn; exfalso; apply hn; rw [ht, hev]; simp
          · constructor
            · intro hm
              rw [ht] at hm
              rcases List.mem_append.mp hm with h1 | h1
              · rw [hd]; exact hd1 h1
              · exact absurd (by simpa using h1) hev
            · intro hn
              rw [hd]
              apply hd0
              intro h1
              apply hn
              rw [ht]
              exact List.mem_append_left _ h1
      have := ih (done ++ [v]) g2 g1 (List.nodup_cons.mp hnd).2
        (by
          intro w hw hmem
          rcases List.mem_append.mp hmem with h1 | h1
          · exact hfresh w (List.mem_cons_of_mem _ hw) h1
          · have : w = v := by simpa using h1
            rw [this] at hw
            exact hvr hw)
        hinv2 h
      simpa [List.append_assoc] using this

theorem base_schedule_split (wl : WLEnv) (sched : Bool) (pick : Nat → Nat → Nat)
    (order : Nat → List Nat) :
    ∃ rest, base_schedule wl sched pick order
        = (order 0).map (fun v => Step.callback sched (pick 0 v) v 0) ++ rest ∧
      ∀ s ∈ rest, s.late := by
  refine ⟨((List.range wl.K_HOPS).map Nat.succ).flatMap
    (fun i => (order i).map (fun v => Step.callback sched (pick i v) v i)), ?_, ?_⟩
  · unfold base_schedule
    rw [List.range_succ_eq_map]
    simp
  · intro s hs
    simp only [List.mem_flatMap, List.mem_map, List.mem_range] at hs
    obtain ⟨i, ⟨j, -, hj⟩, v, -, hv⟩ := hs
    rw [← hv, ← hj]
    simp [Step.late]

theorem first_pass_bound (wl : WLEnv) (done : List Nat) (g : Graph)
    (h : first_pass_inv done g) : cursor_bound wl g := by
  intro e he
  obtain ⟨h1, h0⟩ := h e he
  by_cases hm : e.target ∈ done
  · simp only [itr_ok, h1 hm]; omega
  · simp only [itr_ok, h0 hm]; omega

theorem streaming_late (wl : WLEnv) (s : Step) (h : s.streaming wl) : s.late := by
  cases s with
  | callback sched pick v iteration =>
    simp only [Step.streaming] at h
    simp only [Step.late]
    omega
  | ingest e => trivial

/-- The cursor bound in every state of a run: base phase, then streaming steps. -/
theorem reachable_bound (wl : WLEnv) (sched : Bool) (pick : Nat → Nat → Nat)
    (order : Nat → List Nat) (evs : List Step) (g0 g : Graph) (n : Nat)
    (h0 : ∀ e ∈ g0.edges, e.data.itr = 0) (hnd : (order 0).Nodup)
    (hev : ∀ s ∈ evs, s.streaming wl)
    (hrun : run wl ((base_schedule wl sched pick order ++ evs).take n) g0 = some g) :
    cursor_bound wl g := by
  obtain ⟨rest, hsplit, hlate⟩ := base_schedule_split wl sched pick order
  rw [hsplit, List.append_assoc, List.take_append_eq_append_take, ← List.map_take] at hrun
  obtain ⟨g1, hr1, hr2⟩ := run_append wl _ _ g0 g hrun
  have hinv0 : first_pass_inv [] g0 := by
    intro e he
    exact ⟨fun hm => absurd hm (by simp), fun _ => h0 e he⟩
  have hinv1 := run_first_pass wl sched (pick 0) ((order 0).take n) [] g0 g1
    (hnd.sublist (List.take_sublist _ _)) (by simp) hinv0 hr1
  apply run_late_bound wl _ g1 g _ (first_pass_bound wl _ g1 hinv1) hr2
  intro s hs
  have hs1 := List.mem_of_mem_take hs
  rcases List.mem_append.mp hs1 with h1 | h1
  · exact hlate s h1
  · exact streaming_late wl s (hev s h1)

/-- C10. Edge cursor bound: in every state reached from a graph whose edges all start with
`itr = 0` by the base iterations `0 .. K` (each vertex at most once in iteration 0) followed
by streaming steps, as long as no assertion fails, every edge has `0 <= itr <= K + 1`. -/
theorem edge_cursor_bound (wl : WLEnv) (sched : Bool) (pick : Nat → Nat → Nat)
    (order : Nat → List Nat) (evs : List Step) (g0 g : Graph) (n : Nat)
    (h0 : ∀ e ∈ g0.edges, e.data.itr = 0) (hnd : (order 0).Nodup)
    (hev : ∀ s ∈ evs, s.streaming wl)
    (hrun : run wl ((base_schedule wl sched pick order ++ evs).take n) g0 = some g) :
    ∀ e ∈ g.edges, 0 ≤ e.data.itr ∧ e.data.itr ≤ (wl.K_HOPS : Int) + 1 :=
  reachable_bound wl sched pick order evs g0 g n h0 hnd hev hrun

end WeisfeilerLehman

/-! ### Decimal strings of different numbers are different -/

/-- The value of a decimal digit character. -/
theorem digitChar_value (d : Nat) (hd : d < 10) : (Nat.digitChar d).toNat - 48 = d := by
  interval_cases d <;> rfl

theorem toDigitsCore_value (val : List Char → Nat)
    (hval : ∀ (pre : List Char) (c : Char), val (pre ++ [c]) = val pre * 10 + (c.toNat - 48))
    (hnil : val [] = 0) :
    ∀ (fuel n : Nat) (ds : List Char), n < fuel →
      ∃ pre, Nat.toDigitsCore 10 fuel n ds = pre ++ ds ∧ val pre = n := by
  intro fuel
  induction fuel with
  | zero => intro n ds h; omega
  | succ fuel ih =>
    intro n ds hn
    simp only [Nat.toDigitsCore]
    by_cases h0 : n / 10 = 0
    · rw [if_pos h0]
      refine ⟨[Nat.digitChar (n % 10)], rfl, ?_⟩
      have := hval [] (Nat.digitChar (n % 10))
      simp only [List.nil_append] at this
      rw [this, hnil, digitChar_value _ (Nat.mod_lt _ (by decide))]
      omega
    · rw [if_neg h0]
      obtain ⟨pre, hpre, hv⟩ := ih (n / 10) (Nat.digitChar (n % 10) :: ds) (by omega)
      refine ⟨pre ++ [Nat.digitChar (n % 10)], by simp [hpre], ?_⟩
      rw [hval, hv, digitChar_value _ (Nat.mod_lt _ (by decide))]
      omega

/-- The decimal representation of natural numbers is injective. -/
theorem toString_nat_injective : Function.Injective (fun n : Nat => toString n) := by
  intro a b hab
  have hdata : ∀ n : Nat, (toString n).data = Nat.toDigits 10 n := fun _ => rfl
  have hd : Nat.toDigits 10 a = Nat.toDigits 10 b := by
    rw [← hdata a, ← hdata b]
    exact congrArg String.data hab
  have hval : ∀ (pre : List Char) (c : Char),
      List.foldl (fun acc (c : Char) => acc * 10 + (c.toNat - 48)) 0 (pre ++ [c])
        = List.foldl (fun acc (c : Char) => acc * 10 + (c.toNat - 48)) 0 pre * 10
          + (c.toNat - 48) := by
    intro pre c
    simp [List.foldl_append]
  obtain ⟨pa, ha, va⟩ := toDigitsCore_value
    (List.foldl (fun acc (c : Char) => acc * 10 + (c.toNat - 48)) 0) hval rfl (a + 1) a []
    (by omega)
  obtain ⟨pb, hb, vb⟩ := toDigitsCore_value
    (List.foldl (fun acc (c : Char) => acc * 10 + (c.toNat - 48)) 0) hval rfl (b + 1) b []
    (by omega)
  unfold Nat.toDigits at hd
  rw [ha, hb] at hd
  simp only [List.append_nil] at hd
  rw [← va, ← vb, hd]

namespace WeisfeilerLehman

/-! ### Iteration 0 (C12) -/

theorem map_in_eq (v : Nat) (f : edge_label → edge_label) (es : List Edge) :
    map_in v f es = es.map (edit_in v f) := rfl

theorem map_out_eq (v : Nat) (f : edge_label → edge_label) (es : List Edge) :
    map_out v f es = es.map (edit_out v f) := rfl

theorem in_edges_cons_mem (g : Graph) (v : Nat) (n : edge_label) (rest : List edge_label)
    (h : in_edges g v = n :: rest) : ∃ e ∈ g.edges, e.target = v ∧ e.data = n := by
  have hm : n ∈ in_edges g v := by rw [h]; exact List.mem_cons_self _ _
  unfold in_edges at hm
  obtain ⟨e, he, rfl⟩ := List.mem_map.mp hm
  obtain ⟨h1, h2⟩ := List.mem_filter.mp he
  exact ⟨e, h1, by simpa using h2, rfl⟩

/-- Iteration 0 on a vertex with in-edges. -/
theorem update_zero_in (wl : WLEnv) (sched : Bool) (pick v : Nat) (g : Graph)
    (edge : edge_label) (rest : List edge_label) (h : in_edges g v = edge :: rest) :
    update wl sched pick v 0 g = some
      { graph :=
          { vdata := setAt g.vdata v
              { lb := setAt wl.fresh_nl.lb 0 edge.dst, tm := setAt wl.fresh_nl.tm 0 0
                is_leaf := false }
            edges := map_in v (fun el => { el with itr := el.itr + 1 }) g.edges }
        hist_updates := [(edge.dst, true)]
        tasks := if sched then [v] else [] } := by
  simp [update, update_first, h, setAt]

/-- Iteration 0 on a vertex without in-edges and with the chosen out-edge `edge`. -/
theorem update_zero_leaf (wl : WLEnv) (sched : Bool) (pick v : Nat) (g : Graph)
    (edge : edge_label) (h : in_edges g v = [])
    (ho : random_outedge pick (out_edges g v) = some edge) :
    update wl sched pick v 0 g = some
      { graph :=
          { vdata := setAt g.vdata v
              { lb := setAt wl.fresh_nl.lb 0 (edge.src 0), tm := setAt wl.fresh_nl.tm 0 0
                is_leaf := true }
            edges := g.edges }
        hist_updates := [(edge.src 0, true)]
        tasks := if sched then [v] else [] } := by
  simp [update, update_first, h, ho, setAt]

theorem random_outedge_some (pick : Nat) (outs : List edge_label) (h : outs ≠ []) :
    ∃ el, random_outedge pick outs = some el ∧ el ∈ outs := by
  have hlen : 0 < outs.length := List.length_pos.mpr h
  have hlt : pick % outs.length < outs.length := Nat.mod_lt _ hlen
  refine ⟨outs[pick % outs.length], ?_, List.getElem_mem _⟩
  unfold random_outedge
  rw [if_neg (by omega)]
  exact List.getElem?_eq_getElem hlt

/-- C12. Iteration 0: a vertex with in-edges gets `lb[0] = inedge(0).dst` and is no leaf; a
vertex without in-edges and with an out-edge gets `lb[0] = src[0]` of the chosen out-edge and
is a leaf; in both cases `tm[0] = 0`, the histogram receives exactly the one call
`update(lb[0], true)` and the vertex adds itself to the scheduler (when there is one). For
the graph `A -> B` with types 1 and 2: `lb_A[0] = 1`, `A` leaf, `lb_B[0] = 2`, `B` no leaf. -/
theorem first_iteration_label (wl : WLEnv) (sched : Bool) (pick v : Nat) (g : Graph) :
    (∀ edge rest, in_edges g v = edge :: rest →
      ∃ r, update wl sched pick v 0 g = some r ∧
        (r.graph.vdata v).lb 0 = edge.dst ∧ (r.graph.vdata v).is_leaf = false ∧
        (r.graph.vdata v).tm 0 = 0 ∧
        r.hist_updates = [((r.graph.vdata v).lb 0, true)] ∧
        r.tasks = if sched then [v] else []) ∧
    (in_edges g v = [] → out_edges g v ≠ [] →
      ∃ r edge, update wl sched pick v 0 g = some r ∧
        random_outedge pick (out_edges g v) = some edge ∧ edge ∈ out_edges g v ∧
        (r.graph.vdata v).lb 0 = edge.src 0 ∧ (r.graph.vdata v).is_leaf = true ∧
        (r.graph.vdata v).tm 0 = 0 ∧
        r.hist_updates = [((r.graph.vdata v).lb 0, true)] ∧
        r.tasks = if sched then [v] else []) ∧
    (update example_wl true 0 0 0 example_graph).map
        (fun r => ((r.graph.vdata 0).lb 0, (r.graph.vdata 0).is_leaf, r.tasks)) = some (1, true, [0]) ∧
    (update example_wl true 0 1 0 example_graph).map
        (fun r => ((r.graph.vdata 1).lb 0, (r.graph.vdata 1).is_leaf, r.tasks)) = some (2, false, [1]) := by
  refine ⟨?_, ?_, by decide, by decide⟩
  · intro edge rest h
    refine ⟨_, update_zero_in wl sched pick v g edge rest h, ?_⟩
    simp [setAt]
  · intro h hout
    obtain ⟨edge, ho, hmem⟩ := random_outedge_some pick (out_edges g v) hout
    refine ⟨_, edge, update_zero_leaf wl sched pick v g edge h ho, ho, hmem, ?_⟩
    simp [setAt]

/-! ### The relabeling string of the base phase (C13) -/

/-- A base iteration `1 .. K_HOPS` on a vertex without in-edges. -/
theorem update_base_leaf_eq (wl : WLEnv) (sched : Bool) (pick v iteration : Nat) (g : Graph)
    (h1 : 1 ≤ iteration) (hK : iteration ≤ wl.K_HOPS) (h : in_edges g v = []) :
    update wl sched pick v iteration g = some
      { graph :=
          { vdata := setAt g.vdata v
              { g.vdata v with
                lb := setAt (g.vdata v).lb iteration (self_hash wl ((g.vdata v).lb (iteration - 1)))
                tm := setAt (g.vdata v).tm iteration ((g.vdata v).tm (iteration - 1)) }
            edges := map_out v (fun el =>
              { el with
                src := setAt el.src iteration (self_hash wl ((g.vdata v).lb (iteration - 1)))
                tme := setAt el.tme iteration (el.tme (iteration - 1)) }) g.edges }
        hist_updates := [(self_hash wl ((g.vdata v).lb (iteration - 1)), true)]
        tasks := if sched ∧ iteration < wl.K_HOPS then [v] else [] } := by
  have h0 : ¬ iteration = 0 := by omega
  have hlt : iteration < wl.K_HOPS + 1 := by omega
  simp only [update, if_neg h0, if_pos hlt, update_base, h, List.all_nil, if_true, self_hash]
  rw [map_in_nil g v _ h]

/-- A base iteration `1 .. K_HOPS` on a vertex with in-edges whose cursors are all equal to
the iteration. -/
theorem update_base_in_eq (wl : WLEnv) (sched : Bool) (pick v iteration : Nat) (g : Graph)
    (n : edge_label) (rest : List edge_label)
    (h1 : 1 ≤ iteration) (hK : iteration ≤ wl.K_HOPS) (h : in_edges g v = n :: rest)
    (hitr : ∀ el ∈ in_edges g v, el.itr = (iteration : Int)) :
    update wl sched pick v iteration g = some
      { graph :=
          { vdata := setAt g.vdata v
              { g.vdata v with
                lb := setAt (g.vdata v).lb iteration
                  (wl.hash (relabel_string ((g.vdata v).lb (iteration - 1))
                    (decide (iteration = 1)) (iteration - 1)
                    (sort_by_tme (iteration - 1) (in_edges g v))))
                tm := setAt (g.vdata v).tm iteration
                  (front_tme (iteration - 1) (sort_by_tme (iteration - 1) (in_edges g v))) }
            edges := map_out v (fun el =>
              { el with
                src := setAt el.src iteration
                  (wl.hash (relabel_string ((g.vdata v).lb (iteration - 1))
                    (decide (iteration = 1)) (iteration - 1)
                    (sort_by_tme (iteration - 1) (in_edges g v))))
                tme := setAt el.tme iteration
                  (front_tme (iteration - 1) (sort_by_tme (iteration - 1) (in_edges g v))) })
              (map_in v (fun el => { el with itr := el.itr + 1 }) g.edges) }
        hist_updates := publish wl (relabel_string ((g.vdata v).lb (iteration - 1))
            (decide (iteration = 1)) (iteration - 1)
            (sort_by_tme (iteration - 1) (in_edges g v))) true
        tasks := if sched ∧ iteration < wl.K_HOPS then [v] else [] } := by
  have h0 : ¬ iteration = 0 := by omega
  have hlt : iteration < wl.K_HOPS + 1 := by omega
  have hall : ((in_edges g v).all fun el => decide (el.itr = (iteration : Int))) = true := by
    rw [List.all_eq_true]
    intro el hel
    simpa using hitr el hel
  simp only [update, if_neg h0, if_pos hlt, update_base, hall, if_true]
  rw [h]
  simp [setAt]

theorem relabel_fold (b : Bool) (idx : Nat) (nb : List edge_label) :
    ∀ init : String,
      nb.foldl (fun s it =>
        (if b then s ++ (" " ++ toString it.edg) else s) ++ (" " ++ toString (it.src idx))) init
      = init ++ String.join (nb.map (fun n =>
          (if b then " " ++ toString n.edg else "") ++ (" " ++ toString (n.src idx)))) := by
  induction nb with
  | nil => intro init; simp [String.join]
  | cons n rest ih =>
    intro init
    rw [List.foldl_cons, ih, List.map_cons]
    have hj : ∀ (x : String) (l : List String), String.join (x :: l) = x ++ String.join l := by
      intro x l
      simp only [String.join, List.foldl_cons]
      rw [Histogram.foldl_append_string, Histogram.foldl_append_string l ""]
      simp
    rw [hj]
    cases b <;> simp [String.append_assoc]

/-- The string that the code builds is the string of the specification. -/
theorem relabel_string_spec (first generation : Nat) (nb : List edge_label) :
    relabel_string first (decide (generation = 1)) (generation - 1) nb
      = spec_relabel_string first generation nb := by
  unfold relabel_string spec_relabel_string
  rw [relabel_fold]
  by_cases hg : generation = 1 <;> simp [hg]

theorem sort_by_tme_perm (idx : Nat) (nb : List edge_label) :
    (sort_by_tme idx nb).Perm nb :=
  List.perm_insertionSort _ nb

theorem sort_by_tme_sorted (idx : Nat) (nb : List edge_label) :
    sorted_by_tme idx (sort_by_tme idx nb) := by
  haveI : IsTotal edge_label (fun a b => a.tme idx ≤ b.tme idx) := ⟨fun a b => le_total _ _⟩
  haveI : IsTrans edge_label (fun a b => a.tme idx ≤ b.tme idx) :=
    ⟨fun a b c hab hbc => le_trans hab hbc⟩
  exact List.sorted_insertionSort _ nb

/-- The first element of the sorted neighbourhood carries the least timestamp. -/
theorem front_tme_min (idx : Nat) (nb : List edge_label) (hne : nb ≠ []) :
    (∃ n ∈ nb, front_tme idx (sort_by_tme idx nb) = n.tme idx) ∧
    ∀ n ∈ nb, front_tme idx (sort_by_tme idx nb) ≤ n.tme idx := by
  have hp := sort_by_tme_perm idx nb
  have hs := sort_by_tme_sorted idx nb
  cases hsort : sort_by_tme idx nb with
  | nil =>
    rw [hsort] at hp
    exact absurd (List.Perm.nil_eq hp) (fun e => hne e.symm)
  | cons a rest =>
    rw [hsort] at hp hs
    have ha : a ∈ nb := hp.mem_iff.mp (List.mem_cons_self _ _)
    refine ⟨⟨a, ha, rfl⟩, ?_⟩
    intro n hn
    have hn1 : n ∈ a :: rest := hp.mem_iff.mpr hn
    rcases List.mem_cons.mp hn1 with h1 | h1
    · rw [h1]; exact le_refl _
    · exact List.rel_of_sorted_cons hs n h1

/-- C13. A base iteration `g` in `1 .. K` on a vertex with in-edges (whose cursors equal `g`,
so that the assertion passes) sets `lb[g] = hash(s)`, where `s` is `str(lb[g-1])` followed,
for each in-edge `n` in ascending order of `n.tme[g-1]`, by `" " + str(n.edg)` only when
`g = 1` and then `" " + str(n.src[g-1])`; without `CHUNKIFY` the histogram receives exactly
the one call `update(lb[g], true)`. A vertex with `lb[0] = 2` and one in-edge of type 7 from
a source labelled 1 gets `lb[1] = hash("2 7 1")`. -/
theorem base_relabel_string (wl : WLEnv) (sched : Bool) (pick v iteration : Nat) (g : Graph)
    (n : edge_label) (rest : List edge_label)
    (h1 : 1 ≤ iteration) (hK : iteration ≤ wl.K_HOPS) (hin : in_edges g v = n :: rest)
    (hitr : ∀ el ∈ in_edges g v, el.itr = (iteration : Int)) :
    ∃ r sorted, update wl sched pick v iteration g = some r ∧
      sorted.Perm (in_edges g v) ∧ sorted_by_tme (iteration - 1) sorted ∧
      (r.graph.vdata v).lb iteration
        = wl.hash (spec_relabel_string ((g.vdata v).lb (iteration - 1)) iteration sorted) ∧
      (r.graph.vdata v).lb (iteration - 1) = (g.vdata v).lb (iteration - 1) ∧
      (wl.CHUNKIFY = false →
        r.hist_updates = [((r.graph.vdata v).lb iteration, true)]) ∧
      (iteration = 1 → rest = [] → n.edg = 7 → n.src 0 = 1 → (g.vdata v).lb 0 = 2 →
        (r.graph.vdata v).lb 1 = wl.hash "2 7 1") := by
  refine ⟨_, sort_by_tme (iteration - 1) (in_edges g v),
    update_base_in_eq wl sched pick v iteration g n rest h1 hK hin hitr,
    sort_by_tme_perm _ _, sort_by_tme_sorted _ _, ?_, ?_, ?_, ?_⟩
  · simp [setAt, relabel_string_spec]
  · have hne : ¬ iteration - 1 = iteration := by omega
    simp [setAt, hne]
  · intro hc
    simp [setAt, publish, hc]
  · intro hi hrest hedg hsrc hlb
    subst hi
    rw [hin, hrest]
    simp only [setAt, if_true, sort_by_tme, List.insertionSort, List.orderedInsert,
      relabel_string, List.foldl_cons, List.foldl_nil, hedg, hsrc, hlb]
    rfl

/-! ### Leaves in the base phase (C14) -/

theorem in_edges_eq_nil (g : Graph) (v : Nat) (h : ∀ e ∈ g.edges, e.target ≠ v) :
    in_edges g v = [] := by
  unfold in_edges
  rw [List.map_eq_nil_iff, List.filter_eq_nil_iff]
  intro e he
  simpa using h e he

/-- The edges after a callback of a base iteration `1 .. K_HOPS`. -/
theorem update_base_shape (wl : WLEnv) (sched : Bool) (v iteration : Nat) (g : Graph)
    (r : Effects) (h : update_base wl sched v iteration g = some r) :
    (∃ f nl, r.graph.edges
        = map_out v f (map_in v (fun el => { el with itr := el.itr + 1 }) g.edges) ∧
      (∀ el, (f el).itr = el.itr) ∧ r.graph.vdata = setAt g.vdata v nl) ∧
    ∀ e ∈ g.edges, e.target = v → e.data.itr = (iteration : Int) := by
  unfold update_base at h
  simp only [] at h
  by_cases hall : ((in_edges g v).all fun el => decide (el.itr = (iteration : Int))) = true
  · rw [if_pos hall] at h
    have hin := in_edges_all g v _ hall
    refine ⟨?_, fun e he hv => by simpa using hin e he hv⟩
    cases hne : in_edges g v with
    | nil =>
      rw [hne] at h
      simp only [Option.some.injEq] at h
      rw [← h]
      dsimp only
      refine ⟨_, _, rfl, ?_, rfl⟩
      intro el
      rfl
    | cons n rest =>
      rw [hne] at h
      simp only [Option.some.injEq] at h
      rw [← h]
      dsimp only
      refine ⟨_, _, rfl, ?_, rfl⟩
      intro el
      rfl
  · rw [if_neg hall] at h
    simp at h

/-- The data of iteration 0: only the vertex of the callback changes. -/
theorem update_first_vdata (sched : Bool) (pick v : Nat) (g : Graph) (nl0 : node_label)
    (r : Effects) (h : update_first sched pick v g nl0 = some r) :
    ∃ nl, r.graph.vdata = setAt g.vdata v nl := by
  unfold update_first at h
  cases hin : in_edges g v with
  | nil =>
    rw [hin] at h
    simp only [] at h
    cases hro : random_outedge pick (out_edges g v) with
    | none => rw [hro] at h; simp at h
    | some edge =>
      rw [hro] at h
      simp only [Option.some.injEq] at h
      rw [← h]
      exact ⟨_, rfl⟩
  | cons edge rest =>
    rw [hin] at h
    simp only [Option.some.injEq] at h
    rw [← h]
    exact ⟨_, rfl⟩

/-- A callback of the base phase changes the data of its own vertex only and gives no
vertex a new in-edge. -/
theorem base_callback_frame (wl : WLEnv) (sched : Bool) (pick u iteration : Nat) (g : Graph)
    (r : Effects) (hK : iteration ≤ wl.K_HOPS)
    (h : update wl sched pick u iteration g = some r) :
    (∀ w, w ≠ u → r.graph.vdata w = g.vdata w) ∧
    (∀ w, in_edges g w = [] → in_edges r.graph w = []) := by
  unfold update at h
  by_cases h0 : iteration = 0
  · rw [if_pos h0] at h
    obtain ⟨nl, hvd⟩ := update_first_vdata sched pick u g wl.fresh_nl r h
    have hed := update_first_edges sched pick u g wl.fresh_nl r h
    refine ⟨fun w hw => by rw [hvd]; simp [setAt, hw], ?_⟩
    intro w hw
    apply in_edges_eq_nil
    intro e he
    rw [hed] at he
    obtain ⟨e0, he0, -, ht, -⟩ := mem_map_in u _ _ e he
    rw [ht]
    exact in_edges_nil g w hw e0 he0
  · rw [if_neg h0, if_pos (by omega)] at h
    obtain ⟨⟨f, nl, hed, -, hvd⟩, -⟩ := update_base_shape wl sched u iteration g r h
    refine ⟨fun w hw => by rw [hvd]; simp [setAt, hw], ?_⟩
    intro w hw
    apply in_edges_eq_nil
    intro e he
    rw [hed] at he
    obtain ⟨e1, he1, -, ht1, -⟩ := mem_map_out u _ _ e he
    obtain ⟨e0, he0, -, ht0, -⟩ := mem_map_in u _ _ e1 he1
    rw [ht1, ht0]
    exact in_edges_nil g w hw e0 he0

/-- One callback of a base iteration `i` in `1 .. K`, seen from a vertex `v` without
in-edges: `v` keeps having no in-edges, only `lb[i]` of `v` can change, and it becomes
`hash(str(lb[i-1]))` when the callback is the one of `v`. -/
theorem step_leaf_base (wl : WLEnv) (sched : Bool) (p u v i : Nat) (g g2 : Graph)
    (h1 : 1 ≤ i) (hK : i ≤ wl.K_HOPS) (hleaf : in_edges g v = [])
    (h : step wl g (Step.callback sched p u i) = some g2) :
    in_edges g2 v = [] ∧
    (∀ j, j ≠ i → (g2.vdata v).lb j = (g.vdata v).lb j) ∧
    (u = v → (g2.vdata v).lb i = self_hash wl ((g.vdata v).lb (i - 1))) ∧
    (u ≠ v → (g2.vdata v).lb i = (g.vdata v).lb i) := by
  simp only [step] at h
  split at h
  · simp at h
  · rename_i r hr
    simp only [Option.some.injEq] at h
    subst h
    obtain ⟨hvd, hin⟩ := base_callback_frame wl sched p u i g r hK hr
    refine ⟨hin v hleaf, ?_, ?_, ?_⟩
    · intro j hj
      by_cases huv : u = v
      · subst huv
        rw [update_base_leaf_eq wl sched p u i g h1 hK hleaf] at hr
        simp only [Option.some.injEq] at hr
        rw [← hr]
        simp [setAt, hj]
      · rw [hvd v (fun e => huv e.symm)]
    · intro huv
      subst huv
      rw [update_base_leaf_eq wl sched p u i g h1 hK hleaf] at hr
      simp only [Option.some.injEq] at hr
      rw [← hr]
      simp [setAt]
    · intro huv
      rw [hvd v (fun e => huv e.symm)]

/-- The callbacks of one base iteration `i` in `1 .. K`, seen from a vertex without
in-edges. -/
theorem leaf_pass (wl : WLEnv) (sched : Bool) (pick : Nat → Nat) (v i : Nat)
    (h1 : 1 ≤ i) (hK : i ≤ wl.K_HOPS) :
    ∀ (vs : List Nat) (g g1 : Graph) (d : Prop),
      run wl (vs.map (fun u => Step.callback sched (pick u) u i)) g = some g1 →
      in_edges g v = [] →
      (∀ j, 1 ≤ j → j < i → (g.vdata v).lb j = self_hash wl ((g.vdata v).lb (j - 1))) →
      (d → (g.vdata v).lb i = self_hash wl ((g.vdata v).lb (i - 1))) →
      in_edges g1 v = [] ∧
      (∀ j, 1 ≤ j → j < i → (g1.vdata v).lb j = self_hash wl ((g1.vdata v).lb (j - 1))) ∧
      (d ∨ v ∈ vs → (g1.vdata v).lb i = self_hash wl ((g1.vdata v).lb (i - 1))) := by
  intro vs
  induction vs with
  | nil =>
    intro g g1 d hrun hleaf hlow hd
    simp only [List.map_nil, run, Option.some.injEq] at hrun
    subst hrun
    exact ⟨hleaf, hlow, fun h => hd (by simpa using h)⟩
  | cons u rest ih =>
    intro g g1 d hrun hleaf hlow hd
    simp only [List.map_cons, run] at hrun
    split at hrun
    · simp at hrun
    · rename_i g2 hg2
      obtain ⟨hleaf2, hother, hself, hfr⟩ :=
        step_leaf_base wl sched (pick u) u v i g g2 h1 hK hleaf hg2
      have hlow2 : ∀ j, 1 ≤ j → j < i →
          (g2.vdata v).lb j = self_hash wl ((g2.vdata v).lb (j - 1)) := by
        intro j hj1 hji
        rw [hother j (by omega), hother (j - 1) (by omega)]
        exact hlow j hj1 hji
      have hd2 : (d ∨ u = v) → (g2.vdata v).lb i = self_hash wl ((g2.vdata v).lb (i - 1)) := by
        intro hc
        rw [hother (i - 1) (by omega)]
        by_cases huv : u = v
        · exact hself huv
        · rw [hfr huv]
          rcases hc with h | h
          · exact hd h
          · exact absurd h huv
      obtain ⟨a, b, c⟩ := ih g2 g1 (d ∨ u = v) hrun hleaf2 hlow2 hd2
      refine ⟨a, b, ?_⟩
      intro hc
      apply c
      rcases hc with h | h
      · exact Or.inl (Or.inl h)
      · rcases List.mem_cons.mp h with h2 | h2
        · exact Or.inl (Or.inr h2.symm)
        · exact Or.inr h2

/-- The base iterations `a, a + 1, ...`, seen from a vertex without in-edges that has a
callback in each of them. -/
theorem leaf_passes (wl : WLEnv) (sched : Bool) (pick : Nat → Nat → Nat)
    (order : Nat → List Nat) (v : Nat)
    (hord : ∀ i, 1 ≤ i → i ≤ wl.K_HOPS → v ∈ order i) :
    ∀ (n a : Nat) (g g1 : Graph), 1 ≤ a → a + n ≤ wl.K_HOPS + 1 →
      run wl ((List.range' a n).flatMap
        (fun i => (order i).map (fun u => Step.callback sched (pick i u) u i))) g = some g1 →
      in_edges g v = [] →
      (∀ j, 1 ≤ j → j < a → (g.vdata v).lb j = self_hash wl ((g.vdata v).lb (j - 1))) →
      in_edges g1 v = [] ∧
      ∀ j, 1 ≤ j → j < a + n → (g1.vdata v).lb j = self_hash wl ((g1.vdata v).lb (j - 1)) := by
  intro n
  induction n with
  | zero =>
    intro a g g1 _ _ hrun hleaf hlow
    simp only [List.range'_zero, List.flatMap_nil, run, Option.some.injEq] at hrun
    subst hrun
    exact ⟨hleaf, by simpa using hlow⟩
  | succ n ih =>
    intro a g g1 ha hK hrun hleaf hlow
    rw [List.range'_succ, List.flatMap_cons] at hrun
    obtain ⟨g2, hr1, hr2⟩ := run_append wl _ _ g g1 hrun
    obtain ⟨hleaf2, hlow2, hat⟩ :=
      leaf_pass wl sched (pick a) v a ha (by omega) (order a) g g2 False hr1 hleaf hlow
        (fun h => absurd h (fun x => x))
    have hlow3 : ∀ j, 1 ≤ j → j < a + 1 →
        (g2.vdata v).lb j = self_hash wl ((g2.vdata v).lb (j - 1)) := by
      intro j hj1 hj2
      by_cases hja : j = a
      · subst hja
        exact hat (Or.inr (hord j ha (by omega)))
      · exact hlow2 j hj1 (by omega)
    have := ih (a + 1) g2 g1 (by omega) (by omega) hr2 hleaf2 hlow3
    obtain ⟨x, y⟩ := this
    refine ⟨x, ?_⟩
    intro j hj1 hj2
    exact y j hj1 (by omega)

theorem run_pass_zero_leaf (wl : WLEnv) (sched : Bool) (pick : Nat → Nat) (v : Nat) :
    ∀ (vs : List Nat) (g g1 : Graph),
      run wl (vs.map (fun u => Step.callback sched (pick u) u 0)) g = some g1 →
      in_edges g v = [] → in_edges g1 v = [] := by
  intro vs
  induction vs with
  | nil =>
    intro g g1 hrun hleaf
    simp only [List.map_nil, run, Option.some.injEq] at hrun
    subst hrun
    exact hleaf
  | cons u rest ih =>
    intro g g1 hrun hleaf
    simp only [List.map_cons, run] at hrun
    split at hrun
    · simp at hrun
    · rename_i g2 hg2
      simp only [step] at hg2
      split at hg2
      · simp at hg2
      · rename_i r hr
        simp only [Option.some.injEq] at hg2
        subst hg2
        exact ih _ g1 hrun
          ((base_callback_frame wl sched (pick u) u 0 g r (Nat.zero_le _) hr).2 v hleaf)

/-- After the base phase a vertex without in-edges that had a callback in every iteration
`1 .. K` carries the chain of self-hashes of its first label. -/
theorem leaf_chain_run (wl : WLEnv) (sched : Bool) (pick : Nat → Nat → Nat)
    (order : Nat → List Nat) (g0 g : Graph) (v : Nat)
    (hrun : run wl (base_schedule wl sched pick order) g0 = some g)
    (hleaf : in_edges g0 v = [])
    (hord : ∀ i, 1 ≤ i → i ≤ wl.K_HOPS → v ∈ order i) :
    ∀ j, j ≤ wl.K_HOPS → (g.vdata v).lb j = (self_hash wl)^[j] ((g.vdata v).lb 0) := by
  unfold base_schedule at hrun
  rw [List.range_eq_range', List.range'_succ, List.flatMap_cons] at hrun
  obtain ⟨g1, hr1, hr2⟩ := run_append wl _ _ g0 g hrun
  have hleaf1 := run_pass_zero_leaf wl sched (pick 0) v (order 0) g0 g1 hr1 hleaf
  obtain ⟨-, hchain⟩ := leaf_passes wl sched pick order v hord wl.K_HOPS 1 g1 g
    (le_refl _) (by omega) hr2 hleaf1 (by intro j h1 h2; omega)
  intro j
  induction j with
  | zero => intro _; rfl
  | succ j ih =>
    intro hj
    rw [Function.iterate_succ_apply', ← ih (by omega)]
    have := hchain (j + 1) (by omega) (by omega)
    simpa using this

theorem self_hash_injective (wl : WLEnv) (hinj : Function.Injective wl.hash) :
    Function.Injective (self_hash wl) := by
  intro a b hab
  exact toString_nat_injective (hinj hab)

/-- C14. Leaf chain of the base phase. A base iteration `g` in `1 .. K` on a vertex without
in-edges sets `lb[g] = hash(str(lb[g-1]))` and `tm[g] = tm[g-1]`; hence after the base
phase such a vertex carries the `K + 1` labels obtained from `lb[0]` by repeated self-hash.
Two such vertices with different `lb[0]` have different `lb[g]` for every `g` in `0 .. K`
as soon as the hash has no collision among the strings that it is given along the two
chains, the decimal strings of `lb[0 .. K-1]` of the two vertices; an injective hash has no
collision at all. -/
theorem leaf_self_hash_chain (wl : WLEnv) (sched : Bool) (pick : Nat → Nat → Nat)
    (order : Nat → List Nat) (g0 g : Graph)
    (hrun : run wl (base_schedule wl sched pick order) g0 = some g) :
    (∀ (g1 : Graph) (p v i : Nat), 1 ≤ i → i ≤ wl.K_HOPS → in_edges g1 v = [] →
      ∃ r, update wl sched p v i g1 = some r ∧
        (r.graph.vdata v).lb i = wl.hash (toString ((g1.vdata v).lb (i - 1))) ∧
        (r.graph.vdata v).tm i = (g1.vdata v).tm (i - 1)) ∧
    (∀ v, in_edges g0 v = [] → (∀ i, 1 ≤ i → i ≤ wl.K_HOPS → v ∈ order i) →
      ∀ j, j ≤ wl.K_HOPS →
        (g.vdata v).lb j = (fun l => wl.hash (toString l))^[j] ((g.vdata v).lb 0)) ∧
    (∀ u w,
      in_edges g0 u = [] → (∀ i, 1 ≤ i → i ≤ wl.K_HOPS → u ∈ order i) →
      in_edges g0 w = [] → (∀ i, 1 ≤ i → i ≤ wl.K_HOPS → w ∈ order i) →
      Set.InjOn wl.hash
        {s | ∃ j, j < wl.K_HOPS ∧
          (s = toString ((g.vdata u).lb j) ∨ s = toString ((g.vdata w).lb j))} →
      (g.vdata u).lb 0 ≠ (g.vdata w).lb 0 →
      ∀ j, j ≤ wl.K_HOPS → (g.vdata u).lb j ≠ (g.vdata w).lb j) := by
  refine ⟨?_, ?_, ?_⟩
  · intro g1 p v i h1 hK hleaf
    refine ⟨_, update_base_leaf_eq wl sched p v i g1 h1 hK hleaf, ?_, ?_⟩
    · simp [setAt, self_hash]
    · simp [setAt]
  · intro v hleaf hord j hj
    exact leaf_chain_run wl sched pick order g0 g v hrun hleaf hord j hj
  · intro u w hu hou hw how hinj hne j
    have hstep : ∀ v, in_edges g0 v = [] → (∀ i, 1 ≤ i → i ≤ wl.K_HOPS → v ∈ order i) →
        ∀ k, k < wl.K_HOPS → (g.vdata v).lb (k + 1) = wl.hash (toString ((g.vdata v).lb k)) := by
      intro v hv hov k hk
      rw [leaf_chain_run wl sched pick order g0 g v hrun hv hov (k + 1) (by omega),
        Function.iterate_succ_apply',
        ← leaf_chain_run wl sched pick order g0 g v hrun hv hov k (by omega)]
      rfl
    induction j with
    | zero => intro _; exact hne
    | succ k ih =>
      intro hk heq
      rw [hstep u hu hou k (by omega), hstep w hw how k (by omega)] at heq
      exact ih (by omega)
        (toString_nat_injective
          (hinj ⟨k, by omega, Or.inl rfl⟩ ⟨k, by omega, Or.inr rfl⟩ heq))

/-! ### Scheduling and timestamps in the base phase (C19, C20) -/

/-- The tasks that a callback of a base iteration `1 .. K_HOPS` adds. -/
theorem update_base_tasks (wl : WLEnv) (sched : Bool) (v iteration : Nat) (g : Graph)
    (r : Effects) (h : update_base wl sched v iteration g = some r) :
    r.tasks = if sched ∧ iteration < wl.K_HOPS then [v] else [] := by
  unfold update_base at h
  simp only [] at h
  by_cases hall : ((in_edges g v).all fun el => decide (el.itr = (iteration : Int))) = true
  · rw [if_pos hall] at h
    cases hne : in_edges g v with
    | nil =>
      rw [hne] at h
      simp only [Option.some.injEq] at h
      rw [← h]
    | cons n rest =>
      rw [hne] at h
      simp only [Option.some.injEq] at h
      rw [← h]
  · rw [if_neg hall] at h
    simp at h

/-- C19. Base rescheduling: a vertex processed in a base iteration `g` in `1 .. K` with a
scheduler adds itself to the scheduler if and only if `g < K`, and adds no other vertex
(without a scheduler it adds nothing). -/
theorem base_rescheduling (wl : WLEnv) (sched : Bool) (pick v iteration : Nat) (g : Graph)
    (r : Effects) (h1 : 1 ≤ iteration) (hK : iteration ≤ wl.K_HOPS)
    (h : update wl sched pick v iteration g = some r) :
    (sched = true → (v ∈ r.tasks ↔ iteration < wl.K_HOPS)) ∧
    (∀ u ∈ r.tasks, u = v) ∧
    r.tasks = (if sched ∧ iteration < wl.K_HOPS then [v] else []) := by
  have h0 : ¬ iteration = 0 := by omega
  have hlt : iteration < wl.K_HOPS + 1 := by omega
  simp only [update, if_neg h0, if_pos hlt] at h
  have ht := update_base_tasks wl sched v iteration g r h
  rw [ht]
  refine ⟨?_, ?_, rfl⟩
  · intro hs
    by_cases hk : iteration < wl.K_HOPS <;> simp [hs, hk]
  · intro u hu
    split_ifs at hu with hc
    · simpa using hu
    · simp at hu

/-- C20. Timestamps in a base iteration `g` in `1 .. K`: for a vertex with in-edges (whose
cursors equal `g`), `tm[g]` is the minimum of `tme[g-1]` over its in-edges and every
out-edge gets `src[g] = lb[g]` and `tme[g] = tm[g]`; for a vertex without in-edges,
`tm[g] = tm[g-1]` and every out-edge gets `src[g] = lb[g]` and `tme[g]` equal to its own
`tme[g-1]`. -/
theorem base_timestamps (wl : WLEnv) (sched : Bool) (pick v iteration : Nat) (g : Graph)
    (h1 : 1 ≤ iteration) (hK : iteration ≤ wl.K_HOPS) :
    (∀ n rest, in_edges g v = n :: rest →
      (∀ el ∈ in_edges g v, el.itr = (iteration : Int)) →
      ∃ r, update wl sched pick v iteration g = some r ∧
        (∃ n0 ∈ in_edges g v, (r.graph.vdata v).tm iteration = n0.tme (iteration - 1)) ∧
        (∀ n1 ∈ in_edges g v, (r.graph.vdata v).tm iteration ≤ n1.tme (iteration - 1)) ∧
        (∀ e ∈ r.graph.edges, e.source = v →
          e.data.src iteration = (r.graph.vdata v).lb iteration ∧
          e.data.tme iteration = (r.graph.vdata v).tm iteration)) ∧
    (in_edges g v = [] →
      ∃ r, update wl sched pick v iteration g = some r ∧
        (r.graph.vdata v).tm iteration = (g.vdata v).tm (iteration - 1) ∧
        (∀ e ∈ r.graph.edges, e.source = v →
          e.data.src iteration = (r.graph.vdata v).lb iteration ∧
          e.data.tme iteration = e.data.tme (iteration - 1))) := by
  have hne : ¬ iteration - 1 = iteration := by omega
  constructor
  · intro n rest hin hitr
    refine ⟨_, update_base_in_eq wl sched pick v iteration g n rest h1 hK hin hitr, ?_, ?_, ?_⟩
    · obtain ⟨⟨n0, hn0, e0⟩, -⟩ := front_tme_min (iteration - 1) (in_edges g v)
        (by rw [hin]; simp)
      exact ⟨n0, hn0, by simpa [setAt] using e0⟩
    · intro n1 hn1
      have := (front_tme_min (iteration - 1) (in_edges g v) (by rw [hin]; simp)).2 n1 hn1
      simpa [setAt] using this
    · intro e he hsrc
      dsimp only at he
      obtain ⟨e0, -, hs, -, hc⟩ := mem_map_out v _ _ e he
      rcases hc with ⟨-, hd⟩ | ⟨hne0, -⟩
      · rw [hd]; simp [setAt]
      · exact absurd (hs ▸ hsrc) hne0
  · intro hin
    refine ⟨_, update_base_leaf_eq wl sched pick v iteration g h1 hK hin, ?_, ?_⟩
    · simp [setAt]
    · intro e he hsrc
      dsimp only at he
      obtain ⟨e0, -, hs, -, hc⟩ := mem_map_out v _ _ e he
      rcases hc with ⟨-, hd⟩ | ⟨hne0, -⟩
      · rw [hd]; simp [setAt, hne]
      · exact absurd (hs ▸ hsrc) hne0

/-! ### Loops over the edges of a vertex, as maps on the edge list -/

theorem edit_in_ends (v : Nat) (f : edge_label → edge_label) (e : Edge) :
    (edit_in v f e).source = e.source ∧ (edit_in v f e).target = e.target := by
  unfold edit_in
  split_ifs <;> exact ⟨rfl, rfl⟩

theorem edit_out_ends (v : Nat) (f : edge_label → edge_label) (e : Edge) :
    (edit_out v f e).source = e.source ∧ (edit_out v f e).target = e.target := by
  unfold edit_out
  split_ifs <;> exact ⟨rfl, rfl⟩

theorem edit_in_data (v : Nat) (f : edge_label → edge_label) (e : Edge) :
    (edit_in v f e).data = if e.target = v then f e.data else e.data := by
  unfold edit_in
  split_ifs <;> rfl

theorem edit_out_data (v : Nat) (f : edge_label → edge_label) (e : Edge) :
    (edit_out v f e).data = if e.source = v then f e.data else e.data := by
  unfold edit_out
  split_ifs <;> rfl

theorem filter_target_map (F : Edge → Edge) (hF : ∀ e, (F e).target = e.target) (v : Nat)
    (es : List Edge) :
    (es.map F).filter (fun e => decide (e.target = v))
      = (es.filter (fun e => decide (e.target = v))).map F := by
  induction es with
  | nil => rfl
  | cons e rest ih =>
    simp only [List.map_cons, List.filter_cons, hF e]
    split_ifs
    · simp [ih]
    · exact ih

/-- The in-edges after a pass that rewrites edge data and keeps the targets. -/
theorem in_edges_map (vd : Nat → node_label) (F : Edge → Edge)
    (hF : ∀ e, (F e).target = e.target) (v : Nat) (es : List Edge) :
    in_edges (Graph.mk vd (es.map F)) v
      = (es.filter (fun e => decide (e.target = v))).map (fun e => (F e).data) := by
  unfold in_edges
  simp only []
  rw [filter_target_map F hF, List.map_map]
  rfl

theorem bump_zero_itr (el : edge_label) :
    (bump_zero el).itr = if el.itr = 0 then 1 else el.itr := by
  unfold bump_zero
  split_ifs with h
  · simp [h]
  · rfl

theorem bump_zero_fields (el : edge_label) :
    (bump_zero el).src = el.src ∧ (bump_zero el).tme = el.tme ∧ (bump_zero el).edg = el.edg := by
  unfold bump_zero
  split_ifs <;> exact ⟨rfl, rfl, rfl⟩

/-- The value of `min_itr` depends on the cursors only. -/
theorem min_itr_of_congr (wl : WLEnv) (l1 l2 : List edge_label)
    (h : l1.map (fun el => el.itr) = l2.map (fun el => el.itr)) :
    min_itr_of wl l1 = min_itr_of wl l2 := by
  have key : ∀ (l : List edge_label) (m : Int),
      l.foldl (fun min_itr el => if el.itr < min_itr then el.itr else min_itr) m
        = (l.map (fun el => el.itr)).foldl (fun min_itr i => if i < min_itr then i else min_itr) m := by
    intro l
    induction l with
    | nil => intro m; rfl
    | cons a rest ih => intro m; simp only [List.foldl_cons, List.map_cons]; exact ih _
  unfold min_itr_of
  rw [key, key, h]

/-- The value of `min_itr` is the cursor of an in-edge, or `K + 2` without in-edges, and
it is at most every cursor. -/
theorem min_itr_of_spec (wl : WLEnv) (l : List edge_label) :
    (∀ el ∈ l, min_itr_of wl l ≤ el.itr) ∧ min_itr_of wl l ≤ (wl.K_HOPS : Int) + 2 ∧
    (min_itr_of wl l = (wl.K_HOPS : Int) + 2 ∨ ∃ el ∈ l, min_itr_of wl l = el.itr) := by
  unfold min_itr_of
  generalize ((wl.K_HOPS : Int) + 2) = m0
  induction l generalizing m0 with
  | nil => simp
  | cons a rest ih =>
    simp only [List.foldl_cons, List.mem_cons, forall_eq_or_imp, exists_eq_or_imp]
    by_cases hlt : a.itr < m0
    · rw [if_pos hlt]
      obtain ⟨h1, h2, h3⟩ := ih a.itr
      refine ⟨⟨h2, h1⟩, by omega, ?_⟩
      rcases h3 with h3 | h3
      · exact Or.inr (Or.inl h3)
      · exact Or.inr (Or.inr h3)
    · rw [if_neg hlt]
      obtain ⟨h1, h2, h3⟩ := ih m0
      refine ⟨⟨by omega, h1⟩, h2, ?_⟩
      rcases h3 with h3 | h3
      · exact Or.inl h3
      · exact Or.inr (Or.inr h3)

/-! ### The loops that copy the labels of a vertex to an out-edge -/

theorem copy_node_spec (wl : WLEnv) (nl : node_label) (el : edge_label) :
    copy_node wl nl el =
      { el with
        src := fun j => if 1 ≤ j ∧ j ≤ wl.K_HOPS then nl.lb j else el.src j
        tme := fun j => if 1 ≤ j ∧ j ≤ wl.K_HOPS then nl.tm j else el.tme j } := by
  unfold copy_node forLoopFrom
  have key : ∀ n : Nat,
      forLoop n (fun k (e : edge_label) =>
          { e with src := setAt e.src (1 + k) (nl.lb (1 + k)),
                   tme := setAt e.tme (1 + k) (nl.tm (1 + k)) }) el
        = { el with
            src := fun j => if 1 ≤ j ∧ j ≤ n then nl.lb j else el.src j
            tme := fun j => if 1 ≤ j ∧ j ≤ n then nl.tm j else el.tme j } := by
    intro n
    induction n with
    | zero =>
      rw [forLoop_zero]
      cases el
      simp only [edge_label.mk.injEq, and_true, true_and]
      constructor <;> (funext j; rw [if_neg (by omega)])
    | succ n ih =>
      rw [forLoop_succ, ih]
      simp only [edge_label.mk.injEq, and_true, true_and]
      constructor
      · funext j
        simp only [setAt]
        by_cases hj : j = 1 + n
        · rw [if_pos hj, if_pos (by omega), hj]
        · rw [if_neg hj]
          by_cases h2 : 1 ≤ j ∧ j ≤ n
          · rw [if_pos h2, if_pos (by omega)]
          · rw [if_neg h2, if_neg (by omega)]
      · funext j
        simp only [setAt]
        by_cases hj : j = 1 + n
        · rw [if_pos hj, if_pos (by omega), hj]
        · rw [if_neg hj]
          by_cases h2 : 1 ≤ j ∧ j ≤ n
          · rw [if_pos h2, if_pos (by omega)]
          · rw [if_neg h2, if_neg (by omega)]
  have := key (wl.K_HOPS + 1 - 1)
  simpa using this

/-- The out-edge sync reads the labels and the timestamps of the vertex only. -/
theorem copy_node_congr (wl : WLEnv) (nl1 nl2 : node_label) (hl : nl1.lb = nl2.lb)
    (ht : nl1.tm = nl2.tm) : copy_node wl nl1 = copy_node wl nl2 := by
  funext el
  rw [copy_node_spec, copy_node_spec, hl, ht]

theorem copy_leaf_fields (wl : WLEnv) (nl : node_label) (el : edge_label) :
    (copy_leaf wl nl el).src
        = (fun j => if 1 ≤ j ∧ j ≤ wl.K_HOPS then nl.lb j else el.src j) ∧
      (copy_leaf wl nl el).new_src = el.new_src ∧ (copy_leaf wl nl el).edg = el.edg := by
  unfold copy_leaf forLoopFrom
  have key : ∀ n : Nat,
      (forLoop n (fun k (e : edge_label) =>
          { e with src := setAt e.src (1 + k) (nl.lb (1 + k)),
                   tme := setAt e.tme (1 + k) (e.tme (1 + k - 1)) }) el).src
        = (fun j => if 1 ≤ j ∧ j ≤ n then nl.lb j else el.src j) ∧
      (forLoop n (fun k (e : edge_label) =>
          { e with src := setAt e.src (1 + k) (nl.lb (1 + k)),
                   tme := setAt e.tme (1 + k) (e.tme (1 + k - 1)) }) el).new_src = el.new_src ∧
      (forLoop n (fun k (e : edge_label) =>
          { e with src := setAt e.src (1 + k) (nl.lb (1 + k)),
                   tme := setAt e.tme (1 + k) (e.tme (1 + k - 1)) }) el).edg = el.edg := by
    intro n
    induction n with
    | zero =>
      rw [forLoop_zero]
      refine ⟨?_, rfl, rfl⟩
      funext j
      rw [if_neg (by omega)]
    | succ n ih =>
      rw [forLoop_succ]
      obtain ⟨h1, h2, h3⟩ := ih
      refine ⟨?_, h2, h3⟩
      simp only [h1]
      funext j
      simp only [setAt]
      by_cases hj : j = 1 + n
      · rw [if_pos hj, if_pos (by omega), hj]
      · rw [if_neg hj]
        by_cases hc : 1 ≤ j ∧ j ≤ n
        · rw [if_pos hc, if_pos (by omega)]
        · rw [if_neg hc, if_neg (by omega)]
  have := key (wl.K_HOPS + 1 - 1)
  simpa using this

/-- The labels of a new streamed leaf. -/
theorem new_leaf_label_spec (wl : WLEnv) (el : edge_label) :
    (new_leaf_label wl el).lb 0 = el.src 0 ∧
    (∀ h, 1 ≤ h → h ≤ wl.K_HOPS →
      (new_leaf_label wl el).lb h = wl.hash (toString ((new_leaf_label wl el).lb (h - 1)))) ∧
    (∀ h, h ≤ wl.K_HOPS → (new_leaf_label wl el).tm h = 0) ∧
    (new_leaf_label wl el).is_leaf = true := by
  unfold new_leaf_label forLoopFrom
  simp only []
  have key : ∀ n : Nat, ∀ nl0 : node_label, nl0.lb 0 = el.src 0 → nl0.tm 0 = 0 →
      (forLoop n (fun k (nl : node_label) =>
          { nl with lb := setAt nl.lb (1 + k) (wl.hash (toString (nl.lb (1 + k - 1)))),
                    tm := setAt nl.tm (1 + k) 0 }) nl0).lb 0 = el.src 0 ∧
      (∀ h, 1 ≤ h → h ≤ n →
        (forLoop n (fun k (nl : node_label) =>
          { nl with lb := setAt nl.lb (1 + k) (wl.hash (toString (nl.lb (1 + k - 1)))),
                    tm := setAt nl.tm (1 + k) 0 }) nl0).lb h
          = wl.hash (toString ((forLoop n (fun k (nl : node_label) =>
          { nl with lb := setAt nl.lb (1 + k) (wl.hash (toString (nl.lb (1 + k - 1)))),
                    tm := setAt nl.tm (1 + k) 0 }) nl0).lb (h - 1)))) ∧
      (∀ h, h ≤ n →
        (forLoop n (fun k (nl : node_label) =>
          { nl with lb := setAt nl.lb (1 + k) (wl.hash (toString (nl.lb (1 + k - 1)))),
                    tm := setAt nl.tm (1 + k) 0 }) nl0).tm h = 0) := by
    intro n nl0 h0 ht0
    induction n with
    | zero =>
      rw [forLoop_zero]
      refine ⟨h0, ?_, ?_⟩
      · intro h h1 h2; omega
      · intro h hh
        have : h = 0 := by omega
        rw [this]; exact ht0
    | succ n ih =>
      rw [forLoop_succ]
      obtain ⟨i1, i2, i3⟩ := ih
      generalize forLoop n (fun k (nl : node_label) =>
          { nl with lb := setAt nl.lb (1 + k) (wl.hash (toString (nl.lb (1 + k - 1)))),
                    tm := setAt nl.tm (1 + k) 0 }) nl0 = s at i1 i2 i3
      simp only [setAt]
      refine ⟨?_, ?_, ?_⟩
      · rw [if_neg (by omega)]; exact i1
      · intro h h1 h2
        by_cases hh : h = 1 + n
        · rw [if_pos hh, if_neg (by omega), hh]
        · rw [if_neg hh, if_neg (by omega)]
          exact i2 h h1 (by omega)
      · intro h hh
        by_cases hc : h = 1 + n
        · rw [if_pos hc]
        · rw [if_neg hc]
          exact i3 h (by omega)
  obtain ⟨k1, k2, k3⟩ := key (wl.K_HOPS + 1 - 1)
    { wl.fresh_nl with lb := setAt wl.fresh_nl.lb 0 (el.src 0), tm := setAt wl.fresh_nl.tm 0 0 }
    (by simp [setAt]) (by simp [setAt])
  simp only [Nat.add_sub_cancel] at k1 k2 k3
  exact ⟨k1, k2, k3, trivial⟩

/-! ### The branches of the streaming callback -/

theorem sync_ends (wl : WLEnv) (nl : node_label) (v : Nat) (e : Edge) :
    (edit_in v bump_zero (edit_out v (copy_node wl nl) e)).source = e.source ∧
    (edit_in v bump_zero (edit_out v (copy_node wl nl) e)).target = e.target := by
  rw [(edit_in_ends _ _ _).1, (edit_in_ends _ _ _).2, (edit_out_ends _ _ _).1,
    (edit_out_ends _ _ _).2]
  exact ⟨rfl, rfl⟩

theorem sync_itr (wl : WLEnv) (nl : node_label) (v : Nat) (e : Edge) :
    (edit_in v bump_zero (edit_out v (copy_node wl nl) e)).data.itr
      = if e.target = v then (bump_zero e.data).itr else e.data.itr := by
  rw [edit_in_data, (edit_out_ends _ _ _).2, edit_out_data]
  by_cases ht : e.target = v
  · rw [if_pos ht, if_pos ht, bump_zero_itr, bump_zero_itr]
    by_cases hs : e.source = v
    · rw [if_pos hs, copy_node_itr]
    · rw [if_neg hs]
  · rw [if_neg ht, if_neg ht]
    by_cases hs : e.source = v
    · rw [if_pos hs, copy_node_itr]
    · rw [if_neg hs]

/-- The value of `min_itr` in the callback is the least cursor of the in-edges once the
cursors 0 have become 1. -/
theorem known_min_itr (wl : WLEnv) (g : Graph) (v : Nat) (nl : node_label) :
    min_itr_of wl (in_edges
      (Graph.mk g.vdata (map_in v bump_zero (map_out v (copy_node wl nl) g.edges))) v)
      = stream_min_itr wl g v := by
  rw [map_out_eq, map_in_eq, List.map_map,
    in_edges_map g.vdata (edit_in v bump_zero ∘ edit_out v (copy_node wl nl))
      (fun e => (sync_ends wl nl v e).2)]
  unfold stream_min_itr in_edges
  apply min_itr_of_congr
  rw [List.map_map, List.map_map, List.map_map]
  apply List.map_congr_left
  intro e he
  have ht : e.target = v := by simpa using (List.mem_filter.mp he).2
  simp only [Function.comp]
  rw [sync_itr, if_pos ht]

theorem update_known_leaf_eq (wl : WLEnv) (sched : Bool) (v : Nat) (g : Graph)
    (hin : in_edges g v = []) (hleaf : (g.vdata v).is_leaf = true) :
    update_known wl sched v g = some
      { graph := Graph.mk g.vdata (map_out v (copy_leaf wl (g.vdata v)) g.edges)
        hist_updates := []
        tasks := [] } := by
  unfold update_known
  rw [hin]
  simp only []
  rw [if_pos hleaf]

theorem known_nl_fields (nl0 : node_label) :
    (if nl0.is_leaf = true then ({ nl0 with is_leaf := false } : node_label) else nl0).lb
        = nl0.lb ∧
    (if nl0.is_leaf = true then ({ nl0 with is_leaf := false } : node_label) else nl0).tm
        = nl0.tm ∧
    (if nl0.is_leaf = true then ({ nl0 with is_leaf := false } : node_label) else nl0).is_leaf
        = false := by
  by_cases h : nl0.is_leaf = true
  · rw [if_pos h]; exact ⟨rfl, rfl, rfl⟩
  · rw [if_neg h]; exact ⟨rfl, rfl, by simpa using h⟩

/-- The saturated return: a known vertex whose in-edges all have the cursor `K + 1`. -/
theorem update_known_sat_eq (wl : WLEnv) (sched : Bool) (v : Nat) (g : Graph)
    (n : edge_label) (rest : List edge_label) (hin : in_edges g v = n :: rest)
    (hm : stream_min_itr wl g v = (wl.K_HOPS : Int) + 1) :
    update_known wl sched v g = some
      { graph := Graph.mk g.vdata
          (map_in v bump_zero (map_out v (copy_node wl (g.vdata v)) g.edges))
        hist_updates := []
        tasks := [] } := by
  unfold update_known
  rw [hin]
  simp only [known_min_itr]
  rw [if_pos (by rw [hm]; constructor <;> omega), if_pos hm]
  rw [copy_node_congr wl _ (g.vdata v) (known_nl_fields _).1 (known_nl_fields _).2.1]

/-- The relabeling branch: a vertex with in-edges whose `min_itr` is in `1 .. K`. -/
theorem update_known_relabel_eq (wl : WLEnv) (sched : Bool) (v : Nat) (g : Graph)
    (n : edge_label) (rest : List edge_label) (hin : in_edges g v = n :: rest)
    (h1 : 1 ≤ stream_min_itr wl g v) (hK : stream_min_itr wl g v ≤ (wl.K_HOPS : Int)) :
    update_known wl sched v g = some
      { graph :=
          { vdata := setAt g.vdata v
              { lb := setAt (g.vdata v).lb (stream_min_itr wl g v).toNat
                  (wl.hash (relabel_string ((g.vdata v).lb (stream_min_itr wl g v - 1).toNat)
                    (decide (stream_min_itr wl g v = 1)) (stream_min_itr wl g v - 1).toNat
                    (sort_by_tme (stream_min_itr wl g v - 1).toNat (in_edges (Graph.mk g.vdata
                      (map_in v bump_zero (map_out v (copy_node wl (g.vdata v)) g.edges))) v))))
                tm := (g.vdata v).tm
                is_leaf := false }
            edges := map_out v (fun el =>
                if el.itr = (wl.K_HOPS : Int) + 1 then
                  { el with
                    src := setAt el.src (stream_min_itr wl g v).toNat
                      (wl.hash (relabel_string
                        ((g.vdata v).lb (stream_min_itr wl g v - 1).toNat)
                        (decide (stream_min_itr wl g v = 1)) (stream_min_itr wl g v - 1).toNat
                        (sort_by_tme (stream_min_itr wl g v - 1).toNat (in_edges (Graph.mk g.vdata
                          (map_in v bump_zero
                            (map_out v (copy_node wl (g.vdata v)) g.edges))) v))))
                    tme := setAt el.tme (stream_min_itr wl g v).toNat
                      (front_tme (stream_min_itr wl g v - 1).toNat
                        (sort_by_tme (stream_min_itr wl g v - 1).toNat (in_edges (Graph.mk g.vdata
                          (map_in v bump_zero
                            (map_out v (copy_node wl (g.vdata v)) g.edges))) v)))
                    itr := stream_min_itr wl g v + 1 }
                else
                  { el with
                    src := setAt el.src (stream_min_itr wl g v).toNat
                      (wl.hash (relabel_string
                        ((g.vdata v).lb (stream_min_itr wl g v - 1).toNat)
                        (decide (stream_min_itr wl g v = 1)) (stream_min_itr wl g v - 1).toNat
                        (sort_by_tme (stream_min_itr wl g v - 1).toNat (in_edges (Graph.mk g.vdata
                          (map_in v bump_zero
                            (map_out v (copy_node wl (g.vdata v)) g.edges))) v))))
                    tme := setAt el.tme (stream_min_itr wl g v).toNat
                      (front_tme (stream_min_itr wl g v - 1).toNat
                        (sort_by_tme (stream_min_itr wl g v - 1).toNat (in_edges (Graph.mk g.vdata
                          (map_in v bump_zero
                            (map_out v (copy_node wl (g.vdata v)) g.edges))) v))) })
              (map_in v (fun el =>
                if el.itr < (wl.K_HOPS : Int) + 1 then { el with itr := el.itr + 1 } else el)
                (map_in v bump_zero (map_out v (copy_node wl (g.vdata v)) g.edges))) }
        hist_updates := publish wl
          (relabel_string ((g.vdata v).lb (stream_min_itr wl g v - 1).toNat)
            (decide (stream_min_itr wl g v = 1)) (stream_min_itr wl g v - 1).toNat
            (sort_by_tme (stream_min_itr wl g v - 1).toNat (in_edges (Graph.mk g.vdata
              (map_in v bump_zero (map_out v (copy_node wl (g.vdata v)) g.edges))) v))) false
        tasks :=
          (if stream_min_itr wl g v < (wl.K_HOPS : Int) ∧ sched then out_targets g v else [])
          ++ (if sched then [v] else []) } := by
  unfold update_known
  rw [hin]
  simp only [known_min_itr]
  rw [if_pos (by constructor <;> omega), if_neg (by omega)]
  rw [copy_node_congr wl _ (g.vdata v) (known_nl_fields _).1 (known_nl_fields _).2.1]
  simp only [(known_nl_fields (g.vdata v)).1, (known_nl_fields (g.vdata v)).2.1,
    (known_nl_fields (g.vdata v)).2.2]
  have hlt : stream_min_itr wl g v < (wl.K_HOPS : Int) + 1 := by omega
  simp only [hlt, true_and]

/-! ### Saturated vertices (C15) -/

theorem update_of_known (wl : WLEnv) (sched : Bool) (pick v iteration : Nat) (g : Graph)
    (hK : wl.K_HOPS < iteration) (hnew : is_new g v = false) :
    update wl sched pick v iteration g = update_known wl sched v g := by
  unfold update
  rw [if_neg (by omega), if_neg (by omega)]
  unfold update_stream
  rw [if_neg (by simp [hnew])]

theorem mem_in_edges (g : Graph) (v : Nat) (e : Edge) (he : e ∈ g.edges) (ht : e.target = v) :
    e.data ∈ in_edges g v := by
  unfold in_edges
  exact List.mem_map.mpr ⟨e, List.mem_filter.mpr ⟨he, by simpa using ht⟩, rfl⟩

theorem stream_min_itr_sat (wl : WLEnv) (g : Graph) (v : Nat) (hin : in_edges g v ≠ [])
    (hsat : ∀ el ∈ in_edges g v, el.itr = (wl.K_HOPS : Int) + 1) :
    stream_min_itr wl g v = (wl.K_HOPS : Int) + 1 := by
  unfold stream_min_itr
  obtain ⟨h1, -, h3⟩ := min_itr_of_spec wl ((in_edges g v).map bump_zero)
  have hall : ∀ el ∈ (in_edges g v).map bump_zero, el.itr = (wl.K_HOPS : Int) + 1 := by
    intro el hel
    obtain ⟨a, ha, rfl⟩ := List.mem_map.mp hel
    rw [bump_zero_itr, hsat a ha, if_neg (by omega)]
  rcases h3 with h3 | ⟨el, hel, h3⟩
  · obtain ⟨a, ha⟩ := List.exists_mem_of_ne_nil _ hin
    have := h1 (bump_zero a) (List.mem_map.mpr ⟨a, ha, rfl⟩)
    rw [hall _ (List.mem_map.mpr ⟨a, ha, rfl⟩)] at this
    omega
  · rw [h3, hall el hel]

/-- C15. Saturation. In a streaming iteration, a callback on a vertex that is not new, has
an in-edge and whose in-edges all have the cursor `K + 1` completes, issues no histogram
update, schedules no task, leaves the data of every vertex (labels, timestamps and leaf
flag) unchanged and leaves the cursor of every in-edge of the vertex unchanged. -/
theorem saturated_vertex_idle (wl : WLEnv) (sched : Bool) (pick v iteration : Nat) (g : Graph)
    (hK : wl.K_HOPS < iteration) (hnew : is_new g v = false) (hin : in_edges g v ≠ [])
    (hsat : ∀ el ∈ in_edges g v, el.itr = (wl.K_HOPS : Int) + 1) :
    ∃ r, update wl sched pick v iteration g = some r ∧
      r.hist_updates = [] ∧ r.tasks = [] ∧ r.graph.vdata = g.vdata ∧
      (in_edges r.graph v).map (fun el => el.itr) = (in_edges g v).map (fun el => el.itr) ∧
      r.graph.edges.map (fun e => (e.source, e.target, e.data.itr))
        = g.edges.map (fun e => (e.source, e.target, e.data.itr)) := by
  obtain ⟨n, rest, hcons⟩ := List.exists_cons_of_ne_nil hin
  have hm := stream_min_itr_sat wl g v hin hsat
  refine ⟨_, (update_of_known wl sched pick v iteration g hK hnew).trans
    (update_known_sat_eq wl sched v g n rest hcons hm), rfl, rfl, rfl, ?_, ?_⟩
  · dsimp only
    rw [map_out_eq, map_in_eq, List.map_map,
      in_edges_map g.vdata (edit_in v bump_zero ∘ edit_out v (copy_node wl (g.vdata v)))
        (fun e => (sync_ends wl _ v e).2)]
    unfold in_edges
    rw [List.map_map, List.map_map]
    apply List.map_congr_left
    intro e he
    obtain ⟨he1, he2⟩ := List.mem_filter.mp he
    have ht : e.target = v := by simpa using he2
    simp only [Function.comp]
    rw [sync_itr, if_pos ht, bump_zero_itr, if_neg]
    rw [hsat e.data (mem_in_edges g v e he1 ht)]
    omega
  · dsimp only
    rw [map_out_eq, map_in_eq, List.map_map, List.map_map]
    apply List.map_congr_left
    intro e he
    simp only [Function.comp]
    rw [(sync_ends wl _ v e).1, (sync_ends wl _ v e).2, sync_itr]
    by_cases ht : e.target = v
    · rw [if_pos ht, bump_zero_itr, if_neg]
      rw [hsat e.data (mem_in_edges g v e he ht)]
      omega
    · rw [if_neg ht]

/-! ### New streamed leaves (C17) -/

theorem new_leaf_has_outedge (g : Graph) (v : Nat) (hnew : is_new g v = true)
    (hin : in_edges g v = []) : out_edges g v ≠ [] := by
  intro hout
  unfold is_new at hnew
  rw [hin, hout] at hnew
  simp at hnew

theorem update_new_leaf_eq (wl : WLEnv) (sched : Bool) (pick v iteration : Nat) (g : Graph)
    (el : edge_label) (hK : wl.K_HOPS < iteration) (hnew : is_new g v = true)
    (hin : in_edges g v = []) (ho : random_outedge pick (out_edges g v) = some el) :
    update wl sched pick v iteration g = some
      { graph :=
          { vdata := setAt g.vdata v (new_leaf_label wl el)
            edges := map_out v
              (fun e => { copy_leaf wl (new_leaf_label wl el) e with new_src := false })
              g.edges }
        hist_updates :=
          (List.range (wl.K_HOPS + 1)).map (fun i => ((new_leaf_label wl el).lb i, false))
        tasks := [] } := by
  unfold update
  rw [if_neg (by omega), if_neg (by omega)]
  unfold update_stream
  rw [if_pos hnew, hin]
  simp only [ho]

/-- C17. New streamed leaf. In a streaming iteration the callback on a new vertex without
in-edges completes; after it `lb[0]` is `src[0]` of the chosen out-edge,
`lb[h] = hash(str(lb[h-1]))` for `h` in `1 .. K`, `tm[h] = 0` for `h` in `0 .. K` and
`is_leaf` holds; the histogram receives exactly the streaming updates of `lb[0], ..., lb[K]`
in that order; every out-edge has `src[j] = lb[j]` for `j` in `1 .. K` and `new_src` cleared;
no task is scheduled. With `K = 1` and a chosen out-edge of source type 3 the labels are
`lb[0] = 3` and `lb[1] = hash("3")`. -/
theorem new_streamed_leaf (wl : WLEnv) (sched : Bool) (pick v iteration : Nat) (g : Graph)
    (hK : wl.K_HOPS < iteration) (hnew : is_new g v = true) (hin : in_edges g v = []) :
    ∃ r el, el ∈ out_edges g v ∧ random_outedge pick (out_edges g v) = some el ∧
      update wl sched pick v iteration g = some r ∧
      (r.graph.vdata v).lb 0 = el.src 0 ∧
      (∀ h, 1 ≤ h → h ≤ wl.K_HOPS →
        (r.graph.vdata v).lb h = wl.hash (toString ((r.graph.vdata v).lb (h - 1)))) ∧
      (∀ h, h ≤ wl.K_HOPS → (r.graph.vdata v).tm h = 0) ∧
      (r.graph.vdata v).is_leaf = true ∧
      r.hist_updates
        = (List.range (wl.K_HOPS + 1)).map (fun h => ((r.graph.vdata v).lb h, false)) ∧
      r.tasks = [] ∧
      (∀ e ∈ r.graph.edges, e.source = v →
        e.data.new_src = false ∧
        ∀ j, 1 ≤ j → j ≤ wl.K_HOPS → e.data.src j = (r.graph.vdata v).lb j) ∧
      r.graph.edges.map (fun e => (e.source, e.target))
        = g.edges.map (fun e => (e.source, e.target)) ∧
      (wl.K_HOPS = 1 → el.src 0 = 3 →
        (r.graph.vdata v).lb 0 = 3 ∧ (r.graph.vdata v).lb 1 = wl.hash "3") := by
  obtain ⟨el, ho, hmem⟩ := random_outedge_some pick (out_edges g v)
    (new_leaf_has_outedge g v hnew hin)
  obtain ⟨s0, s1, s2, s3⟩ := new_leaf_label_spec wl el
  have hv : setAt g.vdata v (new_leaf_label wl el) v = new_leaf_label wl el := by
    simp [setAt]
  refine ⟨_, el, hmem, ho, update_new_leaf_eq wl sched pick v iteration g el hK hnew hin ho,
    ?_, ?_, ?_, ?_, ?_, rfl, ?_, ?_, ?_⟩
  · dsimp only; rw [hv]; exact s0
  · dsimp only; rw [hv]; exact s1
  · dsimp only; rw [hv]; exact s2
  · dsimp only; rw [hv]; exact s3
  · dsimp only; rw [hv]
  · dsimp only
    rw [hv]
    intro e he hs
    obtain ⟨e0, he0, hs0, -, hc⟩ := mem_map_out v _ _ e he
    rcases hc with ⟨-, hd⟩ | ⟨hne, -⟩
    · rw [hd]
      refine ⟨rfl, ?_⟩
      intro j h1 h2
      dsimp only
      rw [(copy_leaf_fields wl _ e0.data).1]
      simp only []
      rw [if_pos ⟨h1, h2⟩]
    · exact absurd (hs0 ▸ hs) hne
  · dsimp only
    rw [map_out_eq, List.map_map]
    apply List.map_congr_left
    intro e _
    simp only [Function.comp]
    rw [(edit_out_ends _ _ e).1, (edit_out_ends _ _ e).2]
  · intro hK1 h3
    dsimp only
    rw [hv]
    refine ⟨by rw [s0, h3], ?_⟩
    rw [s1 1 (le_refl _) (by omega)]
    simp only [Nat.sub_self]
    rw [s0, h3]
    rfl

/-! ### New streamed vertices with in-edges -/

theorem init_labels (wl : WLEnv) (nl : node_label) :
    (forLoopFrom 1 (wl.K_HOPS + 1)
      (fun i (n : node_label) => { n with lb := setAt n.lb i 0 }) nl).lb 0 = nl.lb 0 := by
  unfold forLoopFrom
  apply forLoop_inv (fun s : node_label => s.lb 0 = nl.lb 0)
  · intro i s hs
    simp only [setAt]
    rw [if_neg (by omega)]
    exact hs
  · rfl

theorem update_new_inner_eq (wl : WLEnv) (sched : Bool) (pick v iteration : Nat) (g : Graph)
    (edge : edge_label) (rest : List edge_label) (hK : wl.K_HOPS < iteration)
    (hnew : is_new g v = true) (hin : in_edges g v = edge :: rest)
    (hzero : ∀ el ∈ in_edges g v, el.itr = 0) :
    update wl sched pick v iteration g
      = (update_known wl sched v (init_new_vertex wl g v edge)).map
          (fun r => { r with hist_updates := (edge.dst, false) :: r.hist_updates }) := by
  have hall : ((in_edges g v).all fun el => decide (el.itr = 0)) = true := by
    rw [List.all_eq_true]
    intro el hel
    simpa using hzero el hel
  unfold update
  rw [if_neg (by omega), if_neg (by omega)]
  unfold update_stream
  rw [if_pos hnew]
  rw [hin] at hall ⊢
  simp only []
  rw [if_pos hall]
  unfold init_new_vertex
  rw [init_labels]
  cases update_known wl sched v _ with
  | none => rfl
  | some r => simp [setAt]

theorem init_edges (wl : WLEnv) (g : Graph) (v : Nat) (edge : edge_label) :
    (init_new_vertex wl g v edge).edges
      = g.edges.map (edit_out v (fun el => { el with new_src := false })
          ∘ edit_in v (fun el => { el with itr := el.itr + 1, new_dst := false })) := by
  unfold init_new_vertex
  simp only []
  rw [map_out_eq, map_in_eq, List.map_map]

theorem init_edge_spec (v : Nat) (e : Edge) :
    ((edit_out v (fun el => { el with new_src := false })
        ∘ edit_in v (fun el => { el with itr := el.itr + 1, new_dst := false })) e).source
      = e.source ∧
    ((edit_out v (fun el => { el with new_src := false })
        ∘ edit_in v (fun el => { el with itr := el.itr + 1, new_dst := false })) e).target
      = e.target ∧
    ((edit_out v (fun el => { el with new_src := false })
        ∘ edit_in v (fun el => { el with itr := el.itr + 1, new_dst := false })) e).data.src
      = e.data.src ∧
    ((edit_out v (fun el => { el with new_src := false })
        ∘ edit_in v (fun el => { el with itr := el.itr + 1, new_dst := false })) e).data.tme
      = e.data.tme ∧
    ((edit_out v (fun el => { el with new_src := false })
        ∘ edit_in v (fun el => { el with itr := el.itr + 1, new_dst := false })) e).data.edg
      = e.data.edg ∧
    ((edit_out v (fun el => { el with new_src := false })
        ∘ edit_in v (fun el => { el with itr := el.itr + 1, new_dst := false })) e).data.itr
      = if e.target = v then e.data.itr + 1 else e.data.itr := by
  simp only [Function.comp]
  unfold edit_out edit_in
  by_cases ht : e.target = v <;> by_cases hs : e.source = v <;> simp [ht, hs]

theorem min_itr_of_const (wl : WLEnv) (l : List edge_label) (c : Int) (hl : l ≠ [])
    (hc : ∀ el ∈ l, el.itr = c) (hle : c ≤ (wl.K_HOPS : Int) + 2) : min_itr_of wl l = c := by
  obtain ⟨h1, -, h3⟩ := min_itr_of_spec wl l
  rcases h3 with h3 | ⟨el, hel, h3⟩
  · obtain ⟨a, ha⟩ := List.exists_mem_of_ne_nil _ hl
    have := h1 a ha
    rw [hc a ha] at this
    omega
  · rw [h3, hc el hel]

/-- A streaming callback on a vertex with in-edges is the callback of a known vertex on a
graph `h` with the same edges up to cursors and freshness flags, preceded for a new vertex
by the streaming update of `lb[0]`. -/
theorem stream_inner_form (wl : WLEnv) (sched : Bool) (pick v iteration : Nat) (g : Graph)
    (hK : wl.K_HOPS < iteration) (hin : in_edges g v ≠ [])
    (hzero : is_new g v = true → ∀ el ∈ in_edges g v, el.itr = 0) :
    ∃ (h : Graph) (G : Edge → Edge) (pre : List (Nat × Bool)),
      update wl sched pick v iteration g
        = (update_known wl sched v h).map
            (fun r => { r with hist_updates := pre ++ r.hist_updates }) ∧
      h.edges = g.edges.map G ∧
      (∀ e, (G e).source = e.source ∧ (G e).target = e.target ∧
        (G e).data.src = e.data.src ∧ (G e).data.tme = e.data.tme ∧
        (G e).data.edg = e.data.edg ∧ e.data.itr ≤ (G e).data.itr ∧
        (e.target ≠ v → (G e).data.itr = e.data.itr)) ∧
      stream_min_itr wl h v = stream_min_itr wl g v ∧
      in_edges h v ≠ [] ∧
      (∀ w, w ≠ v → h.vdata w = g.vdata w) ∧
      pre = (if is_new g v = true then [((h.vdata v).lb 0, false)] else []) ∧
      (is_new g v = false → h.vdata v = g.vdata v) ∧
      (is_new g v = true → stream_min_itr wl g v = 1 ∧
        ∃ edge rest, in_edges g v = edge :: rest ∧ (h.vdata v).lb 0 = edge.dst) := by
  by_cases hnew : is_new g v = true
  · obtain ⟨edge, rest, hcons⟩ := List.exists_cons_of_ne_nil hin
    have hz := hzero hnew
    have hlb : ((init_new_vertex wl g v edge).vdata v).lb 0 = edge.dst := by
      unfold init_new_vertex
      simp only [setAt, if_true]
      rw [init_labels]
      simp [setAt]
    have hin' : in_edges (init_new_vertex wl g v edge) v
        = (g.edges.filter (fun e => decide (e.target = v))).map
            (fun e => ((edit_out v (fun el => { el with new_src := false })
              ∘ edit_in v (fun el => { el with itr := el.itr + 1, new_dst := false })) e).data) := by
      have := in_edges_map (init_new_vertex wl g v edge).vdata
        (edit_out v (fun el => { el with new_src := false })
          ∘ edit_in v (fun el => { el with itr := el.itr + 1, new_dst := false }))
        (fun e => (init_edge_spec v e).2.1) v g.edges
      rw [← init_edges wl g v edge] at this
      exact this
    have hfne : g.edges.filter (fun e => decide (e.target = v)) ≠ [] := by
      intro hf
      apply hin
      unfold in_edges
      rw [hf]
      rfl
    have hm1 : stream_min_itr wl g v = 1 := by
      unfold stream_min_itr
      apply min_itr_of_const
      · simpa using hin
      · intro el hel
        obtain ⟨a, ha, rfl⟩ := List.mem_map.mp hel
        rw [bump_zero_itr, if_pos (hz a ha)]
      · omega
    have hm1' : stream_min_itr wl (init_new_vertex wl g v edge) v = 1 := by
      unfold stream_min_itr
      apply min_itr_of_const
      · rw [hin']
        simpa using hfne
      · intro el hel
        obtain ⟨a, ha, rfl⟩ := List.mem_map.mp hel
        rw [hin'] at ha
        obtain ⟨e, he, rfl⟩ := List.mem_map.mp ha
        obtain ⟨he1, he2⟩ := List.mem_filter.mp he
        have ht : e.target = v := by simpa using he2
        have h0 := hz e.data (mem_in_edges g v e he1 ht)
        rw [bump_zero_itr, (init_edge_spec v e).2.2.2.2.2, if_pos ht, h0]
        simp
      · omega
    refine ⟨init_new_vertex wl g v edge, _, [(edge.dst, false)], ?_, init_edges wl g v edge,
      ?_, ?_, ?_, ?_, ?_, ?_, ?_⟩
    · exact update_new_inner_eq wl sched pick v iteration g edge rest hK hnew hcons hz
    · intro e
      obtain ⟨a1, a2, a3, a4, a5, a6⟩ := init_edge_spec v e
      refine ⟨a1, a2, a3, a4, a5, ?_, ?_⟩
      · rw [a6]; split_ifs <;> omega
      · intro hne; rw [a6, if_neg hne]
    · rw [hm1, hm1']
    · rw [hin']
      simpa using hfne
    · intro w hw
      unfold init_new_vertex
      simp [setAt, hw]
    · rw [if_pos hnew, hlb]
    · intro hc; rw [hnew] at hc; exact absurd hc (by simp)
    · intro _
      exact ⟨hm1, edge, rest, hcons, hlb⟩
  · have hnf : is_new g v = false := by simpa using hnew
    refine ⟨g, id, [], ?_, by simp, ?_, rfl, hin, fun _ _ => rfl, ?_, fun _ => rfl, ?_⟩
    · rw [update_of_known wl sched pick v iteration g hK hnf]
      cases update_known wl sched v g <;> rfl
    · intro e
      exact ⟨rfl, rfl, rfl, rfl, rfl, le_refl _, fun _ => rfl⟩
    · rw [if_neg hnew]
    · intro hc; exact absurd hc hnew

/-! ### Scheduling after a streaming relabeling (C18) -/

theorem in_edges_of_edges (h g : Graph) (F : Edge → Edge) (hE : h.edges = g.edges.map F)
    (ht : ∀ e, (F e).target = e.target) (v : Nat) :
    in_edges h v
      = (g.edges.filter (fun e => decide (e.target = v))).map (fun e => (F e).data) := by
  have := in_edges_map h.vdata F ht v g.edges
  rw [← hE] at this
  exact this

theorem copy_node_edg (wl : WLEnv) (nl : node_label) (el : edge_label) :
    (copy_node wl nl el).edg = el.edg := by
  rw [copy_node_spec]

/-- The element of `neighborhood` that the callback collects for the in-edge `e`, the
out-edges having been synchronised with the data `nl` of the vertex. -/
theorem sync_data (wl : WLEnv) (nl : node_label) (v : Nat) (e : Edge) (ht : e.target = v) :
    (edit_in v bump_zero (edit_out v (copy_node wl nl) e)).data.edg = e.data.edg ∧
    (edit_in v bump_zero (edit_out v (copy_node wl nl) e)).data.src 0 = e.data.src 0 ∧
    (edit_in v bump_zero (edit_out v (copy_node wl nl) e)).data.tme 0 = e.data.tme 0 ∧
    (e.source ≠ v →
      (edit_in v bump_zero (edit_out v (copy_node wl nl) e)).data.src = e.data.src ∧
      (edit_in v bump_zero (edit_out v (copy_node wl nl) e)).data.tme = e.data.tme) ∧
    (e.source = v → ∀ j, 1 ≤ j → j ≤ wl.K_HOPS →
      (edit_in v bump_zero (edit_out v (copy_node wl nl) e)).data.src j = nl.lb j ∧
      (edit_in v bump_zero (edit_out v (copy_node wl nl) e)).data.tme j = nl.tm j) := by
  rw [edit_in_data, (edit_out_ends _ _ _).2, if_pos ht, edit_out_data]
  obtain ⟨b1, b2, b3⟩ := bump_zero_fields
    (if e.source = v then copy_node wl nl e.data else e.data)
  rw [b1, b2, b3]
  by_cases hs : e.source = v
  · rw [if_pos hs, copy_node_spec]
    refine ⟨rfl, ?_, ?_, fun hne => absurd hs hne, ?_⟩
    · simp
    · simp
    · intro _ j h1 h2
      simp [h1, h2]
  · rw [if_neg hs]
    exact ⟨rfl, rfl, rfl, fun _ => ⟨rfl, rfl⟩, fun hc => absurd hc hs⟩

theorem toNat_pred (m : Int) (h1 : 1 ≤ m) :
    (m - 1).toNat = m.toNat - 1 ∧ (m = 1 ↔ m.toNat = 1) ∧ 1 ≤ m.toNat ∧ (m.toNat : Int) = m := by
  omega

/-- The streaming relabeling of a vertex with in-edges whose `min_itr` is `m` in `1 .. K`:
the callback completes, the new `lb[m]` is the hash of the string of the specification over
the sorted neighbourhood, and the histogram receives the labels as streaming updates. -/
theorem stream_relabel_core (wl : WLEnv) (sched : Bool) (pick v iteration : Nat) (g : Graph)
    (hK : wl.K_HOPS < iteration) (hin : in_edges g v ≠ [])
    (hzero : is_new g v = true → ∀ el ∈ in_edges g v, el.itr = 0)
    (h1 : 1 ≤ stream_min_itr wl g v) (hm : stream_min_itr wl g v ≤ (wl.K_HOPS : Int)) :
    ∃ (r : Effects) (N : Edge → edge_label),
      update wl sched pick v iteration g = some r ∧
      (∀ e, e.target = v →
        (N e).edg = e.data.edg ∧ (N e).src 0 = e.data.src 0 ∧ (N e).tme 0 = e.data.tme 0 ∧
        (e.source ≠ v → (N e).src = e.data.src ∧ (N e).tme = e.data.tme) ∧
        (e.source = v → is_new g v = false → ∀ j, 1 ≤ j → j ≤ wl.K_HOPS →
          (N e).src j = (g.vdata v).lb j ∧ (N e).tme j = (g.vdata v).tm j)) ∧
      (r.graph.vdata v).lb (stream_min_itr wl g v).toNat
        = wl.hash (spec_relabel_string
            ((r.graph.vdata v).lb ((stream_min_itr wl g v).toNat - 1))
            (stream_min_itr wl g v).toNat
            (sort_by_tme ((stream_min_itr wl g v).toNat - 1)
              ((g.edges.filter (fun e => decide (e.target = v))).map N))) ∧
      (is_new g v = false → ∀ j, j ≠ (stream_min_itr wl g v).toNat →
        (r.graph.vdata v).lb j = (g.vdata v).lb j) ∧
      (is_new g v = true → stream_min_itr wl g v = 1 ∧
        ∃ edge rest, in_edges g v = edge :: rest ∧ (r.graph.vdata v).lb 0 = edge.dst) ∧
      r.hist_updates
        = (if is_new g v = true then [((r.graph.vdata v).lb 0, false)] else [])
          ++ publish wl (spec_relabel_string
            ((r.graph.vdata v).lb ((stream_min_itr wl g v).toNat - 1))
            (stream_min_itr wl g v).toNat
            (sort_by_tme ((stream_min_itr wl g v).toNat - 1)
              ((g.edges.filter (fun e => decide (e.target = v))).map N))) false := by
  obtain ⟨h, G, pre, heq, hE, hG, hmin, hinh, -, hpre, hkn, hnw⟩ :=
    stream_inner_form wl sched pick v iteration g hK hin hzero
  obtain ⟨n, rest, hcons⟩ := List.exists_cons_of_ne_nil hinh
  have hrel := update_known_relabel_eq wl sched v h n rest hcons
    (by rw [hmin]; exact h1) (by rw [hmin]; exact hm)
  rw [hrel, Option.map_some'] at heq
  obtain ⟨t1, t2, t3, t4⟩ := toNat_pred (stream_min_itr wl g v) h1
  have hnb : in_edges (Graph.mk h.vdata
      (map_in v bump_zero (map_out v (copy_node wl (h.vdata v)) h.edges))) v
      = (g.edges.filter (fun e => decide (e.target = v))).map
          (fun e => (edit_in v bump_zero (edit_out v (copy_node wl (h.vdata v)) (G e))).data) := by
    rw [hE, map_out_eq, map_in_eq, List.map_map, List.map_map,
      in_edges_map h.vdata
        ((edit_in v bump_zero ∘ edit_out v (copy_node wl (h.vdata v))) ∘ G)
        (fun e => by
          simp only [Function.comp]
          rw [(sync_ends wl _ v (G e)).2, (hG e).2.1])]
    rfl
  rw [hnb, hmin, t1] at heq
  have hdec : decide (stream_min_itr wl g v = 1)
      = decide ((stream_min_itr wl g v).toNat = 1) := by
    rw [decide_eq_decide]; exact t2
  rw [hdec] at heq
  simp only [relabel_string_spec] at heq
  have hne : (stream_min_itr wl g v).toNat - 1 ≠ (stream_min_itr wl g v).toNat := by omega
  have h0 : (0 : Nat) ≠ (stream_min_itr wl g v).toNat := by omega
  refine ⟨_,
    fun e => (edit_in v bump_zero (edit_out v (copy_node wl (h.vdata v)) (G e))).data,
    heq, ?_, ?_, ?_, ?_, ?_⟩
  · intro e ht
    obtain ⟨g1, g2, g3, g4, g5, -, -⟩ := hG e
    have ht' : (G e).target = v := by rw [g2]; exact ht
    obtain ⟨s1, s2, s3, s4, s5⟩ := sync_data wl (h.vdata v) v (G e) ht'
    refine ⟨by rw [s1, g5], by rw [s2, g3], by rw [s3, g4], ?_, ?_⟩
    · intro hs
      obtain ⟨u1, u2⟩ := s4 (by rw [g1]; exact hs)
      exact ⟨by rw [u1, g3], by rw [u2, g4]⟩
    · intro hs hnf j hj1 hj2
      obtain ⟨u1, u2⟩ := s5 (by rw [g1]; exact hs) j hj1 hj2
      exact ⟨u1.trans (by rw [hkn hnf]), u2.trans (by rw [hkn hnf])⟩
  · dsimp only
    simp only [setAt, if_true, if_neg hne]
  · intro hnf j hj
    dsimp only
    simp only [setAt, if_true, if_neg hj]
    rw [hkn hnf]
  · intro hn
    obtain ⟨m1, edge, rest1, hc1, hlb⟩ := hnw hn
    refine ⟨m1, edge, rest1, hc1, ?_⟩
    dsimp only
    simp only [setAt, if_true, if_neg h0]
    exact hlb
  · dsimp only
    simp only [setAt, if_true, if_neg hne, if_neg h0]
    rw [hpre]

/-- C16. Streaming relabeling string. A streaming callback on a vertex with in-edges whose
least in-edge cursor (the cursors 0 counted as 1) is `m` with `1 <= m <= K` completes (for a
new vertex the in-edges must have the cursor 0) and sets `lb[m] = hash(s)`, where `s` is
`str(lb[m-1])` followed, for every element `n` of the collected neighbourhood in ascending
order of `n.tme[m-1]`, by `" " + str(n.edg)` only when `m = 1` and then
`" " + str(n.src[m-1])`. The neighbourhood has one element for every in-edge, saturated ones
included, with the type, the labels and the timestamps of that edge (for a self-loop of a
known vertex the generations `1 .. K` are those of the vertex itself, because the out-edges
are synchronised first). Without `CHUNKIFY` exactly one streaming update is issued for
`lb[m]`, after the update of `lb[0]` of a new vertex. A vertex with `lb[0] = 2`, an in-edge
of type 7 from a source labelled 1 and a later in-edge of type 9 from a source labelled 3
gets `lb[1] = hash("2 7 1 9 3")`. -/
theorem streaming_relabel_string (wl : WLEnv) (sched : Bool) (pick v iteration : Nat)
    (g : Graph) (hK : wl.K_HOPS < iteration) (hin : in_edges g v ≠ [])
    (hzero : is_new g v = true → ∀ el ∈ in_edges g v, el.itr = 0)
    (h1 : 1 ≤ stream_min_itr wl g v) (hm : stream_min_itr wl g v ≤ (wl.K_HOPS : Int)) :
    ∃ (r : Effects) (nb sorted : List edge_label),
      update wl sched pick v iteration g = some r ∧
      List.Forall₂ (fun e n =>
          n.edg = e.data.edg ∧ n.src 0 = e.data.src 0 ∧ n.tme 0 = e.data.tme 0 ∧
          (e.source ≠ v → n.src = e.data.src ∧ n.tme = e.data.tme) ∧
          (e.source = v → is_new g v = false → ∀ j, 1 ≤ j → j ≤ wl.K_HOPS →
            n.src j = (g.vdata v).lb j ∧ n.tme j = (g.vdata v).tm j))
        (g.edges.filter (fun e => decide (e.target = v))) nb ∧
      sorted.Perm nb ∧
      sorted_by_tme ((stream_min_itr wl g v).toNat - 1) sorted ∧
      (r.graph.vdata v).lb (stream_min_itr wl g v).toNat
        = wl.hash (spec_relabel_string
            ((r.graph.vdata v).lb ((stream_min_itr wl g v).toNat - 1))
            (stream_min_itr wl g v).toNat sorted) ∧
      (is_new g v = false →
        (r.graph.vdata v).lb ((stream_min_itr wl g v).toNat - 1)
          = (g.vdata v).lb ((stream_min_itr wl g v).toNat - 1)) ∧
      (wl.CHUNKIFY = false →
        r.hist_updates
          = (if is_new g v = true then [((r.graph.vdata v).lb 0, false)] else [])
            ++ [((r.graph.vdata v).lb (stream_min_itr wl g v).toNat, false)]) ∧
      (∀ n1 n2, in_edges g v = [n1, n2] → stream_min_itr wl g v = 1 →
        n1.tme 0 < n2.tme 0 → n1.edg = 7 → n1.src 0 = 1 → n2.edg = 9 → n2.src 0 = 3 →
        (r.graph.vdata v).lb 0 = 2 → (r.graph.vdata v).lb 1 = wl.hash "2 7 1 9 3") := by
  obtain ⟨r, N, hupd, hN, hlb, hold, -, hhist⟩ :=
    stream_relabel_core wl sched pick v iteration g hK hin hzero h1 hm
  obtain ⟨-, -, t3, -⟩ := toNat_pred (stream_min_itr wl g v) h1
  have hfl : ∀ e ∈ g.edges.filter (fun e => decide (e.target = v)), e.target = v := by
    intro e he
    simpa using (List.mem_filter.mp he).2
  refine ⟨r, (g.edges.filter (fun e => decide (e.target = v))).map N,
    sort_by_tme ((stream_min_itr wl g v).toNat - 1)
      ((g.edges.filter (fun e => decide (e.target = v))).map N),
    hupd, ?_, sort_by_tme_perm _ _, sort_by_tme_sorted _ _, hlb, ?_, ?_, ?_⟩
  · rw [List.forall₂_map_right_iff, List.forall₂_same]
    intro e he
    exact hN e (hfl e he)
  · intro hnf
    exact hold hnf _ (by omega)
  · intro hc
    rw [hhist, hlb]
    simp [publish, hc]
  · intro n1 n2 h2 hm1 hlt e7 s1 e9 s3 l2
    rw [hm1] at hlb
    simp only [Int.toNat_one, Nat.sub_self] at hlb
    rw [hlb, l2]
    unfold in_edges at h2
    generalize g.edges.filter (fun e => decide (e.target = v)) = fl at h2 hfl
    rcases fl with _ | ⟨e1, _ | ⟨e2, _ | ⟨e3, t⟩⟩⟩
    · simp at h2
    · simp at h2
    · simp only [List.map_cons, List.map_nil, List.cons.injEq, and_true] at h2
      obtain ⟨d1, d2⟩ := h2
      obtain ⟨a1, a2, a3, -, -⟩ := hN e1 (hfl e1 (by simp))
      obtain ⟨b1, b2, b3, -, -⟩ := hN e2 (hfl e2 (by simp))
      have hle : (N e1).tme 0 ≤ (N e2).tme 0 := by
        rw [a3, b3, d1, d2]; exact le_of_lt hlt
      simp only [List.map_cons, List.map_nil, sort_by_tme, List.insertionSort,
        List.orderedInsert, hle, if_true, spec_relabel_string, a1, a2, b1, b2, d1, d2,
        e7, s1, e9, s3]
      rfl
    · simp at h2

/-! ### The edges after a callback -/

theorem update_known_range (wl : WLEnv) (sched : Bool) (v : Nat) (g : Graph) (r : Effects)
    (n : edge_label) (rest : List edge_label) (hin : in_edges g v = n :: rest)
    (h : update_known wl sched v g = some r) :
    1 ≤ stream_min_itr wl g v ∧ stream_min_itr wl g v ≤ (wl.K_HOPS : Int) + 1 := by
  unfold update_known at h
  rw [hin] at h
  simp only [known_min_itr] at h
  by_cases hassert : 0 < stream_min_itr wl g v ∧ stream_min_itr wl g v < (wl.K_HOPS : Int) + 2
  · constructor <;> omega
  · rw [if_neg hassert] at h
    simp at h

theorem update_known_leaf_flag (wl : WLEnv) (sched : Bool) (v : Nat) (g : Graph) (r : Effects)
    (hin : in_edges g v = []) (h : update_known wl sched v g = some r) :
    (g.vdata v).is_leaf = true := by
  unfold update_known at h
  rw [hin] at h
  simp only [] at h
  by_cases hl : (g.vdata v).is_leaf = true
  · exact hl
  · rw [if_neg hl] at h
    simp at h

/-- The edges after the streaming callback of a known vertex: end points are kept, and a
cursor decreases only on an out-edge of a vertex relabeled at generation `m = min_itr`,
where it becomes `m + 1`. -/
theorem update_known_edges (wl : WLEnv) (sched : Bool) (v : Nat) (g : Graph) (r : Effects)
    (h : update_known wl sched v g = some r) :
    ∃ F : Edge → Edge, r.graph.edges = g.edges.map F ∧
      ∀ e, (F e).source = e.source ∧ (F e).target = e.target ∧
        (e.data.itr ≤ (F e).data.itr ∨
          (e.source = v ∧ in_edges g v ≠ [] ∧ 1 ≤ stream_min_itr wl g v ∧
            stream_min_itr wl g v ≤ (wl.K_HOPS : Int) ∧
            (F e).data.itr = stream_min_itr wl g v + 1 ∧
            (e.target ≠ v → e.data.itr = (wl.K_HOPS : Int) + 1))) := by
  cases hin : in_edges g v with
  | nil =>
    have hl := update_known_leaf_flag wl sched v g r hin h
    rw [update_known_leaf_eq wl sched v g hin hl] at h
    simp only [Option.some.injEq] at h
    refine ⟨edit_out v (copy_leaf wl (g.vdata v)), by rw [← h]; rfl, ?_⟩
    intro e
    refine ⟨(edit_out_ends _ _ e).1, (edit_out_ends _ _ e).2, Or.inl ?_⟩
    rw [edit_out_data]
    split_ifs
    · rw [copy_leaf_itr]
    · exact le_refl _
  | cons n rest =>
    obtain ⟨r1, r2⟩ := update_known_range wl sched v g r n rest hin h
    by_cases hsat : stream_min_itr wl g v = (wl.K_HOPS : Int) + 1
    · rw [update_known_sat_eq wl sched v g n rest hin hsat] at h
      simp only [Option.some.injEq] at h
      refine ⟨edit_in v bump_zero ∘ edit_out v (copy_node wl (g.vdata v)), ?_, ?_⟩
      · rw [← h]
        dsimp only
        rw [map_out_eq, map_in_eq, List.map_map]
      · intro e
        simp only [Function.comp]
        refine ⟨(sync_ends wl _ v e).1, (sync_ends wl _ v e).2, Or.inl ?_⟩
        rw [sync_itr, bump_zero_itr]
        split_ifs <;> omega
    · have hK : stream_min_itr wl g v ≤ (wl.K_HOPS : Int) := by omega
      rw [update_known_relabel_eq wl sched v g n rest hin r1 hK] at h
      simp only [Option.some.injEq] at h
      generalize hL : wl.hash (relabel_string ((g.vdata v).lb (stream_min_itr wl g v - 1).toNat)
        (decide (stream_min_itr wl g v = 1)) (stream_min_itr wl g v - 1).toNat
        (sort_by_tme (stream_min_itr wl g v - 1).toNat (in_edges (Graph.mk g.vdata
          (map_in v bump_zero (map_out v (copy_node wl (g.vdata v)) g.edges))) v))) = L at h
      generalize hT : front_tme (stream_min_itr wl g v - 1).toNat
        (sort_by_tme (stream_min_itr wl g v - 1).toNat (in_edges (Graph.mk g.vdata
          (map_in v bump_zero (map_out v (copy_node wl (g.vdata v)) g.edges))) v)) = T at h
      refine ⟨edit_out v (fun el =>
          if el.itr = (wl.K_HOPS : Int) + 1 then
            { el with
              src := setAt el.src (stream_min_itr wl g v).toNat L
              tme := setAt el.tme (stream_min_itr wl g v).toNat T
              itr := stream_min_itr wl g v + 1 }
          else
            { el with
              src := setAt el.src (stream_min_itr wl g v).toNat L
              tme := setAt el.tme (stream_min_itr wl g v).toNat T })
        ∘ edit_in v (fun el =>
            if el.itr < (wl.K_HOPS : Int) + 1 then { el with itr := el.itr + 1 } else el)
        ∘ edit_in v bump_zero ∘ edit_out v (copy_node wl (g.vdata v)), ?_, ?_⟩
      · rw [← h]
        dsimp only
        rw [map_out_eq, map_in_eq, map_in_eq, map_out_eq, List.map_map, List.map_map,
          List.map_map]
        rfl
      · intro e
        simp only [Function.comp]
        have e1 := sync_ends wl (g.vdata v) v e
        have i1 := sync_itr wl (g.vdata v) v e
        generalize edit_in v bump_zero (edit_out v (copy_node wl (g.vdata v)) e) = a at e1 i1
        have e2 := edit_in_ends v (fun el =>
            if el.itr < (wl.K_HOPS : Int) + 1 then { el with itr := el.itr + 1 } else el) a
        have i2 : (edit_in v (fun el =>
            if el.itr < (wl.K_HOPS : Int) + 1 then { el with itr := el.itr + 1 } else el) a).data.itr
            = if a.target = v then
                (if a.data.itr < (wl.K_HOPS : Int) + 1 then a.data.itr + 1 else a.data.itr)
              else a.data.itr := by
          rw [edit_in_data]
          split_ifs <;> rfl
        generalize edit_in v (fun el =>
            if el.itr < (wl.K_HOPS : Int) + 1 then { el with itr := el.itr + 1 } else el) a
            = b at e2 i2
        rw [(edit_out_ends _ _ b).1, (edit_out_ends _ _ b).2, edit_out_data]
        refine ⟨by rw [e2.1, e1.1], by rw [e2.2, e1.2], ?_⟩
        rw [e1.2] at i2
        rw [bump_zero_itr] at i1
        have hs : b.source = e.source := by rw [e2.1, e1.1]
        rw [hs]
        by_cases hsv : e.source = v
        · rw [if_pos hsv]
          by_cases hb : b.data.itr = (wl.K_HOPS : Int) + 1
          · rw [if_pos hb]
            right
            refine ⟨hsv, by simp, r1, hK, rfl, ?_⟩
            intro hne
            rw [if_neg hne] at i1 i2
            omega
          · rw [if_neg hb]
            left
            show e.data.itr ≤ b.data.itr
            rw [i2, i1]
            split_ifs <;> omega
        · rw [if_neg hsv]
          left
          rw [i2, i1]
          split_ifs <;> omega

theorem update_stream_zero (wl : WLEnv) (sched : Bool) (pick v : Nat) (g : Graph) (r : Effects)
    (hnew : is_new g v = true) (hin : in_edges g v ≠ [])
    (h : update_stream wl sched pick v g = some r) : ∀ el ∈ in_edges g v, el.itr = 0 := by
  unfold update_stream at h
  rw [if_pos hnew] at h
  obtain ⟨n, rest, hcons⟩ := List.exists_cons_of_ne_nil hin
  rw [hcons] at h ⊢
  simp only [] at h
  by_cases hall : ((n :: rest).all fun el => decide (el.itr = 0)) = true
  · rw [List.all_eq_true] at hall
    intro el hel
    simpa using hall el hel
  · rw [if_neg hall] at h
    simp at h

/-- The edges after any callback that completes. -/
theorem update_edges (wl : WLEnv) (sched : Bool) (pick v iteration : Nat) (g : Graph)
    (r : Effects) (h : update wl sched pick v iteration g = some r) :
    ∃ F : Edge → Edge, r.graph.edges = g.edges.map F ∧
      ∀ e, (F e).source = e.source ∧ (F e).target = e.target ∧
        (e.data.itr ≤ (F e).data.itr ∨
          (wl.K_HOPS < iteration ∧ e.source = v ∧ in_edges g v ≠ [] ∧
            1 ≤ stream_min_itr wl g v ∧ stream_min_itr wl g v ≤ (wl.K_HOPS : Int) ∧
            (F e).data.itr = stream_min_itr wl g v + 1 ∧
            (e.target ≠ v → e.data.itr = (wl.K_HOPS : Int) + 1))) := by
  by_cases h0 : iteration = 0
  · have h' := h
    unfold update at h'
    rw [if_pos h0] at h'
    refine ⟨edit_in v (fun el => { el with itr := el.itr + 1 }),
      update_first_edges sched pick v g wl.fresh_nl r h', ?_⟩
    intro e
    refine ⟨(edit_in_ends _ _ e).1, (edit_in_ends _ _ e).2, Or.inl ?_⟩
    rw [edit_in_data]
    split_ifs
    · show e.data.itr ≤ e.data.itr + 1
      omega
    · exact le_refl _
  · by_cases hb : iteration < wl.K_HOPS + 1
    · have h' := h
      unfold update at h'
      rw [if_neg h0, if_pos hb] at h'
      obtain ⟨⟨f, nl, hed, hf, -⟩, -⟩ := update_base_shape wl sched v iteration g r h'
      refine ⟨edit_out v f ∘ edit_in v (fun el => { el with itr := el.itr + 1 }), ?_, ?_⟩
      · rw [hed, map_out_eq, map_in_eq, List.map_map]
      · intro e
        simp only [Function.comp]
        rw [(edit_out_ends _ _ _).1, (edit_out_ends _ _ _).2, (edit_in_ends _ _ e).1,
          (edit_in_ends _ _ e).2]
        refine ⟨rfl, rfl, Or.inl ?_⟩
        have hi : (edit_out v f (edit_in v (fun el => { el with itr := el.itr + 1 }) e)).data.itr
            = (edit_in v (fun el => { el with itr := el.itr + 1 }) e).data.itr := by
          rw [edit_out_data]
          split_ifs
          · rw [hf]
          · rfl
        rw [hi, edit_in_data]
        split_ifs
        · show e.data.itr ≤ e.data.itr + 1
          omega
        · exact le_refl _
    · have hK : wl.K_HOPS < iteration := by omega
      by_cases hin : in_edges g v = []
      · by_cases hnew : is_new g v = true
        · obtain ⟨el, ho, -⟩ := random_outedge_some pick (out_edges g v)
            (new_leaf_has_outedge g v hnew hin)
          rw [update_new_leaf_eq wl sched pick v iteration g el hK hnew hin ho] at h
          simp only [Option.some.injEq] at h
          refine ⟨edit_out v
            (fun e => { copy_leaf wl (new_leaf_label wl el) e with new_src := false }),
            by rw [← h]; rfl, ?_⟩
          intro e
          refine ⟨(edit_out_ends _ _ e).1, (edit_out_ends _ _ e).2, Or.inl ?_⟩
          rw [edit_out_data]
          split_ifs
          · show e.data.itr ≤ (copy_leaf wl (new_leaf_label wl el) e.data).itr
            rw [copy_leaf_itr]
          · exact le_refl _
        · rw [update_of_known wl sched pick v iteration g hK (by simpa using hnew)] at h
          obtain ⟨F, hF1, hF2⟩ := update_known_edges wl sched v g r h
          refine ⟨F, hF1, ?_⟩
          intro e
          obtain ⟨a1, a2, a3⟩ := hF2 e
          refine ⟨a1, a2, ?_⟩
          rcases a3 with a3 | ⟨-, hne, -⟩
          · exact Or.inl a3
          · exact absurd hin hne
      · have hz : is_new g v = true → ∀ el ∈ in_edges g v, el.itr = 0 := by
          intro hnew
          have h' := h
          unfold update at h'
          rw [if_neg h0, if_neg hb] at h'
          exact update_stream_zero wl sched pick v g r hnew hin h'
        obtain ⟨h2, G, pre, heq, hE, hG, hmin, -, -, -, -, -⟩ :=
          stream_inner_form wl sched pick v iteration g hK hin hz
        rw [h] at heq
        cases hk : update_known wl sched v h2 with
        | none => rw [hk] at heq; simp at heq
        | some r2 =>
          rw [hk, Option.map_some', Option.some.injEq] at heq
          obtain ⟨F, hF1, hF2⟩ := update_known_edges wl sched v h2 r2 hk
          refine ⟨F ∘ G, ?_, ?_⟩
          · rw [heq]
            dsimp only
            rw [hF1, hE, List.map_map]
          · intro e
            simp only [Function.comp]
            obtain ⟨a1, a2, a3⟩ := hF2 (G e)
            obtain ⟨g1, g2, -, -, -, g6, g7⟩ := hG e
            refine ⟨by rw [a1, g1], by rw [a2, g2], ?_⟩
            rcases a3 with a3 | ⟨b1, -, b3, b4, b5, b6⟩
            · exact Or.inl (le_trans g6 a3)
            · right
              rw [hmin] at b3 b4 b5
              refine ⟨hK, by rw [← g1]; exact b1, hin, b3, b4, b5, ?_⟩
              intro hne
              rw [← g7 hne]
              exact b6 (by rw [g2]; exact hne)

end WeisfeilerLehman

namespace WeisfeilerLehman

/-! ### The edge data after a streaming callback -/

/-- The data of an edge after the four loops of the relabeling branch: out-edge loop `f0`,
in-edge loops `g1` and `g2`, out-edge loop `f3`. -/
theorem four_loops_data (v : Nat) (f0 g1 g2 f3 : edge_label → edge_label) (e : Edge) :
    (edit_out v f3 (edit_in v g2 (edit_in v g1 (edit_out v f0 e)))).source = e.source ∧
    (edit_out v f3 (edit_in v g2 (edit_in v g1 (edit_out v f0 e)))).target = e.target ∧
    (edit_out v f3 (edit_in v g2 (edit_in v g1 (edit_out v f0 e)))).data
      = (if e.source = v then f3 else id)
          ((if e.target = v then g2 ∘ g1 else id)
            ((if e.source = v then f0 else id) e.data)) := by
  unfold edit_out edit_in
  by_cases hs : e.source = v <;> by_cases ht : e.target = v <;> simp [hs, ht]

theorem copy_node_flags (wl : WLEnv) (nl : node_label) (el : edge_label) :
    (copy_node wl nl el).new_src = el.new_src ∧ (copy_node wl nl el).new_dst = el.new_dst ∧
    (copy_node wl nl el).itr = el.itr ∧
    (∀ j, 1 ≤ j → j ≤ wl.K_HOPS → (copy_node wl nl el).src j = nl.lb j) := by
  rw [copy_node_spec]
  refine ⟨rfl, rfl, rfl, ?_⟩
  intro j h1 h2
  simp [h1, h2]

theorem copy_leaf_flags (wl : WLEnv) (nl : node_label) (el : edge_label) :
    (copy_leaf wl nl el).new_src = el.new_src ∧ (copy_leaf wl nl el).new_dst = el.new_dst := by
  unfold copy_leaf forLoopFrom
  apply forLoop_inv (fun s : edge_label => s.new_src = el.new_src ∧ s.new_dst = el.new_dst)
  · intro i s hs
    exact hs
  · exact ⟨rfl, rfl⟩

theorem bump_zero_flags (el : edge_label) :
    (bump_zero el).new_src = el.new_src ∧ (bump_zero el).new_dst = el.new_dst := by
  unfold bump_zero
  split_ifs <;> exact ⟨rfl, rfl⟩

theorem bump_below_fields (wl : WLEnv) (el : edge_label) :
    (bump_below wl el).new_src = el.new_src ∧ (bump_below wl el).new_dst = el.new_dst ∧
    (bump_below wl el).src = el.src ∧
    (bump_below wl el).itr = if el.itr < (wl.K_HOPS : Int) + 1 then el.itr + 1 else el.itr := by
  unfold bump_below
  split_ifs <;> exact ⟨rfl, rfl, rfl, rfl⟩

theorem publish_out_fields (wl : WLEnv) (m : Int) (L : Nat) (T : Int) (el : edge_label) :
    (publish_out wl m L T el).new_src = el.new_src ∧
    (publish_out wl m L T el).new_dst = el.new_dst ∧
    (publish_out wl m L T el).src = setAt el.src m.toNat L ∧
    (publish_out wl m L T el).tme = setAt el.tme m.toNat T ∧
    (publish_out wl m L T el).itr
      = if el.itr = (wl.K_HOPS : Int) + 1 then m + 1 else el.itr := by
  unfold publish_out
  simp only []
  split_ifs <;> exact ⟨rfl, rfl, rfl, rfl, rfl⟩

/-- The end points, the flags, the labels and the cursor of an edge after the relabeling
branch of a streaming callback on `v`. -/
theorem relabel_edge_spec (wl : WLEnv) (v : Nat) (nl : node_label) (m : Int) (L : Nat)
    (T : Int) (e : Edge) :
    (relabel_edge wl v nl m L T e).source = e.source ∧
    (relabel_edge wl v nl m L T e).target = e.target ∧
    (relabel_edge wl v nl m L T e).data.new_src = e.data.new_src ∧
    (relabel_edge wl v nl m L T e).data.new_dst = e.data.new_dst ∧
    (e.source = v → ∀ j, 1 ≤ j → j ≤ wl.K_HOPS →
      (relabel_edge wl v nl m L T e).data.src j = setAt nl.lb m.toNat L j) ∧
    (e.target = v →
      (relabel_edge wl v nl m L T e).data.itr
        = next_cursor wl m (decide (e.source = v)) e.data.itr) ∧
    (e.target ≠ v →
      (relabel_edge wl v nl m L T e).data.itr
        = if e.source = v ∧ e.data.itr = (wl.K_HOPS : Int) + 1 then m + 1 else e.data.itr) := by
  unfold relabel_edge
  obtain ⟨a1, a2, a3⟩ := four_loops_data v (copy_node wl nl) bump_zero (bump_below wl)
    (publish_out wl m L T) e
  refine ⟨a1, a2, ?_⟩
  rw [a3]
  obtain ⟨c1, c2, c3, c4⟩ := copy_node_flags wl nl e.data
  by_cases hs : e.source = v <;> by_cases ht : e.target = v
  · simp only [if_pos hs, if_pos ht, Function.comp]
    obtain ⟨p1, p2, p3, -, p5⟩ :=
      publish_out_fields wl m L T (bump_below wl (bump_zero (copy_node wl nl e.data)))
    obtain ⟨b1, b2, b3, b4⟩ := bump_below_fields wl (bump_zero (copy_node wl nl e.data))
    obtain ⟨z1, z2⟩ := bump_zero_flags (copy_node wl nl e.data)
    have z3 := (bump_zero_fields (copy_node wl nl e.data)).1
    have z4 := bump_zero_itr (copy_node wl nl e.data)
    refine ⟨by rw [p1, b1, z1, c1], by rw [p2, b2, z2, c2], ?_, ?_, fun hc => absurd ht hc⟩
    · intro _ j h1 h2
      rw [p3, b3, z3]
      simp only [setAt]
      rw [c4 j h1 h2]
    · intro _
      rw [p5, b4, z4, c3]
      simp only [next_cursor, hs, decide_True, true_and]
  · simp only [if_pos hs, if_neg ht, id]
    obtain ⟨p1, p2, p3, -, p5⟩ := publish_out_fields wl m L T (copy_node wl nl e.data)
    refine ⟨by rw [p1, c1], by rw [p2, c2], ?_, fun hc => absurd hc ht, ?_⟩
    · intro _ j h1 h2
      rw [p3]
      simp only [setAt]
      rw [c4 j h1 h2]
    · intro _
      rw [p5, c3]
      simp only [hs, true_and]
  · simp only [if_neg hs, if_pos ht, id, Function.comp]
    obtain ⟨b1, b2, -, b4⟩ := bump_below_fields wl (bump_zero e.data)
    obtain ⟨z1, z2⟩ := bump_zero_flags e.data
    have z4 := bump_zero_itr e.data
    refine ⟨by rw [b1, z1], by rw [b2, z2], fun hc => absurd hc hs, ?_, fun hc => absurd ht hc⟩
    intro _
    rw [b4, z4]
    simp only [next_cursor, hs, decide_False, Bool.false_eq_true, false_and, if_false]
  · simp only [if_neg hs, if_neg ht, id]
    refine ⟨trivial, trivial, fun hc => absurd hc hs, fun hc => absurd hc ht, ?_⟩
    intro _
    rw [if_neg (fun hc : e.source = v ∧ e.data.itr = (wl.K_HOPS : Int) + 1 => hs hc.1)]

/-- The relabeling branch of the streaming callback of a known vertex, seen edge by edge:
there are a label `L` and a timestamp `T` such that the vertex gets `lb[m] = L`, every edge
is rewritten by `relabel_edge`, and the tasks and histogram updates are those of the
relabeling. -/
theorem update_known_relabel_form (wl : WLEnv) (sched : Bool) (v : Nat) (g : Graph)
    (hin : in_edges g v ≠ [])
    (h1 : 1 ≤ stream_min_itr wl g v) (hK : stream_min_itr wl g v ≤ (wl.K_HOPS : Int)) :
    ∃ (r : Effects) (L : Nat) (T : Int) (str : String),
      update_known wl sched v g = some r ∧ L = wl.hash str ∧
      r.graph.edges
        = g.edges.map (relabel_edge wl v (g.vdata v) (stream_min_itr wl g v) L T) ∧
      r.graph.vdata = setAt g.vdata v
        { lb := setAt (g.vdata v).lb (stream_min_itr wl g v).toNat L
          tm := (g.vdata v).tm, is_leaf := false } ∧
      r.hist_updates = publish wl str false := by
  obtain ⟨n, rest, hcons⟩ := List.exists_cons_of_ne_nil hin
  refine ⟨_,
    wl.hash (relabel_string ((g.vdata v).lb (stream_min_itr wl g v - 1).toNat)
      (decide (stream_min_itr wl g v = 1)) (stream_min_itr wl g v - 1).toNat
      (sort_by_tme (stream_min_itr wl g v - 1).toNat (in_edges (Graph.mk g.vdata
        (map_in v bump_zero (map_out v (copy_node wl (g.vdata v)) g.edges))) v))),
    front_tme (stream_min_itr wl g v - 1).toNat
      (sort_by_tme (stream_min_itr wl g v - 1).toNat (in_edges (Graph.mk g.vdata
        (map_in v bump_zero (map_out v (copy_node wl (g.vdata v)) g.edges))) v)),
    relabel_string ((g.vdata v).lb (stream_min_itr wl g v - 1).toNat)
      (decide (stream_min_itr wl g v = 1)) (stream_min_itr wl g v - 1).toNat
      (sort_by_tme (stream_min_itr wl g v - 1).toNat (in_edges (Graph.mk g.vdata
        (map_in v bump_zero (map_out v (copy_node wl (g.vdata v)) g.edges))) v)),
    update_known_relabel_eq wl sched v g n rest hcons h1 hK, rfl, ?_, rfl, rfl⟩
  dsimp only
  rw [map_out_eq, map_in_eq, map_in_eq, map_out_eq, List.map_map, List.map_map, List.map_map]
  apply List.map_congr_left
  intro e _
  simp only [Function.comp, relabel_edge]
  congr 1

/-- The edges and the vertex data after the streaming callback of a known vertex: every
edge keeps its end points and its freshness flags, every out-edge of the vertex carries the
labels `lb[1..K]` of the vertex, the timestamps of the vertex and the data of the other
vertices are unchanged, and only `lb[min_itr]` of the vertex can change. -/
theorem update_known_data (wl : WLEnv) (sched : Bool) (v : Nat) (g : Graph) (r : Effects)
    (h : update_known wl sched v g = some r) :
    ∃ F : Edge → Edge, r.graph.edges = g.edges.map F ∧
      (∀ w, w ≠ v → r.graph.vdata w = g.vdata w) ∧
      (r.graph.vdata v).tm = (g.vdata v).tm ∧
      (∀ j, j ≠ (stream_min_itr wl g v).toNat → (r.graph.vdata v).lb j = (g.vdata v).lb j) ∧
      ∀ e, (F e).source = e.source ∧ (F e).target = e.target ∧
        (F e).data.new_src = e.data.new_src ∧ (F e).data.new_dst = e.data.new_dst ∧
        (e.source = v → ∀ j, 1 ≤ j → j ≤ wl.K_HOPS →
          (F e).data.src j = (r.graph.vdata v).lb j) := by
  cases hin : in_edges g v with
  | nil =>
    have hl := update_known_leaf_flag wl sched v g r hin h
    rw [update_known_leaf_eq wl sched v g hin hl] at h
    simp only [Option.some.injEq] at h
    refine ⟨edit_out v (copy_leaf wl (g.vdata v)), by rw [← h]; rfl,
      fun w _ => by rw [← h], by rw [← h], fun j _ => by rw [← h], ?_⟩
    intro e
    refine ⟨(edit_out_ends _ _ e).1, (edit_out_ends _ _ e).2, ?_, ?_, ?_⟩
    · rw [edit_out_data]; split_ifs
      · exact (copy_leaf_flags wl _ _).1
      · rfl
    · rw [edit_out_data]; split_ifs
      · exact (copy_leaf_flags wl _ _).2
      · rfl
    · intro hs j h1 h2
      rw [edit_out_data, if_pos hs, (copy_leaf_fields wl _ _).1, ← h]
      simp [h1, h2]
  | cons n rest =>
    obtain ⟨r1, r2⟩ := update_known_range wl sched v g r n rest hin h
    by_cases hsat : stream_min_itr wl g v = (wl.K_HOPS : Int) + 1
    · rw [update_known_sat_eq wl sched v g n rest hin hsat] at h
      simp only [Option.some.injEq] at h
      refine ⟨edit_in v bump_zero ∘ edit_out v (copy_node wl (g.vdata v)), ?_,
        fun w _ => by rw [← h], by rw [← h], fun j _ => by rw [← h], ?_⟩
      · rw [← h]
        dsimp only
        rw [map_out_eq, map_in_eq, List.map_map]
      · intro e
        simp only [Function.comp]
        refine ⟨(sync_ends wl _ v e).1, (sync_ends wl _ v e).2, ?_⟩
        rw [edit_in_data, (edit_out_ends _ _ e).2, edit_out_data, ← h]
        dsimp only
        obtain ⟨c1, c2, -, c4⟩ := copy_node_flags wl (g.vdata v) e.data
        by_cases hs : e.source = v <;> by_cases ht : e.target = v
        · rw [if_pos hs, if_pos ht, (bump_zero_flags _).1, (bump_zero_flags _).2,
            (bump_zero_fields _).1]
          exact ⟨c1, c2, fun _ => c4⟩
        · rw [if_pos hs, if_neg ht]
          exact ⟨c1, c2, fun _ => c4⟩
        · rw [if_neg hs, if_pos ht, (bump_zero_flags _).1, (bump_zero_flags _).2]
          exact ⟨rfl, rfl, fun hc => absurd hc hs⟩
        · rw [if_neg hs, if_neg ht]
          exact ⟨rfl, rfl, fun hc => absurd hc hs⟩
    · have hK : stream_min_itr wl g v ≤ (wl.K_HOPS : Int) := by omega
      obtain ⟨r0, L, T, str, hr0, -, hE, hV, -⟩ :=
        update_known_relabel_form wl sched v g (by rw [hin]; simp) r1 hK
      rw [hr0, Option.some.injEq] at h
      rw [← h]
      refine ⟨_, hE, ?_, ?_, ?_, ?_⟩
      · intro w hw
        rw [hV]
        simp [setAt, hw]
      · rw [hV]
        simp [setAt]
      · intro j hj
        rw [hV]
        simp [setAt, hj]
      · intro e
        obtain ⟨s1, s2, s3, s4, s5, -, -⟩ :=
          relabel_edge_spec wl v (g.vdata v) (stream_min_itr wl g v) L T e
        refine ⟨s1, s2, s3, s4, ?_⟩
        intro hs j h1 h2
        rw [s5 hs j h1 h2, hV]
        simp [setAt]

theorem init_edge_flags (v : Nat) (e : Edge) :
    ((edit_out v (fun el => { el with new_src := false })
        ∘ edit_in v (fun el => { el with itr := el.itr + 1, new_dst := false })) e).data.new_src
      = (if e.source = v then false else e.data.new_src) ∧
    ((edit_out v (fun el => { el with new_src := false })
        ∘ edit_in v (fun el => { el with itr := el.itr + 1, new_dst := false })) e).data.new_dst
      = (if e.target = v then false else e.data.new_dst) := by
  simp only [Function.comp]
  unfold edit_out edit_in
  by_cases ht : e.target = v <;> by_cases hs : e.source = v <;> simp [ht, hs]

theorem init_vdata_other (wl : WLEnv) (g : Graph) (v : Nat) (edge : edge_label) (w : Nat)
    (hw : w ≠ v) : (init_new_vertex wl g v edge).vdata w = g.vdata w := by
  unfold init_new_vertex
  simp [setAt, hw]

/-- The two forms of a streaming callback on a vertex with in-edges: the callback of a
known vertex, on the graph itself or, for a new vertex, on the initialised graph after the
streaming update of `lb[0]`. -/
theorem stream_inner_cases (wl : WLEnv) (sched : Bool) (pick v iteration : Nat) (g : Graph)
    (hK : wl.K_HOPS < iteration) (hin : in_edges g v ≠ [])
    (hzero : is_new g v = true → ∀ el ∈ in_edges g v, el.itr = 0) :
    (is_new g v = false ∧
      update wl sched pick v iteration g = update_known wl sched v g) ∨
    (is_new g v = true ∧ ∃ edge rest, in_edges g v = edge :: rest ∧
      update wl sched pick v iteration g
        = (update_known wl sched v (init_new_vertex wl g v edge)).map
            (fun r => { r with hist_updates := (edge.dst, false) :: r.hist_updates })) := by
  by_cases hnew : is_new g v = true
  · obtain ⟨edge, rest, hcons⟩ := List.exists_cons_of_ne_nil hin
    exact Or.inr ⟨hnew, edge, rest, hcons,
      update_new_inner_eq wl sched pick v iteration g edge rest hK hnew hcons (hzero hnew)⟩
  · have hnf : is_new g v = false := by simpa using hnew
    exact Or.inl ⟨hnf, update_of_known wl sched pick v iteration g hK hnf⟩

/-- The edges and the vertex data after any streaming callback that completes: end points
are kept, the freshness flags that name the vertex are cleared when the vertex was new and
all other flags are kept, every out-edge of the vertex carries the labels `lb[1..K]` of the
vertex, and the data of the other vertices is unchanged. -/
theorem update_stream_data (wl : WLEnv) (sched : Bool) (pick v iteration : Nat) (g : Graph)
    (r : Effects) (hK : wl.K_HOPS < iteration)
    (h : update wl sched pick v iteration g = some r) :
    ∃ F : Edge → Edge, r.graph.edges = g.edges.map F ∧
      (∀ w, w ≠ v → r.graph.vdata w = g.vdata w) ∧
      ∀ e ∈ g.edges, (F e).source = e.source ∧ (F e).target = e.target ∧
        (F e).data.new_src
          = (if is_new g v = true ∧ e.source = v then false else e.data.new_src) ∧
        (F e).data.new_dst
          = (if is_new g v = true ∧ e.target = v then false else e.data.new_dst) ∧
        (e.source = v → ∀ j, 1 ≤ j → j ≤ wl.K_HOPS →
          (F e).data.src j = (r.graph.vdata v).lb j) := by
  have h0 : ¬ iteration = 0 := by omega
  have hb : ¬ iteration < wl.K_HOPS + 1 := by omega
  by_cases hin : in_edges g v = []
  · by_cases hnew : is_new g v = true
    · obtain ⟨el, ho, -⟩ := random_outedge_some pick (out_edges g v)
        (new_leaf_has_outedge g v hnew hin)
      rw [update_new_leaf_eq wl sched pick v iteration g el hK hnew hin ho] at h
      simp only [Option.some.injEq] at h
      refine ⟨edit_out v
        (fun e => { copy_leaf wl (new_leaf_label wl el) e with new_src := false }),
        by rw [← h]; rfl, ?_, ?_⟩
      · intro w hw
        rw [← h]
        simp [setAt, hw]
      · intro e he
        have hte : e.target ≠ v := in_edges_nil g v hin e he
        refine ⟨(edit_out_ends _ _ e).1, (edit_out_ends _ _ e).2, ?_, ?_, ?_⟩
        · rw [edit_out_data]
          by_cases hs : e.source = v
          · rw [if_pos hs, if_pos ⟨hnew, hs⟩]
          · rw [if_neg hs, if_neg (fun hc : is_new g v = true ∧ e.source = v => hs hc.2)]
        · rw [edit_out_data, if_neg (fun hc : is_new g v = true ∧ e.target = v => hte hc.2)]
          by_cases hs : e.source = v
          · rw [if_pos hs]
            exact (copy_leaf_flags wl _ _).2
          · rw [if_neg hs]
        · intro hs j h1 h2
          rw [edit_out_data, if_pos hs, ← h]
          dsimp only
          rw [(copy_leaf_fields wl _ _).1]
          simp [setAt, h1, h2]
    · have hnf : is_new g v = false := by simpa using hnew
      rw [update_of_known wl sched pick v iteration g hK hnf] at h
      obtain ⟨F, hE, hV, -, -, hF⟩ := update_known_data wl sched v g r h
      refine ⟨F, hE, hV, ?_⟩
      intro e _
      obtain ⟨a1, a2, a3, a4, a5⟩ := hF e
      refine ⟨a1, a2, ?_, ?_, a5⟩
      · rw [a3, if_neg (fun hc : is_new g v = true ∧ e.source = v => hnew hc.1)]
      · rw [a4, if_neg (fun hc : is_new g v = true ∧ e.target = v => hnew hc.1)]
  · have hz : is_new g v = true → ∀ el ∈ in_edges g v, el.itr = 0 := by
      intro hnew
      have h2 := h
      unfold update at h2
      rw [if_neg h0, if_neg hb] at h2
      exact update_stream_zero wl sched pick v g r hnew hin h2
    rcases stream_inner_cases wl sched pick v iteration g hK hin hz with
      ⟨hnf, heq⟩ | ⟨hnew, edge, rest, hcons, heq⟩
    · rw [heq] at h
      obtain ⟨F, hE, hV, -, -, hF⟩ := update_known_data wl sched v g r h
      refine ⟨F, hE, hV, ?_⟩
      intro e _
      obtain ⟨a1, a2, a3, a4, a5⟩ := hF e
      refine ⟨a1, a2, ?_, ?_, a5⟩
      · rw [a3, if_neg (fun hc : is_new g v = true ∧ e.source = v => by
          rw [hnf] at hc; exact absurd hc.1 (by simp))]
      · rw [a4, if_neg (fun hc : is_new g v = true ∧ e.target = v => by
          rw [hnf] at hc; exact absurd hc.1 (by simp))]
    · rw [heq] at h
      cases hk : update_known wl sched v (init_new_vertex wl g v edge) with
      | none => rw [hk] at h; simp at h
      | some r2 =>
        rw [hk, Option.map_some', Option.some.injEq] at h
        obtain ⟨F, hE, hV, -, -, hF⟩ :=
          update_known_data wl sched v (init_new_vertex wl g v edge) r2 hk
        refine ⟨F ∘ (edit_out v (fun el => { el with new_src := false })
          ∘ edit_in v (fun el => { el with itr := el.itr + 1, new_dst := false })), ?_, ?_, ?_⟩
        · rw [← h]
          dsimp only
          rw [hE, init_edges, List.map_map]
        · intro w hw
          rw [← h]
          dsimp only
          rw [hV w hw, init_vdata_other wl g v edge w hw]
        · intro e _
          obtain ⟨g1, g2, -, -, -, -⟩ := init_edge_spec v e
          obtain ⟨f1, f2⟩ := init_edge_flags v e
          rw [Function.comp_apply]
          obtain ⟨a1, a2, a3, a4, a5⟩ := hF ((edit_out v (fun el => { el with new_src := false })
            ∘ edit_in v (fun el => { el with itr := el.itr + 1, new_dst := false })) e)
          refine ⟨by rw [a1, g1], by rw [a2, g2], ?_, ?_, ?_⟩
          · rw [a3, f1]
            by_cases hs : e.source = v
            · rw [if_pos hs, if_pos ⟨hnew, hs⟩]
            · rw [if_neg hs, if_neg (fun hc : is_new g v = true ∧ e.source = v => hs hc.2)]
          · rw [a4, f2]
            by_cases ht : e.target = v
            · rw [if_pos ht, if_pos ⟨hnew, ht⟩]
            · rw [if_neg ht, if_neg (fun hc : is_new g v = true ∧ e.target = v => ht hc.2)]
          · intro hs j h1 h2
            rw [a5 (by rw [g1]; exact hs) j h1 h2, ← h]

/-! ### Out-edge labels and freshness flags after a streaming callback (C26, C27) -/

theorem is_new_false_of_flags (g : Graph) (v : Nat)
    (hs : ∀ e ∈ g.edges, e.source = v → e.data.new_src = false)
    (ht : ∀ e ∈ g.edges, e.target = v → e.data.new_dst = false) : is_new g v = false := by
  unfold is_new
  rw [Bool.or_eq_false_iff, List.any_eq_false, List.any_eq_false]
  constructor
  · intro el hel
    unfold out_edges at hel
    obtain ⟨e, he, rfl⟩ := List.mem_map.mp hel
    obtain ⟨h1, h2⟩ := List.mem_filter.mp he
    rw [hs e h1 (by simpa using h2)]
    simp
  · intro el hel
    unfold in_edges at hel
    obtain ⟨e, he, rfl⟩ := List.mem_map.mp hel
    obtain ⟨h1, h2⟩ := List.mem_filter.mp he
    rw [ht e h1 (by simpa using h2)]
    simp

/-- The histogram updates of the streaming callback of a known vertex: none, or the
publication of one relabeling string for a generation `m >= 1`; `lb[0]` is not written. -/
theorem update_known_hist (wl : WLEnv) (sched : Bool) (v : Nat) (g : Graph) (r : Effects)
    (h : update_known wl sched v g = some r) :
    (r.hist_updates = [] ∨
      ∃ (str : String) (m : Nat), 1 ≤ m ∧ m ≤ wl.K_HOPS ∧
        r.hist_updates = publish wl str false ∧ (r.graph.vdata v).lb m = wl.hash str) ∧
    (r.graph.vdata v).lb 0 = (g.vdata v).lb 0 := by
  cases hin : in_edges g v with
  | nil =>
    have hl := update_known_leaf_flag wl sched v g r hin h
    rw [update_known_leaf_eq wl sched v g hin hl] at h
    simp only [Option.some.injEq] at h
    rw [← h]
    exact ⟨Or.inl rfl, rfl⟩
  | cons n rest =>
    obtain ⟨r1, r2⟩ := update_known_range wl sched v g r n rest hin h
    by_cases hsat : stream_min_itr wl g v = (wl.K_HOPS : Int) + 1
    · rw [update_known_sat_eq wl sched v g n rest hin hsat] at h
      simp only [Option.some.injEq] at h
      rw [← h]
      exact ⟨Or.inl rfl, rfl⟩
    · have hK : stream_min_itr wl g v ≤ (wl.K_HOPS : Int) := by omega
      obtain ⟨r0, L, T, str, hr0, hL, -, hV, hH⟩ :=
        update_known_relabel_form wl sched v g (by rw [hin]; simp) r1 hK
      rw [hr0, Option.some.injEq] at h
      rw [← h]
      have h0 : ¬ (0 : Nat) = (stream_min_itr wl g v).toNat := by omega
      refine ⟨Or.inr ⟨str, (stream_min_itr wl g v).toNat, by omega, by omega, hH, ?_⟩, ?_⟩
      · rw [hV, ← hL]
        simp [setAt]
      · rw [hV]
        simp [setAt, h0]

/-- C27. Out-edge label synchronisation. After every streaming callback on a vertex `v` that
completes (new leaf, new vertex with in-edges, known leaf, saturated or relabeled vertex),
every out-edge `e` of `v` has `e.src[j] = v.lb[j]` for every `j` in `1 .. K`. -/
theorem out_edge_label_sync (wl : WLEnv) (sched : Bool) (pick v iteration : Nat) (g : Graph)
    (r : Effects) (hK : wl.K_HOPS < iteration)
    (h : update wl sched pick v iteration g = some r) :
    ∀ e ∈ r.graph.edges, e.source = v →
      ∀ j, 1 ≤ j → j ≤ wl.K_HOPS → e.data.src j = (r.graph.vdata v).lb j := by
  obtain ⟨F, hE, -, hF⟩ := update_stream_data wl sched pick v iteration g r hK h
  intro e he hs
  rw [hE] at he
  obtain ⟨e0, he0, rfl⟩ := List.mem_map.mp he
  obtain ⟨a1, -, -, -, a5⟩ := hF e0 he0
  exact a5 (by rw [← a1]; exact hs)

/-- C26. New-vertex initialisation runs once. After a streaming callback on a new vertex
that completes, no out-edge of the vertex has `new_src` set and no in-edge has `new_dst`
set; so the vertex is no longer new, a following callback on it is the callback of a known
vertex, and the histogram updates of that callback are none or the publication of one
relabeling string for a generation `m >= 1`, while `lb[0]` stays as it is. -/
theorem new_vertex_init_once (wl : WLEnv) (sched : Bool) (pick v iteration : Nat) (g : Graph)
    (r : Effects) (hK : wl.K_HOPS < iteration) (hnew : is_new g v = true)
    (h : update wl sched pick v iteration g = some r) :
    (∀ e ∈ r.graph.edges, e.source = v → e.data.new_src = false) ∧
    (∀ e ∈ r.graph.edges, e.target = v → e.data.new_dst = false) ∧
    is_new r.graph v = false ∧
    (∀ (sched2 : Bool) (pick2 it2 : Nat), wl.K_HOPS < it2 →
      update wl sched2 pick2 v it2 r.graph = update_known wl sched2 v r.graph) ∧
    (∀ (sched2 : Bool) (pick2 it2 : Nat) (r2 : Effects), wl.K_HOPS < it2 →
      update wl sched2 pick2 v it2 r.graph = some r2 →
      (r2.hist_updates = [] ∨
        ∃ (str : String) (m : Nat), 1 ≤ m ∧ m ≤ wl.K_HOPS ∧
          r2.hist_updates = publish wl str false ∧ (r2.graph.vdata v).lb m = wl.hash str) ∧
      (r2.graph.vdata v).lb 0 = (r.graph.vdata v).lb 0) := by
  obtain ⟨F, hE, -, hF⟩ := update_stream_data wl sched pick v iteration g r hK h
  have hsrc : ∀ e ∈ r.graph.edges, e.source = v → e.data.new_src = false := by
    intro e he hs
    rw [hE] at he
    obtain ⟨e0, he0, rfl⟩ := List.mem_map.mp he
    obtain ⟨a1, -, a3, -, -⟩ := hF e0 he0
    rw [a3, if_pos ⟨hnew, by rw [← a1]; exact hs⟩]
  have hdst : ∀ e ∈ r.graph.edges, e.target = v → e.data.new_dst = false := by
    intro e he ht
    rw [hE] at he
    obtain ⟨e0, he0, rfl⟩ := List.mem_map.mp he
    obtain ⟨-, a2, -, a4, -⟩ := hF e0 he0
    rw [a4, if_pos ⟨hnew, by rw [← a2]; exact ht⟩]
  have hn := is_new_false_of_flags r.graph v hsrc hdst
  refine ⟨hsrc, hdst, hn, ?_, ?_⟩
  · intro sched2 pick2 it2 h2
    exact update_of_known wl sched2 pick2 v it2 r.graph h2 hn
  · intro sched2 pick2 it2 r2 h2 hr2
    rw [update_of_known wl sched2 pick2 v it2 r.graph h2 hn] at hr2
    exact update_known_hist wl sched2 v r.graph r2 hr2

/-! ### The assertion on `min_itr` (C24) -/

theorem stream_min_itr_bounds (wl : WLEnv) (g : Graph) (v : Nat) (hin : in_edges g v ≠ [])
    (hb : ∀ el ∈ in_edges g v, 0 ≤ el.itr ∧ el.itr ≤ (wl.K_HOPS : Int) + 1) :
    1 ≤ stream_min_itr wl g v ∧ stream_min_itr wl g v ≤ (wl.K_HOPS : Int) + 1 := by
  unfold stream_min_itr
  obtain ⟨h1, -, h3⟩ := min_itr_of_spec wl ((in_edges g v).map bump_zero)
  have hall : ∀ el ∈ (in_edges g v).map bump_zero,
      1 ≤ el.itr ∧ el.itr ≤ (wl.K_HOPS : Int) + 1 := by
    intro el hel
    obtain ⟨a, ha, rfl⟩ := List.mem_map.mp hel
    rw [bump_zero_itr]
    obtain ⟨b1, b2⟩ := hb a ha
    split_ifs <;> constructor <;> omega
  obtain ⟨a, ha⟩ := List.exists_mem_of_ne_nil _ hin
  have hma : bump_zero a ∈ (in_edges g v).map bump_zero := List.mem_map.mpr ⟨a, ha, rfl⟩
  rcases h3 with h3 | ⟨el, hel, h3⟩
  · have := h1 _ hma
    have := (hall _ hma).2
    omega
  · rw [h3]
    exact hall el hel

theorem update_known_total (wl : WLEnv) (sched : Bool) (v : Nat) (g : Graph)
    (hin : in_edges g v ≠ []) (h1 : 1 ≤ stream_min_itr wl g v)
    (h2 : stream_min_itr wl g v ≤ (wl.K_HOPS : Int) + 1) :
    ∃ r, update_known wl sched v g = some r := by
  obtain ⟨n, rest, hcons⟩ := List.exists_cons_of_ne_nil hin
  by_cases hsat : stream_min_itr wl g v = (wl.K_HOPS : Int) + 1
  · exact ⟨_, update_known_sat_eq wl sched v g n rest hcons hsat⟩
  · exact ⟨_, update_known_relabel_eq wl sched v g n rest hcons h1 (by omega)⟩

theorem update_stream_total (wl : WLEnv) (sched : Bool) (pick v iteration : Nat) (g : Graph)
    (hK : wl.K_HOPS < iteration) (hin : in_edges g v ≠ [])
    (hzero : is_new g v = true → ∀ el ∈ in_edges g v, el.itr = 0)
    (h1 : 1 ≤ stream_min_itr wl g v) (h2 : stream_min_itr wl g v ≤ (wl.K_HOPS : Int) + 1) :
    ∃ r, update wl sched pick v iteration g = some r := by
  obtain ⟨h, G, pre, heq, -, -, hmin, hinh, -⟩ :=
    stream_inner_form wl sched pick v iteration g hK hin hzero
  obtain ⟨r, hr⟩ := update_known_total wl sched v h hinh (by rw [hmin]; exact h1)
    (by rw [hmin]; exact h2)
  rw [hr, Option.map_some'] at heq
  exact ⟨_, heq⟩

/-- C24. Validity of the `min_itr` assertion. In a streaming callback on a vertex with an
in-edge whose in-edges all satisfy `0 <= itr <= K + 1`, the value of `min_itr` that the code
computes is the least cursor of the in-edges with 0 counted as 1 and satisfies
`1 <= min_itr <= K + 1`; the callback completes (the callback of a known vertex always,
the whole callback when the in-edges of a new vertex have the cursor 0); and when the
vertex is not saturated the indices `min_itr - 1` and `min_itr` lie in `0 .. K`. -/
theorem min_itr_assertion_valid (wl : WLEnv) (sched : Bool) (v : Nat) (g : Graph)
    (hin : in_edges g v ≠ [])
    (hb : ∀ el ∈ in_edges g v, 0 ≤ el.itr ∧ el.itr ≤ (wl.K_HOPS : Int) + 1) :
    (∀ nl : node_label,
      min_itr_of wl (in_edges
        (Graph.mk g.vdata (map_in v bump_zero (map_out v (copy_node wl nl) g.edges))) v)
        = stream_min_itr wl g v) ∧
    0 < stream_min_itr wl g v ∧ stream_min_itr wl g v < (wl.K_HOPS : Int) + 2 ∧
    (∃ r, update_known wl sched v g = some r) ∧
    (∀ pick iteration, wl.K_HOPS < iteration →
      (is_new g v = true → ∀ el ∈ in_edges g v, el.itr = 0) →
      ∃ r, update wl sched pick v iteration g = some r) ∧
    (stream_min_itr wl g v ≠ (wl.K_HOPS : Int) + 1 →
      0 ≤ stream_min_itr wl g v - 1 ∧ stream_min_itr wl g v - 1 ≤ (wl.K_HOPS : Int) ∧
      1 ≤ stream_min_itr wl g v ∧ stream_min_itr wl g v ≤ (wl.K_HOPS : Int) ∧
      (((stream_min_itr wl g v - 1).toNat : Nat) : Int) = stream_min_itr wl g v - 1 ∧
      (((stream_min_itr wl g v).toNat : Nat) : Int) = stream_min_itr wl g v ∧
      (stream_min_itr wl g v - 1).toNat ≤ wl.K_HOPS ∧
      (stream_min_itr wl g v).toNat ≤ wl.K_HOPS) := by
  obtain ⟨h1, h2⟩ := stream_min_itr_bounds wl g v hin hb
  refine ⟨fun nl => known_min_itr wl g v nl, by omega, by omega,
    update_known_total wl sched v g hin h1 h2, ?_, ?_⟩
  · intro pick iteration hK hzero
    exact update_stream_total wl sched pick v iteration g hK hin hzero h1 h2
  · intro hne
    omega

/-! ### The cursor `min_itr` from one relabeling to the next (C23) -/

theorem next_cursor_zero (wl : WLEnv) (m : Int) (self : Bool) :
    next_cursor wl m self (0 + 1) = next_cursor wl m self 0 := by
  unfold next_cursor
  simp

theorem stream_min_itr_pos (wl : WLEnv) (g : Graph) (v : Nat)
    (hnn : ∀ el ∈ in_edges g v, 0 ≤ el.itr) : 1 ≤ stream_min_itr wl g v := by
  unfold stream_min_itr
  obtain ⟨-, -, h3⟩ := min_itr_of_spec wl ((in_edges g v).map bump_zero)
  rcases h3 with h3 | ⟨el, hel, h3⟩
  · omega
  · obtain ⟨a, ha, rfl⟩ := List.mem_map.mp hel
    rw [h3, bump_zero_itr]
    have := hnn a ha
    split_ifs <;> omega

/-- The cursor of every edge after a streaming relabeling at generation `m = min_itr`: the
in-edges of the vertex are bumped, its saturated out-edges are set to `m + 1`, and the
other edges keep their cursor. -/
theorem relabel_step_cursors (wl : WLEnv) (sched : Bool) (pick v iteration : Nat) (g : Graph)
    (hK : wl.K_HOPS < iteration) (hin : in_edges g v ≠ [])
    (hzero : is_new g v = true → ∀ el ∈ in_edges g v, el.itr = 0)
    (h1 : 1 ≤ stream_min_itr wl g v) (hm : stream_min_itr wl g v ≤ (wl.K_HOPS : Int)) :
    ∃ (r : Effects) (F : Edge → Edge),
      update wl sched pick v iteration g = some r ∧ r.graph.edges = g.edges.map F ∧
      ∀ e, (F e).source = e.source ∧ (F e).target = e.target ∧
        (e ∈ g.edges → e.target = v → (F e).data.itr
          = next_cursor wl (stream_min_itr wl g v) (decide (e.source = v)) e.data.itr) ∧
        (e.target ≠ v → (F e).data.itr
          = if e.source = v ∧ e.data.itr = (wl.K_HOPS : Int) + 1
            then stream_min_itr wl g v + 1 else e.data.itr) := by
  rcases stream_inner_cases wl sched pick v iteration g hK hin hzero with
    ⟨-, heq⟩ | ⟨hnew, edge, rest, hcons, heq⟩
  · obtain ⟨r0, L, T, str, hr0, -, hE, -, -⟩ :=
      update_known_relabel_form wl sched v g hin h1 hm
    refine ⟨r0, _, heq.trans hr0, hE, ?_⟩
    intro e
    obtain ⟨s1, s2, -, -, -, s6, s7⟩ :=
      relabel_edge_spec wl v (g.vdata v) (stream_min_itr wl g v) L T e
    exact ⟨s1, s2, fun _ => s6, s7⟩
  · have hz := hzero hnew
    have hin2 : in_edges (init_new_vertex wl g v edge) v ≠ [] := by
      rw [in_edges_of_edges _ g _ (init_edges wl g v edge) (fun e => (init_edge_spec v e).2.1)]
      intro hc
      apply hin
      unfold in_edges
      rw [List.map_eq_nil_iff] at hc ⊢
      exact hc
    have hm2 : stream_min_itr wl (init_new_vertex wl g v edge) v = stream_min_itr wl g v := by
      unfold stream_min_itr
      apply min_itr_of_congr
      rw [in_edges_of_edges _ g _ (init_edges wl g v edge) (fun e => (init_edge_spec v e).2.1)]
      unfold in_edges
      rw [List.map_map, List.map_map, List.map_map, List.map_map]
      apply List.map_congr_left
      intro e he
      obtain ⟨he1, he2⟩ := List.mem_filter.mp he
      have ht : e.target = v := by simpa using he2
      have h0 := hz e.data (mem_in_edges g v e he1 ht)
      simp only [Function.comp]
      rw [bump_zero_itr, bump_zero_itr]
      have := (init_edge_spec v e).2.2.2.2.2
      simp only [Function.comp] at this
      rw [this, if_pos ht, h0]
      simp
    obtain ⟨r0, L, T, str, hr0, -, hE, -, -⟩ :=
      update_known_relabel_form wl sched v (init_new_vertex wl g v edge) hin2
        (by rw [hm2]; exact h1) (by rw [hm2]; exact hm)
    rw [hr0, Option.map_some'] at heq
    refine ⟨_,
      (relabel_edge wl v ((init_new_vertex wl g v edge).vdata v)
        (stream_min_itr wl (init_new_vertex wl g v edge) v) L T)
        ∘ (edit_out v (fun el => { el with new_src := false })
          ∘ edit_in v (fun el => { el with itr := el.itr + 1, new_dst := false })),
      heq, ?_, ?_⟩
    · dsimp only
      rw [hE, init_edges, List.map_map]
    · intro e
      obtain ⟨g1, g2, -, -, -, g6⟩ := init_edge_spec v e
      rw [Function.comp_apply]
      obtain ⟨s1, s2, -, -, -, s6, s7⟩ :=
        relabel_edge_spec wl v ((init_new_vertex wl g v edge).vdata v)
          (stream_min_itr wl (init_new_vertex wl g v edge) v) L T
          ((edit_out v (fun el => { el with new_src := false })
            ∘ edit_in v (fun el => { el with itr := el.itr + 1, new_dst := false })) e)
      refine ⟨by rw [s1, g1], by rw [s2, g2], ?_, ?_⟩
      · intro he ht
        rw [s6 (by rw [g2]; exact ht), g1, g6, if_pos ht, hm2,
          hz e.data (mem_in_edges g v e he ht)]
        exact next_cursor_zero wl _ _
      · intro ht
        rw [s7 (by rw [g2]; exact ht), g1, g6, if_neg ht, hm2]

/-! ### Edge cursors across one callback (C11) -/

/-- C11 (amended). Edge cursors across one callback. For every callback that completes,
base or streaming, the edges keep their order and their end points, and the cursor of an
edge after the callback is at least its cursor before the callback, with one exception: a
streaming callback that relabels its vertex at generation `m = min_itr` with
`1 <= m <= K` sets to `m + 1` the cursor of every out-edge of the vertex whose cursor is
`K + 1` (for a self-loop, has reached `K + 1` in this callback). In particular no cursor
decreases in a callback of the base phase, and no callback lowers the cursor of an edge
whose source is another vertex. The last part gives the cursor of every edge after a
relabeling callback (a streaming callback on a vertex with in-edges and `min_itr <= K`):
an out-edge to another vertex gets `m + 1` when its cursor is `K + 1` and keeps its cursor
otherwise, an in-edge gets the cursor `next_cursor` (bumped, and for a self-loop that has
reached `K + 1` set to `m + 1`), and any other edge keeps its cursor. -/
theorem cursor_monotone_up_to_rewind (wl : WLEnv) (sched : Bool) (pick v iteration : Nat)
    (g : Graph) (r : Effects) (h : update wl sched pick v iteration g = some r) :
    List.Forall₂ (fun e e1 =>
        e1.source = e.source ∧ e1.target = e.target ∧
        (e.data.itr ≤ e1.data.itr ∨
          (wl.K_HOPS < iteration ∧ e.source = v ∧ in_edges g v ≠ [] ∧
            1 ≤ stream_min_itr wl g v ∧ stream_min_itr wl g v ≤ (wl.K_HOPS : Int) ∧
            e1.data.itr = stream_min_itr wl g v + 1 ∧
            (e.target ≠ v → e.data.itr = (wl.K_HOPS : Int) + 1))))
      g.edges r.graph.edges ∧
    (iteration ≤ wl.K_HOPS →
      List.Forall₂ (fun e e1 => e.data.itr ≤ e1.data.itr) g.edges r.graph.edges) ∧
    List.Forall₂ (fun e e1 => e.source ≠ v → e.data.itr ≤ e1.data.itr)
      g.edges r.graph.edges ∧
    (wl.K_HOPS < iteration → in_edges g v ≠ [] →
      stream_min_itr wl g v ≤ (wl.K_HOPS : Int) →
      1 ≤ stream_min_itr wl g v ∧
      List.Forall₂ (fun e e1 =>
          (e.source = v → e.target ≠ v → e.data.itr = (wl.K_HOPS : Int) + 1 →
            e1.data.itr = stream_min_itr wl g v + 1) ∧
          (e.source = v → e.target ≠ v → e.data.itr ≠ (wl.K_HOPS : Int) + 1 →
            e1.data.itr = e.data.itr) ∧
          (e.source = v → e.target = v →
            e.data.itr = (wl.K_HOPS : Int) ∨ e.data.itr = (wl.K_HOPS : Int) + 1 →
            e1.data.itr = stream_min_itr wl g v + 1) ∧
          (e.target = v →
            e1.data.itr
              = next_cursor wl (stream_min_itr wl g v) (decide (e.source = v)) e.data.itr) ∧
          (e.source ≠ v → e.target ≠ v → e1.data.itr = e.data.itr))
        g.edges r.graph.edges) := by
  refine ⟨?_, ?_, ?_, ?_⟩
  · obtain ⟨F, hF1, hF2⟩ := update_edges wl sched pick v iteration g r h
    rw [hF1, List.forall₂_map_right_iff, List.forall₂_same]
    intro e _
    exact hF2 e
  · intro hle
    obtain ⟨F, hF1, hF2⟩ := update_edges wl sched pick v iteration g r h
    rw [hF1, List.forall₂_map_right_iff, List.forall₂_same]
    intro e _
    rcases (hF2 e).2.2 with a | ⟨b, -⟩
    · exact a
    · omega
  · obtain ⟨F, hF1, hF2⟩ := update_edges wl sched pick v iteration g r h
    rw [hF1, List.forall₂_map_right_iff, List.forall₂_same]
    intro e _ hne
    rcases (hF2 e).2.2 with a | ⟨-, b, -⟩
    · exact a
    · exact absurd b hne
  · intro hK hin hm
    have hzero : is_new g v = true → ∀ el ∈ in_edges g v, el.itr = 0 := by
      intro hnew
      have h' := h
      unfold update at h'
      rw [if_neg (by omega), if_neg (by omega)] at h'
      exact update_stream_zero wl sched pick v g r hnew hin h'
    have h1 : 1 ≤ stream_min_itr wl g v := by
      by_cases hnew : is_new g v = true
      · apply stream_min_itr_pos
        intro el hel
        rw [hzero hnew el hel]
      · have hk := update_of_known wl sched pick v iteration g hK (by simpa using hnew)
        rw [hk] at h
        obtain ⟨n, rest, hcons⟩ := List.exists_cons_of_ne_nil hin
        exact (update_known_range wl sched v g r n rest hcons h).1
    refine ⟨h1, ?_⟩
    obtain ⟨r1, F, hr1, hE, hF⟩ :=
      relabel_step_cursors wl sched pick v iteration g hK hin hzero h1 hm
    have hrr : r1 = r := by
      rw [hr1] at h
      exact Option.some.inj h
    subst hrr
    rw [hE, List.forall₂_map_right_iff, List.forall₂_same]
    intro e he
    obtain ⟨-, -, c1, c2⟩ := hF e
    refine ⟨?_, ?_, ?_, ?_, ?_⟩
    · intro hs ht hi
      rw [c2 ht, if_pos ⟨hs, hi⟩]
    · intro hs ht hi
      rw [c2 ht, if_neg (fun hc : e.source = v ∧ e.data.itr = (wl.K_HOPS : Int) + 1 => hi hc.2)]
    · intro hs ht hi
      rw [c1 he ht]
      unfold next_cursor
      simp only [hs, decide_True, true_and]
      rcases hi with hi | hi <;> rw [hi] <;> split_ifs <;> omega
    · intro ht
      exact c1 he ht
    · intro hs ht
      rw [c2 ht, if_neg (fun hc : e.source = v ∧ e.data.itr = (wl.K_HOPS : Int) + 1 => hs hc.1)]

/-- C11 fails as stated: with `K = 2`, after the base phase of `A -> B` the cursor of
`A -> B` is 3; the host adds `C -> A` and the new leaf `C` is processed; the streaming
callback of `A`, the source of `A -> B`, then relabels `A` at generation 1 and sets the
cursor of `A -> B` to 2. -/
theorem cursor_rewind_counterexample :
    (run example_wl2
        (base_schedule example_wl2 true (fun _ _ => 0) (fun _ => [0, 1])
          ++ example_rewind_events) example_graph).bind
      (fun g => (update example_wl2 true 0 0 3 g).map
        (fun r => (cursors g, cursors r.graph)))
      = some ([(0, 1, 3), (2, 0, 0)], [(0, 1, 2), (2, 0, 2)]) := by
  decide

/-- C21, evaluated on the code: with `K = 1`, after the base phase of `A -> B` the host adds
the edges `B -> D` (timestamp 5) and `D -> A` with the new vertex `D`; the callback of `D`
relabels `D` at generation 1, its only in-edge has `tme[0] = 5`, the out-edge of `D` gets
`tme[1] = 5`, and `tm[1]` of `D` is still 0 afterwards: the streaming branch stores
`lb[min_itr]` and never `tm[min_itr]`. -/
theorem streaming_tm_not_written :
    (run example_wl
        (base_schedule example_wl true (fun _ _ => 0) (fun _ => [0, 1])
          ++ [example_new_target, example_new_source])
        example_graph).bind
      (fun g => (update example_wl true 0 3 2 g).map
        (fun r => ((in_edges g 3).map (fun el => el.tme 0),
          decide (stream_min_itr example_wl g 3 = 1),
          (out_edges r.graph 3).map (fun el => el.tme 1),
          (r.graph.vdata 3).tm 1)))
      = some ([5], true, [5], 0) := by
  decide

/-! ### Cursors in the base phase (C22) -/

theorem has_edge_of_ends (g g1 : Graph) (h : ends g1 = ends g) (w : Nat)
    (hw : has_edge g w) : has_edge g1 w := by
  obtain ⟨e, he, hc⟩ := hw
  have hm : (e.source, e.target) ∈ ends g1 := by
    rw [h]
    exact List.mem_map.mpr ⟨e, he, rfl⟩
  obtain ⟨e1, he1, heq⟩ := List.mem_map.mp hm
  simp only [Prod.mk.injEq] at heq
  exact ⟨e1, he1, by rw [heq.1, heq.2]; exact hc⟩

theorem targets_of_ends (g g1 : Graph) (h : ends g1 = ends g) (S : List Nat)
    (hS : ∀ e ∈ g.edges, e.target ∈ S) : ∀ e ∈ g1.edges, e.target ∈ S := by
  intro e1 he1
  have hm : (e1.source, e1.target) ∈ ends g := by
    rw [← h]
    exact List.mem_map.mpr ⟨e1, he1, rfl⟩
  obtain ⟨e, he, heq⟩ := List.mem_map.mp hm
  simp only [Prod.mk.injEq] at heq
  rw [← heq.2]
  exact hS e he

theorem has_edge_cases (g : Graph) (v : Nat) (h : has_edge g v) (hin : in_edges g v = []) :
    out_edges g v ≠ [] := by
  obtain ⟨e, he, hc⟩ := h
  rcases hc with hc | hc
  · exact absurd hc (in_edges_nil g v hin e he)
  · intro hout
    have : e.data ∈ out_edges g v := by
      unfold out_edges
      exact List.mem_map.mpr ⟨e, List.mem_filter.mpr ⟨he, by simpa using hc⟩, rfl⟩
    rw [hout] at this
    simp at this

/-- A callback of the base phase on a vertex whose in-edges have the cursor of the
iteration completes; it increments the cursor of the in-edges of the vertex and keeps the
other cursors and all end points. -/
theorem base_callback_edges (wl : WLEnv) (sched : Bool) (pick v i : Nat) (g : Graph)
    (hi : i ≤ wl.K_HOPS) (hitr : ∀ el ∈ in_edges g v, el.itr = (i : Int))
    (hedge : i = 0 → has_edge g v) :
    ∃ (r : Effects) (f : edge_label → edge_label),
      update wl sched pick v i g = some r ∧ (∀ el, (f el).itr = el.itr) ∧
      r.graph.edges
        = g.edges.map (edit_out v f ∘ edit_in v (fun el => { el with itr := el.itr + 1 })) := by
  by_cases h0 : i = 0
  · subst h0
    cases hin : in_edges g v with
    | nil =>
      obtain ⟨edge, ho, -⟩ := random_outedge_some pick (out_edges g v)
        (has_edge_cases g v (hedge rfl) hin)
      refine ⟨_, id, update_zero_leaf wl sched pick v g edge hin ho, fun _ => rfl, ?_⟩
      dsimp only
      have hne := in_edges_nil g v hin
      calc g.edges = g.edges.map (fun e => e) := (List.map_id' _).symm
        _ = g.edges.map (edit_out v id ∘ edit_in v (fun el => { el with itr := el.itr + 1 })) := by
          apply List.map_congr_left
          intro e he
          simp only [Function.comp, edit_in, if_neg (hne e he), edit_out]
          split_ifs <;> rfl
    | cons edge rest =>
      refine ⟨_, id, update_zero_in wl sched pick v g edge rest hin, fun _ => rfl, ?_⟩
      dsimp only
      rw [map_in_eq]
      apply List.map_congr_left
      intro e _
      simp only [Function.comp, edit_out]
      split_ifs <;> rfl
  · have h1 : 1 ≤ i := by omega
    cases hin : in_edges g v with
    | nil =>
      refine ⟨_, fun el => { el with
          src := setAt el.src i (self_hash wl ((g.vdata v).lb (i - 1)))
          tme := setAt el.tme i (el.tme (i - 1)) },
        update_base_leaf_eq wl sched pick v i g h1 hi hin, ?_, ?_⟩
      · intro el
        rfl
      · dsimp only
        rw [map_out_eq]
        have hne := in_edges_nil g v hin
        apply List.map_congr_left
        intro e he
        simp only [Function.comp, edit_in, if_neg (hne e he)]
    | cons n rest =>
      refine ⟨_, fun el => { el with
          src := setAt el.src i
            (wl.hash (relabel_string ((g.vdata v).lb (i - 1))
              (decide (i = 1)) (i - 1) (sort_by_tme (i - 1) (in_edges g v))))
          tme := setAt el.tme i
            (front_tme (i - 1) (sort_by_tme (i - 1) (in_edges g v))) },
        update_base_in_eq wl sched pick v i g n rest h1 hi hin hitr, ?_, ?_⟩
      · intro el
        rfl
      · dsimp only
        rw [map_out_eq, map_in_eq, List.map_map]

/-- One callback of base iteration `i` on a vertex that has not had its callback yet keeps
the lockstep of the cursors. -/
theorem lockstep_callback (wl : WLEnv) (sched : Bool) (pick v i : Nat) (g : Graph)
    (done : List Nat) (hi : i ≤ wl.K_HOPS) (hv : v ∉ done)
    (hinv : lockstep_inv (i : Int) done g) (hedge : i = 0 → has_edge g v) :
    ∃ r, update wl sched pick v i g = some r ∧
      lockstep_inv (i : Int) (done ++ [v]) r.graph ∧ ends r.graph = ends g := by
  have hitr : ∀ el ∈ in_edges g v, el.itr = (i : Int) := by
    intro el hel
    unfold in_edges at hel
    obtain ⟨e, he, rfl⟩ := List.mem_map.mp hel
    obtain ⟨he1, he2⟩ := List.mem_filter.mp he
    have ht : e.target = v := by simpa using he2
    exact (hinv e he1).2 (by rw [ht]; exact hv)
  obtain ⟨r, f, hr, hf, hE⟩ := base_callback_edges wl sched pick v i g hi hitr hedge
  have hitr2 : ∀ e, (edit_out v f (edit_in v (fun el => { el with itr := el.itr + 1 }) e)).data.itr
      = if e.target = v then e.data.itr + 1 else e.data.itr := by
    intro e
    rw [edit_out_data]
    have : (if (edit_in v (fun el => { el with itr := el.itr + 1 }) e).source = v
        then f (edit_in v (fun el => { el with itr := el.itr + 1 }) e).data
        else (edit_in v (fun el => { el with itr := el.itr + 1 }) e).data).itr
        = (edit_in v (fun el => { el with itr := el.itr + 1 }) e).data.itr := by
      split_ifs
      · rw [hf]
      · rfl
    rw [this, edit_in_data]
    split_ifs <;> rfl
  refine ⟨r, hr, ?_, ?_⟩
  · intro e1 he1
    rw [hE] at he1
    obtain ⟨e, he, rfl⟩ := List.mem_map.mp he1
    simp only [Function.comp]
    rw [(edit_out_ends _ _ _).2, (edit_in_ends _ _ e).2, hitr2]
    obtain ⟨hd1, hd0⟩ := hinv e he
    by_cases ht : e.target = v
    · rw [if_pos ht]
      constructor
      · intro _
        rw [hd0 (by rw [ht]; exact hv)]
      · intro hn
        exact absurd (by rw [ht]; simp) hn
    · rw [if_neg ht]
      constructor
      · intro hm
        rcases List.mem_append.mp hm with h1 | h1
        · exact hd1 h1
        · exact absurd (by simpa using h1) ht
      · intro hn
        exact hd0 (fun hc => hn (List.mem_append_left _ hc))
  · unfold ends
    rw [hE, List.map_map]
    apply List.map_congr_left
    intro e _
    simp only [Function.comp]
    rw [(edit_out_ends _ _ _).1, (edit_out_ends _ _ _).2, (edit_in_ends _ _ e).1,
      (edit_in_ends _ _ e).2]

/-- The callbacks of one base iteration on pairwise different vertices complete and keep
the lockstep of the cursors. -/
theorem run_pass_lockstep (wl : WLEnv) (sched : Bool) (pick : Nat → Nat) (i : Nat)
    (hi : i ≤ wl.K_HOPS) :
    ∀ (vs done : List Nat) (g : Graph), vs.Nodup → (∀ v ∈ vs, v ∉ done) →
      lockstep_inv (i : Int) done g → (i = 0 → ∀ v ∈ vs, has_edge g v) →
      ∃ g1, run wl (vs.map (fun v => Step.callback sched (pick v) v i)) g = some g1 ∧
        lockstep_inv (i : Int) (done ++ vs) g1 ∧ ends g1 = ends g := by
  intro vs
  induction vs with
  | nil =>
    intro done g _ _ hinv _
    exact ⟨g, rfl, by simpa using hinv, rfl⟩
  | cons v rest ih =>
    intro done g hnd hfresh hinv hedge
    obtain ⟨r, hr, hinv1, hends1⟩ := lockstep_callback wl sched (pick v) v i g done hi
      (hfresh v (List.mem_cons_self _ _)) hinv (fun h0 => hedge h0 v (List.mem_cons_self _ _))
    have hvr : v ∉ rest := (List.nodup_cons.mp hnd).1
    obtain ⟨g1, hg1, hinv2, hends2⟩ := ih (done ++ [v]) r.graph (List.nodup_cons.mp hnd).2
      (by
        intro w hw hmem
        rcases List.mem_append.mp hmem with h1 | h1
        · exact hfresh w (List.mem_cons_of_mem _ hw) h1
        · have : w = v := by simpa using h1
          rw [this] at hw
          exact hvr hw)
      hinv1
      (fun h0 w hw => has_edge_of_ends g r.graph hends1 w
        (hedge h0 w (List.mem_cons_of_mem _ hw)))
    refine ⟨g1, ?_, ?_, hends2.trans hends1⟩
    · simp only [List.map_cons, run, step, hr]
      exact hg1
    · simpa [List.append_assoc] using hinv2

theorem run_append_some (wl : WLEnv) (l1 l2 : List Step) :
    ∀ (g g1 g2 : Graph), run wl l1 g = some g1 → run wl l2 g1 = some g2 →
      run wl (l1 ++ l2) g = some g2 := by
  induction l1 with
  | nil =>
    intro g g1 g2 h1 h2
    simp only [run, Option.some.injEq] at h1
    rw [h1]
    exact h2
  | cons s rest ih =>
    intro g g1 g2 h1 h2
    simp only [List.cons_append, run] at h1 ⊢
    split at h1
    · simp at h1
    · rename_i g3 hg3
      exact ih g3 g1 g2 h1 h2

/-- The base iterations `0 .. n - 1` complete and leave every cursor at `n`. -/
theorem lockstep_iterations (wl : WLEnv) (sched : Bool) (pick : Nat → Nat → Nat)
    (order : Nat → List Nat) (g0 : Graph)
    (h0 : ∀ e ∈ g0.edges, e.data.itr = 0)
    (hnd : ∀ i, i ≤ wl.K_HOPS → (order i).Nodup)
    (hcov : ∀ i, i ≤ wl.K_HOPS → ∀ e ∈ g0.edges, e.target ∈ order i)
    (hedge : ∀ v ∈ order 0, has_edge g0 v) :
    ∀ n, n ≤ wl.K_HOPS + 1 →
      ∃ g, run wl ((List.range n).flatMap (base_pass sched pick order)) g0 = some g ∧
        (∀ e ∈ g.edges, e.data.itr = (n : Int)) ∧ ends g = ends g0 := by
  intro n
  induction n with
  | zero =>
    intro _
    exact ⟨g0, rfl, fun e he => by simpa using h0 e he, rfl⟩
  | succ n ih =>
    intro hn
    obtain ⟨g, hg, hall, hends⟩ := ih (by omega)
    have hinv : lockstep_inv (n : Int) [] g := by
      intro e he
      exact ⟨fun hm => absurd hm (by simp), fun _ => hall e he⟩
    obtain ⟨g1, hg1, hinv1, hends1⟩ := run_pass_lockstep wl sched (pick n) n (by omega)
      (order n) [] g (hnd n (by omega)) (by simp) hinv
      (fun hz v hv => has_edge_of_ends g0 g hends v (hedge v (by rw [← hz]; exact hv)))
    refine ⟨g1, ?_, ?_, hends1.trans hends⟩
    · rw [List.range_succ, List.flatMap_append]
      apply run_append_some wl _ _ g0 g g1 hg
      simp only [List.flatMap_cons, List.flatMap_nil, List.append_nil, base_pass]
      exact hg1
    · intro e he
      have ht : e.target ∈ order n :=
        targets_of_ends g0 g1 (hends1.trans hends) (order n) (hcov n (by omega)) e he
      have := (hinv1 e he).1 (by simpa using ht)
      rw [this]
      push_cast
      ring

/-- C22 (amended). Base-phase cursor lockstep. If every edge starts with the cursor 0, no
vertex of iteration 0 is isolated, and in each of the iterations `0, 1, ..., K` the
vertices that are processed are pairwise different and include the target of every edge,
then the base phase completes (no assertion `el.itr == gcontext.iteration` fails), at the
start of every iteration `n` in `0 .. K` every edge has the cursor `n`, and after iteration
`K` every edge has the cursor `K + 1`. -/
theorem base_cursor_lockstep (wl : WLEnv) (sched : Bool) (pick : Nat → Nat → Nat)
    (order : Nat → List Nat) (g0 : Graph)
    (h0 : ∀ e ∈ g0.edges, e.data.itr = 0)
    (hnd : ∀ i, i ≤ wl.K_HOPS → (order i).Nodup)
    (hcov : ∀ i, i ≤ wl.K_HOPS → ∀ e ∈ g0.edges, e.target ∈ order i)
    (hedge : ∀ v ∈ order 0, has_edge g0 v) :
    (∀ n, n ≤ wl.K_HOPS →
      ∃ g, run wl ((List.range n).flatMap (base_pass sched pick order)) g0 = some g ∧
        (∀ e ∈ g.edges, e.data.itr = (n : Int)) ∧
        ∃ g1, run wl (base_pass sched pick order n) g = some g1 ∧
          ∀ e ∈ g1.edges, e.data.itr = (n : Int) + 1) ∧
    ∃ g, run wl (base_schedule wl sched pick order) g0 = some g ∧
      ∀ e ∈ g.edges, e.data.itr = (wl.K_HOPS : Int) + 1 := by
  constructor
  · intro n hn
    obtain ⟨g, hg, hall, -⟩ :=
      lockstep_iterations wl sched pick order g0 h0 hnd hcov hedge n (by omega)
    obtain ⟨g2, hg2, hall2, -⟩ :=
      lockstep_iterations wl sched pick order g0 h0 hnd hcov hedge (n + 1) (by omega)
    rw [List.range_succ, List.flatMap_append] at hg2
    obtain ⟨g', hg', hrest⟩ := run_append wl _ _ g0 g2 hg2
    rw [hg] at hg'
    simp only [Option.some.injEq] at hg'
    subst hg'
    simp only [List.flatMap_cons, List.flatMap_nil, List.append_nil] at hrest
    refine ⟨g, hg, hall, g2, hrest, ?_⟩
    intro e he
    rw [hall2 e he]
    push_cast
    ring
  · obtain ⟨g, hg, hall, -⟩ :=
      lockstep_iterations wl sched pick order g0 h0 hnd hcov hedge (wl.K_HOPS + 1) (le_refl _)
    refine ⟨g, hg, ?_⟩
    intro e he
    rw [hall e he]
    push_cast
    ring

/-- C22 fails as stated: in the graph `A -> B` with a third vertex 9 that has no edge, the
edge starts with the cursor 0 and every vertex is processed exactly once in each iteration,
but the callback of the isolated vertex in iteration 0 does not complete (the guard for
isolated vertices is compiled only under `DEBUG`, and `random_outedge()` returns no edge),
so the base phase does not reach a state in which the edge has the cursor `K + 1`. -/
theorem base_cursor_lockstep_counterexample :
    (∀ e ∈ example_graph.edges, e.data.itr = 0) ∧
    (∀ i, i ≤ example_wl.K_HOPS → ([0, 1, 9] : List Nat).Nodup) ∧
    (∀ i, i ≤ example_wl.K_HOPS → ∀ e ∈ example_graph.edges, e.target ∈ [0, 1, 9]) ∧
    in_edges example_graph 9 = [] ∧ out_edges example_graph 9 = [] ∧
    update example_wl true 0 9 0 example_graph = none ∧
    run example_wl (base_schedule example_wl true (fun _ _ => 0) (fun _ => [0, 1, 9]))
      example_graph = none ∧
    ¬ ∃ g, run example_wl (base_schedule example_wl true (fun _ _ => 0) (fun _ => [0, 1, 9]))
        example_graph = some g ∧
      ∀ e ∈ g.edges, e.data.itr = (example_wl.K_HOPS : Int) + 1 := by
  have hrun : run example_wl
      (base_schedule example_wl true (fun _ _ => 0) (fun _ => [0, 1, 9])) example_graph
      = none :=
    Option.not_isSome_iff_eq_none.mp (by decide)
  refine ⟨by decide, fun _ _ => by decide, fun _ _ => by decide, rfl, rfl,
    Option.not_isSome_iff_eq_none.mp (by decide), hrun, ?_⟩
  rintro ⟨g, hg, -⟩
  rw [hrun] at hg
  exact Option.noConfusion hg

end WeisfeilerLehman

namespace Histogram

variable {α : Type} [LinearOrderedField α]

/-! ### `create_sketch` realises its minimum (C25) -/

theorem lookup_of_mem_nodup {β : Type} (m : List (Nat × β)) (hnd : (m.map Prod.fst).Nodup)
    (p : Nat × β) (hp : p ∈ m) : m.lookup p.1 = some p.2 := by
  induction m with
  | nil => simp at hp
  | cons q rest ih =>
    obtain ⟨a, b⟩ := q
    simp only [List.map_cons, List.nodup_cons] at hnd
    rw [lookup_cons_if]
    rcases List.mem_cons.mp hp with h1 | h1
    · rw [h1]
      simp
    · have hne : p.1 ≠ a := by
        intro hc
        apply hnd.1
        rw [← hc]
        exact List.mem_map.mpr ⟨p, h1, rfl⟩
      rw [if_neg hne]
      exact ih hnd.2 h1

/-- The slot loop of `create_sketch` on a non-empty map whose labels all have parameters:
every processed slot holds the label and the hash of one entry, and the other slots are not
touched. -/
theorem sketch_slots_argmin (env : Env α) (find : Nat → Option (hist_elem α))
    (params : Nat → hist_elem α) :
    ∀ (slots : List Nat) (h : Histogram α), slots.Nodup →
      h.histogram_map ≠ [] →
      (∀ p ∈ h.histogram_map, find p.1 = some (params p.1)) →
      ∃ h1, sketch_slots env find slots h = some h1 ∧
        (∀ j, j ∉ slots → h1.hash j = h.hash j ∧ h1.sketch j = h.sketch j) ∧
        (∀ j ∈ slots, ∃ p ∈ h.histogram_map,
          h1.hash j = hash_value env (params p.1) j p.2 ∧ h1.sketch j = p.1) := by
  intro slots
  induction slots with
  | nil =>
    intro h _ _ _
    exact ⟨h, rfl, fun j _ => ⟨rfl, rfl⟩, by simp⟩
  | cons i slots ih =>
    intro h hnd hne hfind
    obtain ⟨q, rest, hm⟩ := List.exists_cons_of_ne_nil hne
    have hqm : q ∈ h.histogram_map := by rw [hm]; exact List.mem_cons_self _ _
    have hq : find q.1 = some (params q.1) := hfind q hqm
    obtain ⟨r, hr, -, -, hor⟩ :=
      sketch_scan_spec env find params i h.histogram_map
        (hash_value env (params q.1) i q.2, q.1) hfind
    have hrp : ∃ p ∈ h.histogram_map, r = (hash_value env (params p.1) i p.2, p.1) := by
      rcases hor with h1 | h1
      · exact ⟨q, hqm, h1⟩
      · exact h1
    obtain ⟨h1, e, hframe, hslots⟩ :=
      ih { h with sketch := setAt h.sketch i r.2, hash := setAt h.hash i r.1 }
        (List.nodup_cons.mp hnd).2 hne hfind
    simp only [] at hframe hslots
    have hi : i ∉ slots := (List.nodup_cons.mp hnd).1
    refine ⟨h1, ?_, ?_, ?_⟩
    · rw [← e]
      have hr1 : sketch_scan env find i (q :: rest)
          (hash_value env (params q.1) i q.2, q.1) = some r := by rw [← hm]; exact hr
      simp only [sketch_slots, hm, hq, hr1]
    · intro j hj
      have hji : j ≠ i := fun hc => hj (by rw [hc]; exact List.mem_cons_self _ _)
      have hjs : j ∉ slots := fun hc => hj (List.mem_cons_of_mem _ hc)
      obtain ⟨f1, f2⟩ := hframe j hjs
      rw [f1, f2]
      simp [setAt, hji]
    · intro j hj
      rcases List.mem_cons.mp hj with h2 | h2
      · subst h2
        obtain ⟨f1, f2⟩ := hframe j hi
        obtain ⟨p, hp, hrp1⟩ := hrp
        refine ⟨p, hp, ?_, ?_⟩
        · rw [f1, hrp1]; simp [setAt]
        · rw [f2, hrp1]; simp [setAt]
      · exact hslots j h2

/-- C25. `create_sketch` realises its minimum: after `create_sketch` on a non-empty histogram
(with pairwise different keys, as in a `std::map`) the call completes and for every slot `i`
the label `sketch[i]` is a key of the histogram, `hash[i] = A(sketch[i], i, c)` with `c` the
counter of `sketch[i]`, and this value is at most `A(L, i, c1)` for every label `L` of the
histogram with counter `c1`. -/
theorem create_sketch_argmin (env : Env α) (h : Histogram α)
    (hne : h.histogram_map ≠ []) (hnd : h.keys.Nodup) :
    ∃ h1, h.create_sketch env = some h1 ∧
      ∀ i, i < env.SKETCH_SIZE →
        h1.sketch i ∈ h1.keys ∧
        ∃ c, h1.count (h1.sketch i) = some c ∧
          h1.hash i = A env h1 (h1.sketch i) i c ∧
          ∀ L c1, h1.count L = some c1 → A env h1 (h1.sketch i) i c ≤ A env h1 L i c1 := by
  obtain ⟨h1, e, em, hb⟩ := create_sketch_spec env h hne
  refine ⟨h1, e, ?_⟩
  intro i hi
  have key : ∃ p ∈ h.histogram_map, h1.hash i = A env h1 p.1 i p.2 ∧ h1.sketch i = p.1 := by
    unfold create_sketch at e
    cases hM : env.MEMORY
    · rw [hM] at e
      simp only [Bool.not_false, if_true] at e
      obtain ⟨h2, e2, -, hslots⟩ :=
        sketch_slots_argmin env (fun label => (build_base_map env h.histogram_map).lookup label)
          (construct_hist_elem env) (List.range env.SKETCH_SIZE) h (List.nodup_range _) hne
          (fun p hp => lookup_base_map env h.histogram_map p hp)
      rw [e2, Option.some.injEq] at e
      subst e
      obtain ⟨p, hp, a1, a2⟩ := hslots i (List.mem_range.mpr hi)
      exact ⟨p, hp, by simpa [A, label_params, hM] using a1, a2⟩
    · rw [hM] at e
      simp only [Bool.not_true, Bool.false_eq_true, if_false] at e
      have hne1 : (fill_params env h).histogram_map ≠ [] := by
        rw [fill_params_map]; exact hne
      obtain ⟨h2, e2, -, hslots⟩ :=
        sketch_slots_argmin env (fun label => some (pregen_elem env (fill_params env h) label))
          (pregen_elem env (fill_params env h)) (List.range env.SKETCH_SIZE)
          (fill_params env h) (List.nodup_range _) hne1 (fun p hp => rfl)
      obtain ⟨h3, e3, -, -, -, -, eg, eu, -, -⟩ :=
        sketch_slots_spec env (fun label => some (pregen_elem env (fill_params env h) label))
          (pregen_elem env (fill_params env h)) (List.range env.SKETCH_SIZE)
          (fill_params env h) hne1 (fun p hp => rfl)
      rw [e2, Option.some.injEq] at e3
      subst e3
      rw [e2, Option.some.injEq] at e
      subst e
      obtain ⟨p, hp, a1, a2⟩ := hslots i (List.mem_range.mpr hi)
      rw [fill_params_map] at hp
      exact ⟨p, hp, by simpa [A, label_params, hM, pregen_elem, eg, eu] using a1, a2⟩
  obtain ⟨p, hp, a1, a2⟩ := key
  have hcount : h1.count p.1 = some p.2 := by
    unfold count
    rw [em]
    exact lookup_of_mem_nodup h.histogram_map hnd p hp
  rw [a2]
  refine ⟨?_, p.2, hcount, a1, ?_⟩
  · unfold keys
    rw [em]
    exact List.mem_map.mpr ⟨p, hp, rfl⟩
  · intro L c1 hc1
    rw [← a1]
    exact hb i hi L c1 hc1

/-! ### `decay` and the min-hash invariant (C28) -/

theorem decay_params (env : Env α) (h : Histogram α) (fp : String) :
    (h.decay env fp).1.gamma_param = h.gamma_param ∧
    (h.decay env fp).1.uniform_param = h.uniform_param := by
  unfold decay
  simp only [decay_loop]
  split_ifs <;> exact ⟨rfl, rfl⟩

theorem A_decay (env : Env α) (h : Histogram α) (fp : String) (L i : Nat) (c : α) :
    A env (h.decay env fp).1 L i c = A env h L i c := by
  obtain ⟨eg, eu⟩ := decay_params env h fp
  simp [A, label_params, pregen_elem, eg, eu]

/-- A counter with a smaller logarithm gives a larger hash value, and hash values are not
negative, when `c_i >= 0` and `pow(M_E, .)` is positive and increasing. -/
theorem hash_value_antitone (env : Env α) (p : hist_elem α) (i : Nat) (c c1 : α)
    (hexp_pos : ∀ x, 0 < env.exp x) (hexp_mono : ∀ x y, x ≤ y → env.exp x ≤ env.exp y)
    (hc : 0 ≤ p.c i) (hlog : env.log c1 ≤ env.log c) :
    0 ≤ hash_value env p i c ∧ hash_value env p i c ≤ hash_value env p i c1 := by
  unfold hash_value
  simp only []
  have hy : env.exp (env.log c1 - p.r i * p.beta i) ≤ env.exp (env.log c - p.r i * p.beta i) :=
    hexp_mono _ _ (sub_le_sub_right hlog _)
  have hE := hexp_pos (p.r i)
  have hy0 := hexp_pos (env.log c - p.r i * p.beta i)
  have hy1 := hexp_pos (env.log c1 - p.r i * p.beta i)
  constructor
  · exact div_nonneg hc (le_of_lt (mul_pos hy0 hE))
  · exact div_le_div_of_nonneg_left hc (mul_pos hy1 hE)
      (mul_le_mul_of_nonneg_right hy (le_of_lt hE))

/-- The min-hash invariant after `decay`, for a decay factor in `(0, 1]` that does not
increase the logarithm of a counter. -/
theorem decay_inv (env : Env α) (h : Histogram α) (fp : String)
    (hexp_pos : ∀ x, 0 < env.exp x) (hexp_mono : ∀ x y, x ≤ y → env.exp x ≤ env.exp y)
    (hlog : ∀ L c, h.count L = some c → env.log (c * h.powerful) ≤ env.log c)
    (hf0 : 0 < h.powerful) (hf1 : h.powerful ≤ 1)
    (hc : ∀ L i, 0 ≤ (label_params env h L).c i)
    (hinv : ∀ i, i < env.SKETCH_SIZE → ∀ L c, h.count L = some c → h.hash i ≤ A env h L i c) :
    ∀ i, i < env.SKETCH_SIZE → ∀ L c1, (h.decay env fp).1.count L = some c1 →
      (h.decay env fp).1.hash i ≤ A env (h.decay env fp).1 L i c1 := by
  intro i hi L c1 hc1
  rw [A_decay]
  by_cases ht : env.DECAY ≤ h.t + 1
  · obtain ⟨-, e2, e3, -⟩ := decay_trigger env h fp ht
    simp only [count, e2, lookup_scale] at hc1
    rw [e3]
    simp only [hi, if_true]
    cases hl : h.histogram_map.lookup L with
    | none => rw [hl] at hc1; simp at hc1
    | some c =>
      rw [hl] at hc1
      simp only [Option.map_some', Option.some.injEq] at hc1
      subst hc1
      obtain ⟨hA0, hAle⟩ := hash_value_antitone env (label_params env h L) i c (c * h.powerful)
        hexp_pos hexp_mono (hc L i) (hlog L c hl)
      have hh := hinv i hi L c hl
      unfold A at hh ⊢
      by_cases hneg : h.hash i ≤ 0
      · exact le_trans (mul_nonpos_of_nonpos_of_nonneg hneg (le_of_lt hf0))
          (le_trans hA0 hAle)
      · have hhp : 0 ≤ h.hash i := le_of_lt (not_le.mp hneg)
        calc h.hash i * h.powerful ≤ h.hash i * 1 := mul_le_mul_of_nonneg_left hf1 hhp
          _ = h.hash i := mul_one _
          _ ≤ _ := hh
          _ ≤ _ := hAle
  · obtain ⟨-, e2, e3, -⟩ := decay_idle env h fp ht
    simp only [count, e2] at hc1
    rw [e3]
    exact hinv i hi L c1 hc1

/-- Over the reals a factor in `(0, 1]` does not increase the logarithm. -/
theorem real_log_scale (c f : ℝ) (hf0 : 0 < f) (hf1 : f ≤ 1) :
    Real.log (c * f) ≤ Real.log c := by
  by_cases hc : c = 0
  · rw [hc, zero_mul]
  · rw [Real.log_mul hc (ne_of_gt hf0)]
    have : Real.log f ≤ 0 := Real.log_nonpos (le_of_lt hf0) hf1
    linarith

/-- C28. `decay` keeps the min-hash invariant. For a decay factor in `(0, 1]` (the factor
`e^(-lambda)` of a rate `lambda >= 0`), non-negative parameters `c_i`, positive counters and
functions `pow(M_E, .)` and `log` that are increasing, the first one positive: if
`hash[i] <= A(L, i, c_L)` holds for every slot and every label of the histogram before a
call of `decay`, it holds after the call with the counters after the call, whether or not
the multiplication is triggered. Over the reals with `exp` and `log` this is the case for
every `lambda >= 0` and all non-negative `c_i`. -/
theorem decay_keeps_min_hash (env : Env α) (h : Histogram α) (fp : String)
    (hexp_pos : ∀ x, 0 < env.exp x) (hexp_mono : ∀ x y, x ≤ y → env.exp x ≤ env.exp y)
    (hlog_mono : ∀ x y, 0 < x → x ≤ y → env.log x ≤ env.log y)
    (hf0 : 0 < h.powerful) (hf1 : h.powerful ≤ 1)
    (hc : ∀ L i, 0 ≤ (label_params env h L).c i)
    (hpos : ∀ L c, h.count L = some c → 0 < c)
    (hinv : ∀ i, i < env.SKETCH_SIZE → ∀ L c, h.count L = some c → h.hash i ≤ A env h L i c) :
    (∀ i, i < env.SKETCH_SIZE → ∀ L c1, (h.decay env fp).1.count L = some c1 →
      (h.decay env fp).1.hash i ≤ A env (h.decay env fp).1 L i c1) ∧
    (∀ (envR : Env ℝ) (hR : Histogram ℝ),
      envR.exp = Real.exp → envR.log = Real.log → 0 ≤ envR.LAMBDA →
      hR.powerful = envR.exp (-envR.LAMBDA) →
      (∀ L i, 0 ≤ (label_params envR hR L).c i) →
      (∀ i, i < envR.SKETCH_SIZE → ∀ L c, hR.count L = some c → hR.hash i ≤ A envR hR L i c) →
      ∀ i, i < envR.SKETCH_SIZE → ∀ L c1, (hR.decay envR fp).1.count L = some c1 →
        (hR.decay envR fp).1.hash i ≤ A envR (hR.decay envR fp).1 L i c1) := by
  constructor
  · apply decay_inv env h fp hexp_pos hexp_mono _ hf0 hf1 hc hinv
    intro L c hl
    have hcp := hpos L c hl
    apply hlog_mono _ _ (mul_pos hcp hf0)
    calc c * h.powerful ≤ c * 1 := mul_le_mul_of_nonneg_left hf1 (le_of_lt hcp)
      _ = c := mul_one c
  · intro envR hR hexp hlog hlam hpow hcR hinvR
    have hp0 : 0 < hR.powerful := by
      rw [hpow, hexp]; exact Real.exp_pos _
    have hp1 : hR.powerful ≤ 1 := by
      rw [hpow, hexp, Real.exp_le_one_iff]
      linarith
    apply decay_inv envR hR fp
    · intro x; rw [hexp]; exact Real.exp_pos x
    · intro x y hxy; rw [hexp]; exact Real.exp_le_exp.mpr hxy
    · intro L c _
      rw [hlog]
      exact real_log_scale c hR.powerful hp0 hp1
    · exact hp0
    · exact hp1
    · exact hcR
    · exact hinvR

end Histogram

/-! ## Instances of the theorems at concrete inputs -/

namespace Histogram

/-- Instance of the slot rule (C2) on a histogram over the reals with one slot. -/
theorem update_slot_rule_witness :
    0 < (example_env 1 Real.exp Real.log 0 1 example_draws).SKETCH_SIZE ∧
    ((example_hist [(5, (1 : ℝ))] (fun _ => 0) (fun _ => 1) 1).update
        (example_env 1 Real.exp Real.log 0 1 example_draws) 7 true).hash 0
      = (example_hist [(5, (1 : ℝ))] (fun _ => 0) (fun _ => 1) 1).hash 0 :=
  ⟨by decide,
    (update_slot_rule (example_env 1 Real.exp Real.log 0 1 example_draws)
      (example_hist [(5, (1 : ℝ))] (fun _ => 0) (fun _ => 1) 1) 7 0 (by decide)).2.1⟩

/-- Instance of C3 on the histogram `{5 : 1}` over the reals. -/
theorem create_sketch_lower_bound_witness :
    (example_hist [(5, (1 : ℝ))] (fun _ => 0) (fun _ => 1) 1).histogram_map ≠ [] ∧
    ∃ h1, (example_hist [(5, (1 : ℝ))] (fun _ => 0) (fun _ => 1) 1).create_sketch
        (example_env 1 Real.exp Real.log 0 1 example_draws) = some h1 ∧
      ∀ i, i < (example_env 1 Real.exp Real.log 0 1 example_draws).SKETCH_SIZE →
        ∀ L c, h1.count L = some c →
          h1.hash i ≤ A (example_env 1 Real.exp Real.log 0 1 example_draws) h1 L i c :=
  ⟨by simp [example_hist],
    create_sketch_lower_bound (example_env 1 Real.exp Real.log 0 1 example_draws)
      (example_hist [(5, (1 : ℝ))] (fun _ => 0) (fun _ => 1) 1) (by simp [example_hist])⟩

/-- The min-hash invariant of the example state with `hash[0] = 0`. -/
theorem example_invariant :
    ∀ i, i < (example_env 1 Real.exp Real.log 0 1 example_draws).SKETCH_SIZE → ∀ L1 c1,
      (example_hist [(5, (1 : ℝ))] (fun _ => 0) (fun _ => 0) 1).count L1 = some c1 →
      (example_hist [(5, (1 : ℝ))] (fun _ => 0) (fun _ => 0) 1).hash i
        ≤ A (example_env 1 Real.exp Real.log 0 1 example_draws)
            (example_hist [(5, (1 : ℝ))] (fun _ => 0) (fun _ => 0) 1) L1 i c1 := by
  intro i hi L1 c1 hc
  have hi0 : i = 0 := by
    have : i < 1 := hi
    omega
  subst hi0
  rw [example_A]
  have hpos : (0 : ℝ) < Real.exp (Real.log c1 - 1 * (1 / 2)) * Real.exp 1 :=
    mul_pos (Real.exp_pos _) (Real.exp_pos _)
  show (0 : ℝ) ≤ _
  apply div_nonneg _ (le_of_lt hpos)
  split_ifs <;> norm_num

/-- Instance of C4: the example state satisfies the invariant and keeps it after `update(7, false)`. -/
theorem update_keeps_min_hash_witness :
    (∀ i, i < (example_env 1 Real.exp Real.log 0 1 example_draws).SKETCH_SIZE → ∀ L1 c1,
      (example_hist [(5, (1 : ℝ))] (fun _ => 0) (fun _ => 0) 1).count L1 = some c1 →
      (example_hist [(5, (1 : ℝ))] (fun _ => 0) (fun _ => 0) 1).hash i
        ≤ A (example_env 1 Real.exp Real.log 0 1 example_draws)
            (example_hist [(5, (1 : ℝ))] (fun _ => 0) (fun _ => 0) 1) L1 i c1) ∧
    (∀ i, i < (example_env 1 Real.exp Real.log 0 1 example_draws).SKETCH_SIZE → ∀ L1 c1,
      ((example_hist [(5, (1 : ℝ))] (fun _ => 0) (fun _ => 0) 1).update
        (example_env 1 Real.exp Real.log 0 1 example_draws) 7 false).count L1 = some c1 →
      ((example_hist [(5, (1 : ℝ))] (fun _ => 0) (fun _ => 0) 1).update
        (example_env 1 Real.exp Real.log 0 1 example_draws) 7 false).hash i
        ≤ A (example_env 1 Real.exp Real.log 0 1 example_draws)
            ((example_hist [(5, (1 : ℝ))] (fun _ => 0) (fun _ => 0) 1).update
              (example_env 1 Real.exp Real.log 0 1 example_draws) 7 false) L1 i c1) :=
  ⟨example_invariant,
    (update_keeps_min_hash (example_env 1 Real.exp Real.log 0 1 example_draws)
      (example_hist [(5, (1 : ℝ))] (fun _ => 0) (fun _ => 0) 1) 7 example_invariant).1⟩

/-- Instance of C5 with `lambda = ln 2`, `DECAY = 1` and the histogram `{7 : 4}`: the counter becomes 2. -/
theorem decay_tick_witness :
    ((example_env 1 Real.exp Real.log (Real.log 2) 1 example_draws).DECAY
      ≤ (example_hist [(7, (4 : ℝ))] (fun _ => 7) (fun _ => 1) (Real.exp (-(Real.log 2)))).t + 1) ∧
    ((example_hist [(7, (4 : ℝ))] (fun _ => 7) (fun _ => 1) (Real.exp (-(Real.log 2)))).decay
      (example_env 1 Real.exp Real.log (Real.log 2) 1 example_draws) "").1.t = 0 ∧
    ((example_hist [(7, (4 : ℝ))] (fun _ => 7) (fun _ => 1) (Real.exp (-(Real.log 2)))).decay
      (example_env 1 Real.exp Real.log (Real.log 2) 1 example_draws) "").1.histogram_map
      = [(7, 2)] :=
  ⟨by decide,
    ((@decay_tick ℝ _ (example_env 1 Real.exp Real.log (Real.log 2) 1 example_draws)
      (example_hist [(7, (4 : ℝ))] (fun _ => 7) (fun _ => 1) (Real.exp (-(Real.log 2)))) "").1
      (by decide)).1,
    ((@decay_tick ℝ _ (example_env 1 Real.exp Real.log (Real.log 2) 1 example_draws)
      (example_hist [(7, (4 : ℝ))] (fun _ => 7) (fun _ => 1) (Real.exp (-(Real.log 2)))) "").2.2.2.2
      (example_env 1 Real.exp Real.log (Real.log 2) 1 example_draws)
      (example_hist [(7, (4 : ℝ))] (fun _ => 7) (fun _ => 1) (Real.exp (-(Real.log 2)))) 7
      rfl rfl rfl rfl (by decide) rfl).1⟩

/-- Instance of the amended C6 with `DECAY = 1`: the decay is triggered and the sum is scaled. -/
theorem decay_sum_witness :
    ((example_env 1 Real.exp Real.log (Real.log 2) 1 example_draws).DECAY
      ≤ (example_hist [(7, (4 : ℝ))] (fun _ => 7) (fun _ => 1) (Real.exp (-(Real.log 2)))).t + 1) ∧
    ((example_hist [(7, (4 : ℝ))] (fun _ => 7) (fun _ => 1) (Real.exp (-(Real.log 2)))).decay
      (example_env 1 Real.exp Real.log (Real.log 2) 1 example_draws) "").1.counter_sum
      = (example_hist [(7, (4 : ℝ))] (fun _ => 7) (fun _ => 1)
          (Real.exp (-(Real.log 2)))).counter_sum
        * (example_hist [(7, (4 : ℝ))] (fun _ => 7) (fun _ => 1)
          (Real.exp (-(Real.log 2)))).powerful :=
  ⟨by decide,
    (decay_sum (example_env 1 Real.exp Real.log (Real.log 2) 1 example_draws)
      (example_hist [(7, (4 : ℝ))] (fun _ => 7) (fun _ => 1) (Real.exp (-(Real.log 2)))) "").1
      (by decide)⟩


/-- Instance of C9 (amended) with the example draws (`r = 1`, `beta = 1 / 2`, `c = 1` or
`c = 3`): from the state that `create_sketch` reaches on the histogram with the entry
`5 : 1`, the labels 0 and 5 reach the counters 1 and 2, where their hash values differ, and
the orders `0, 5` and `5, 0` give the same sketch. -/
theorem sketch_permutation_invariance_witness :
    ∃ h, (example_hist [(5, (1 : ℝ))] (fun _ => 0) (fun _ => 1) 1).create_sketch
        (example_env 1 Real.exp Real.log 0 1 example_draws) = some h ∧
      [0, 5].Perm [5, 0] ∧
      tie_free (example_env 1 Real.exp Real.log 0 1 example_draws) h [0, 5] ∧
      ∀ i, (update_all (example_env 1 Real.exp Real.log 0 1 example_draws) [0, 5] h).sketch i
        = (update_all (example_env 1 Real.exp Real.log 0 1 example_draws) [5, 0] h).sketch i := by
  have htf : tie_free (example_env 1 Real.exp Real.log 0 1 example_draws)
      { example_hist [(5, (1 : ℝ))] (fun _ => 0) (fun _ => 1) 1 with
        sketch := setAt (example_hist [(5, (1 : ℝ))] (fun _ => 0) (fun _ => 1) 1).sketch 0 5
        hash := setAt (example_hist [(5, (1 : ℝ))] (fun _ => 0) (fun _ => 1) 1).hash 0
          (hash_value (example_env 1 Real.exp Real.log 0 1 example_draws)
            (construct_hist_elem (example_env 1 Real.exp Real.log 0 1 example_draws) 5) 0 1) }
      [0, 5] := by
    apply tie_free_pair _ _ 0 5 (by decide)
    intro i hi
    have hi0 : i = 0 := by
      have : i < 1 := hi
      omega
    subst hi0
    rw [example_A, example_A]
    have hb0 : base_count
        ({ example_hist [(5, (1 : ℝ))] (fun _ => 0) (fun _ => 1) 1 with
          sketch := setAt (example_hist [(5, (1 : ℝ))] (fun _ => 0) (fun _ => 1) 1).sketch 0 5
          hash := setAt (example_hist [(5, (1 : ℝ))] (fun _ => 0) (fun _ => 1) 1).hash 0
            (hash_value (example_env 1 Real.exp Real.log 0 1 example_draws)
              (construct_hist_elem (example_env 1 Real.exp Real.log 0 1 example_draws) 5) 0 1) }
          : Histogram ℝ) 0 = 0 := by
      simp [base_count, count, example_hist, lookup_cons_if]
    have hb5 : base_count
        ({ example_hist [(5, (1 : ℝ))] (fun _ => 0) (fun _ => 1) 1 with
          sketch := setAt (example_hist [(5, (1 : ℝ))] (fun _ => 0) (fun _ => 1) 1).sketch 0 5
          hash := setAt (example_hist [(5, (1 : ℝ))] (fun _ => 0) (fun _ => 1) 1).hash 0
            (hash_value (example_env 1 Real.exp Real.log 0 1 example_draws)
              (construct_hist_elem (example_env 1 Real.exp Real.log 0 1 example_draws) 5) 0 1) }
          : Histogram ℝ) 5 = 1 := by
      simp [base_count, count, example_hist, lookup_cons_if]
    rw [hb0, hb5, if_pos (by decide), if_neg (by decide)]
    have e1 : Real.exp (Real.log (0 + 1) - 1 * (1 / 2)) = Real.exp (-(1 / 2)) := by
      rw [zero_add, Real.log_one]
      congr 1
      ring
    have e2 : Real.exp (Real.log (1 + 1) - 1 * (1 / 2)) = 2 * Real.exp (-(1 / 2)) := by
      have h2 : ((1 : ℝ) + 1) = 2 := by norm_num
      rw [h2, show Real.log 2 - 1 * (1 / 2) = Real.log 2 + -(1 / 2) by ring,
        Real.exp_add, Real.exp_log (by norm_num)]
    rw [e1, e2]
    have hp : (0 : ℝ) < Real.exp (-(1 / 2)) * Real.exp 1 :=
      mul_pos (Real.exp_pos _) (Real.exp_pos _)
    intro heq
    rw [mul_assoc, div_eq_div_iff (ne_of_gt hp) (by positivity)] at heq
    nlinarith
  refine ⟨_, create_sketch_single _ _ 5 1 rfl rfl rfl, List.Perm.swap 5 0 [], htf, ?_⟩
  exact (sketch_permutation_invariance (example_env 1 Real.exp Real.log 0 1 example_draws) _
    [0, 5] [5, 0] (List.Perm.swap 5 0 [])).2.2 htf

end Histogram

namespace WeisfeilerLehman

/-- Instance of C8 with `WINDOW = 3` and two slots holding the labels 5 and 7: three
quiescent passes from an empty sink leave the three lines `5 7 `. -/
theorem window_emission_witness :
    (Histogram.example_env 2 Real.exp Real.log 0 1 Histogram.example_draws).LAMBDA = 0 ∧
    (Histogram.example_env 2 Real.exp Real.log 0 1 Histogram.example_draws).WINDOW = 3 ∧
    (quiescent_pass (Histogram.example_env 2 Real.exp Real.log 0 1 Histogram.example_draws)
      example_wl 4
      (quiescent_pass (Histogram.example_env 2 Real.exp Real.log 0 1 Histogram.example_draws)
        example_wl 3
        (quiescent_pass (Histogram.example_env 2 Real.exp Real.log 0 1 Histogram.example_draws)
          example_wl 2
          (example_driver
            (Histogram.example_hist [(5, (1 : ℝ)), (7, 1)] (fun i => if i = 0 then 5 else 7)
              (fun _ => 1) 1))))).sfp
      = "5 7 \n5 7 \n5 7 \n" := by
  obtain ⟨line, hline, -, -, -, -, -, -, -, -, h, -⟩ :=
    window_emission (Histogram.example_env 2 Real.exp Real.log 0 1 Histogram.example_draws)
      example_wl
      (example_driver
        (Histogram.example_hist [(5, (1 : ℝ)), (7, 1)] (fun i => if i = 0 then 5 else 7)
          (fun _ => 1) 1))
      2 3 4 rfl
  refine ⟨rfl, rfl, ?_⟩
  rw [h, hline]
  decide

/-- The example run (base phase of `A -> B`, then the streamed edge `C -> B`) passes every assertion. -/
theorem example_run_completes :
    (run example_wl
      ((base_schedule example_wl true (fun _ _ => 0) (fun _ => [0, 1]) ++ example_events).take 8)
      example_graph).isSome = true := by
  decide

/-- Instance of C10 on the example run. -/
theorem edge_cursor_bound_witness :
    (∀ e ∈ example_graph.edges, e.data.itr = 0) ∧ [0, 1].Nodup ∧
    (∀ s ∈ example_events, s.streaming example_wl) ∧
    ∃ g, run example_wl
        ((base_schedule example_wl true (fun _ _ => 0) (fun _ => [0, 1]) ++ example_events).take 8)
        example_graph = some g ∧
      ∀ e ∈ g.edges, 0 ≤ e.data.itr ∧ e.data.itr ≤ (example_wl.K_HOPS : Int) + 1 := by
  have h0 : ∀ e ∈ example_graph.edges, e.data.itr = 0 := by
    intro e he
    simp only [example_graph, List.mem_singleton] at he
    rw [he]
    rfl
  have hnd : [0, 1].Nodup := by decide
  have hev : ∀ s ∈ example_events, s.streaming example_wl := by
    intro s hs
    simp only [example_events, List.mem_cons, List.mem_singleton, List.not_mem_nil,
      or_false] at hs
    rcases hs with rfl | rfl | rfl | rfl <;> simp [Step.streaming, example_wl]
  obtain ⟨g, hg⟩ := Option.isSome_iff_exists.mp example_run_completes
  exact ⟨h0, hnd, hev, g, hg,
    edge_cursor_bound example_wl true (fun _ _ => 0) (fun _ => [0, 1]) example_events
      example_graph g 8 h0 hnd hev hg⟩

end WeisfeilerLehman

namespace WeisfeilerLehman

/-- Instance of C12 on vertex `B` of the graph `A -> B`. -/
theorem first_iteration_label_witness :
    in_edges example_graph 1 = [example_edge_label 1 2 7] ∧
    ∃ r, update example_wl true 0 1 0 example_graph = some r ∧
      (r.graph.vdata 1).lb 0 = (example_edge_label 1 2 7).dst ∧
      (r.graph.vdata 1).is_leaf = false ∧ (r.graph.vdata 1).tm 0 = 0 ∧
      r.hist_updates = [((r.graph.vdata 1).lb 0, true)] ∧
      r.tasks = if true then [1] else [] :=
  ⟨rfl, (first_iteration_label example_wl true 0 1 example_graph).1
    (example_edge_label 1 2 7) [] rfl⟩

/-- Instance of C13: `B` with `lb[0] = 2` and the in-edge of type 7 from `A`. -/
theorem base_relabel_string_witness :
    ∃ r, update example_wl true 0 1 1 (example_base_state 1) = some r ∧
      (r.graph.vdata 1).lb 1 = example_wl.hash "2 7 1" := by
  obtain ⟨r, sorted, hr, -, -, -, -, -, hex⟩ :=
    base_relabel_string example_wl true 0 1 1 (example_base_state 1)
      { example_edge_label 1 2 7 with itr := 1 } [] (by decide) (by decide) rfl (by decide)
  exact ⟨r, hr, hex rfl rfl rfl rfl rfl⟩

/-- The example hash is a fold over the characters of the string. -/
theorem example_hash_eq (s : String) :
    example_hash s = s.data.foldl (fun h c => (h * 33 + c.toNat) % 2 ^ 64) 5381 := by
  unfold example_hash
  exact String.foldl_eq _ _ _

/-- Instance of C14 with `K = 2` and the 64-bit example hash: the leaves `A` and `C` of the
graph `A -> B`, `C -> B` start from the labels 1 and 3, the hash has no collision among the
four strings hashed along their chains, and their labels differ in every generation. -/
theorem leaf_self_hash_chain_witness :
    ∃ g, run example_wl2 (base_schedule example_wl2 true (fun _ _ => 0) (fun _ => [0, 1, 2]))
        example_two_leaves = some g ∧
      (g.vdata 0).lb 0 = 1 ∧ (g.vdata 2).lb 0 = 3 ∧
      (∀ j, j ≤ example_wl2.K_HOPS →
        (g.vdata 0).lb j = (fun l => example_wl2.hash (toString l))^[j] ((g.vdata 0).lb 0)) ∧
      ∀ j, j ≤ example_wl2.K_HOPS → (g.vdata 0).lb j ≠ (g.vdata 2).lb j := by
  have hd : (run example_wl2
      (base_schedule example_wl2 true (fun _ _ => 0) (fun _ => [0, 1, 2]))
      example_two_leaves).map (fun g => ((g.vdata 0).lb 0, (g.vdata 2).lb 0))
      = some (1, 3) := by
    decide
  obtain ⟨g, hg, hlb⟩ := Option.map_eq_some'.mp hd
  simp only [Prod.mk.injEq] at hlb
  obtain ⟨hA, hC⟩ := hlb
  obtain ⟨-, hchain, hdiff⟩ :=
    leaf_self_hash_chain example_wl2 true (fun _ _ => 0) (fun _ => [0, 1, 2])
      example_two_leaves g hg
  have cA := hchain 0 rfl (fun _ _ _ => by decide)
  have cC := hchain 2 rfl (fun _ _ _ => by decide)
  have hA1 : (g.vdata 0).lb 1 = example_hash "1" := by
    rw [cA 1 (by decide), hA]; rfl
  have hC1 : (g.vdata 2).lb 1 = example_hash "3" := by
    rw [cC 1 (by decide), hC]; rfl
  refine ⟨g, hg, hA, hC, cA, ?_⟩
  refine hdiff 0 2 rfl (fun _ _ _ => by decide) rfl (fun _ _ _ => by decide) ?_
    (by rw [hA, hC]; decide)
  have hK : example_wl2.K_HOPS = 2 := rfl
  have hset : ∀ s, s ∈ {s | ∃ j, j < example_wl2.K_HOPS ∧
      (s = toString ((g.vdata 0).lb j) ∨ s = toString ((g.vdata 2).lb j))} →
      s = "1" ∨ s = "3" ∨ s = toString (example_hash "1") ∨ s = toString (example_hash "3") := by
    rintro s ⟨j, hj, hs⟩
    rw [hK] at hj
    interval_cases j
    · rw [hA, hC] at hs
      rcases hs with hs | hs
      · exact Or.inl hs
      · exact Or.inr (Or.inl hs)
    · rw [hA1, hC1] at hs
      rcases hs with hs | hs
      · exact Or.inr (Or.inr (Or.inl hs))
      · exact Or.inr (Or.inr (Or.inr hs))
  intro s1 hs1 s2 hs2 heq
  have heq2 : example_hash s1 = example_hash s2 := heq
  rcases hset s1 hs1 with h1 | h1 | h1 | h1 <;> rcases hset s2 hs2 with h2 | h2 | h2 | h2 <;>
    rw [h1, h2] at heq2 ⊢ <;>
    first
      | rfl
      | (exfalso; revert heq2; simp only [example_hash_eq]; decide)

/-- Instance of C15: `B` when both of its in-edges have the cursor `K + 1 = 2`. -/
theorem saturated_vertex_idle_witness :
    ∃ r, update example_wl true 0 1 2 (example_stream_state 2 2 false) = some r ∧
      r.hist_updates = [] ∧ r.tasks = [] ∧
      r.graph.vdata = (example_stream_state 2 2 false).vdata := by
  obtain ⟨r, hr, a, b, c, -⟩ :=
    saturated_vertex_idle example_wl true 0 1 2 (example_stream_state 2 2 false)
      (by decide) (by decide) (List.cons_ne_nil _ _) (by decide)
  exact ⟨r, hr, a, b, c⟩

/-- Instance of C16: `B` with the old edge of type 7 and the streamed edge of type 9. -/
theorem streaming_relabel_string_witness :
    ∃ r, update example_wl true 0 1 2 (example_stream_state 2 0 false) = some r ∧
      (r.graph.vdata 1).lb 1 = example_wl.hash "2 7 1 9 3" ∧
      r.hist_updates = [((r.graph.vdata 1).lb 1, false)] := by
  obtain ⟨r, nb, sorted, hr, -, -, -, -, hold, hhist, hex⟩ :=
    streaming_relabel_string example_wl true 0 1 2 (example_stream_state 2 0 false)
      (by decide) (List.cons_ne_nil _ _) (by decide) (by decide) (by decide)
  exact ⟨r, hr, hex _ _ rfl (by decide) (by decide) rfl rfl rfl rfl (hold (by decide)),
    hhist rfl⟩

/-- Instance of C17: the new leaf `C` of type 3 with `K = 1`. -/
theorem new_streamed_leaf_witness :
    ∃ r, update example_wl true 0 2 2 (example_stream_state 2 0 true) = some r ∧
      (r.graph.vdata 2).lb 0 = 3 ∧ (r.graph.vdata 2).lb 1 = example_wl.hash "3" ∧
      (r.graph.vdata 2).is_leaf = true ∧ r.tasks = [] := by
  obtain ⟨r, el, hmem, -, hr, -, -, -, hleaf, -, htasks, -, -, hex⟩ :=
    new_streamed_leaf example_wl true 0 2 2 (example_stream_state 2 0 true)
      (by decide) (by decide) rfl
  have h3 : el.src 0 = 3 := by
    simp only [out_edges, example_stream_state, List.filter, List.map] at hmem
    simp at hmem
    rw [hmem]
  exact ⟨r, hr, (hex rfl h3).1, (hex rfl h3).2, hleaf, htasks⟩

/-- Instance of C19: `B` in the last base iteration `K = 1` adds no task. -/
theorem base_rescheduling_witness :
    ∃ r, update example_wl true 0 1 1 (example_base_state 1) = some r ∧ r.tasks = [] := by
  obtain ⟨r, hr⟩ := Option.isSome_iff_exists.mp
    (show (update example_wl true 0 1 1 (example_base_state 1)).isSome = true by decide)
  exact ⟨r, hr,
    (base_rescheduling example_wl true 0 1 1 (example_base_state 1) r (by decide) (by decide)
      hr).2.2⟩

/-- Instance of C20: `B` in base iteration 1 takes the timestamp of its in-edge. -/
theorem base_timestamps_witness :
    ∃ r, update example_wl true 0 1 1 (example_base_state 1) = some r ∧
      (∀ n1 ∈ in_edges (example_base_state 1) 1, (r.graph.vdata 1).tm 1 ≤ n1.tme (1 - 1)) ∧
      ∀ e ∈ r.graph.edges, e.source = 1 →
        e.data.src 1 = (r.graph.vdata 1).lb 1 ∧ e.data.tme 1 = (r.graph.vdata 1).tm 1 := by
  obtain ⟨r, hr, -, a, b⟩ :=
    (base_timestamps example_wl true 0 1 1 (example_base_state 1) (by decide) (by decide)).1
      { example_edge_label 1 2 7 with itr := 1 } [] rfl (by decide)
  exact ⟨r, hr, a, b⟩

/-- Instance of C11 (amended) with `K = 2`: after the base phase of `A -> B` and the streamed
edge `C -> A`, the callback of `A` relabels generation `m = 1` and sets the cursor of its
saturated out-edge `A -> B` from 3 to `m + 1 = 2`. -/
theorem cursor_monotone_up_to_rewind_witness :
    ∃ g r,
      run example_wl2
        (base_schedule example_wl2 true (fun _ _ => 0) (fun _ => [0, 1])
          ++ example_rewind_events) example_graph = some g ∧
      update example_wl2 true 0 0 3 g = some r ∧
      cursors g = [(0, 1, 3), (2, 0, 0)] ∧
      stream_min_itr example_wl2 g 0 = 1 ∧
      List.Forall₂ (fun e e1 =>
          e.source = 0 → e.target ≠ 0 → e.data.itr = (example_wl2.K_HOPS : Int) + 1 →
            e1.data.itr = stream_min_itr example_wl2 g 0 + 1)
        g.edges r.graph.edges := by
  have hd : ((run example_wl2
        (base_schedule example_wl2 true (fun _ _ => 0) (fun _ => [0, 1])
          ++ example_rewind_events) example_graph).bind
      (fun g => (update example_wl2 true 0 0 3 g).map
        (fun _ => (cursors g, (in_edges g 0).length, stream_min_itr example_wl2 g 0))))
      = some ([(0, 1, 3), (2, 0, 0)], 1, 1) := by
    decide
  obtain ⟨g, hg, hu⟩ := Option.bind_eq_some.mp hd
  obtain ⟨r, hr, hf⟩ := Option.map_eq_some'.mp hu
  simp only [Prod.mk.injEq] at hf
  obtain ⟨hc, hlen, hmin⟩ := hf
  have hin : in_edges g 0 ≠ [] := by
    intro he
    rw [he] at hlen
    simp at hlen
  refine ⟨g, r, hg, hr, hc, hmin, ?_⟩
  exact ((cursor_monotone_up_to_rewind example_wl2 true 0 0 3 g r hr).2.2.2
    (by decide) hin (by rw [hmin]; decide)).2.imp (fun _ _ hp => hp.1)

end WeisfeilerLehman

namespace WeisfeilerLehman

/-- Instance of C22 (amended) on the graph `A -> B` with `K = 1`: after the base phase the
cursor of the edge is 2. -/
theorem base_cursor_lockstep_witness :
    ∃ g, run example_wl (base_schedule example_wl true (fun _ _ => 0) (fun _ => [0, 1]))
        example_graph = some g ∧
      ∀ e ∈ g.edges, e.data.itr = (example_wl.K_HOPS : Int) + 1 :=
  (base_cursor_lockstep example_wl true (fun _ _ => 0) (fun _ => [0, 1]) example_graph
    (by decide) (fun _ _ => (by decide : [0, 1].Nodup))
    (fun _ _ => (by decide : ∀ e ∈ example_graph.edges, e.target ∈ [0, 1]))
    (by
      intro v hv
      rcases List.mem_cons.mp hv with h1 | h1
      · exact ⟨_, List.mem_cons_self _ _, Or.inr h1.symm⟩
      · have h2 : v = 1 := by simpa using h1
        exact ⟨_, List.mem_cons_self _ _, Or.inl h2.symm⟩)).2

/-- Instance of C24: the value of `min_itr` of `B` with in-edge cursors 2 and 0 passes the
assertion. -/
theorem min_itr_assertion_valid_witness :
    0 < stream_min_itr example_wl (example_stream_state 2 0 false) 1 ∧
    stream_min_itr example_wl (example_stream_state 2 0 false) 1
      < (example_wl.K_HOPS : Int) + 2 ∧
    ∃ r, update_known example_wl true 1 (example_stream_state 2 0 false) = some r := by
  obtain ⟨-, a, b, c, -⟩ :=
    min_itr_assertion_valid example_wl true 1 (example_stream_state 2 0 false)
      (List.cons_ne_nil _ _) (by decide)
  exact ⟨a, b, c⟩

/-- Instance of C26: after the callback of the new leaf `C` its out-edge is no longer marked
and `C` is not new. -/
theorem new_vertex_init_once_witness :
    ∃ r, update example_wl true 0 2 2 (example_stream_state 2 0 true) = some r ∧
      (∀ e ∈ r.graph.edges, e.source = 2 → e.data.new_src = false) ∧
      is_new r.graph 2 = false := by
  obtain ⟨r, hr⟩ := Option.isSome_iff_exists.mp
    (show (update example_wl true 0 2 2 (example_stream_state 2 0 true)).isSome = true
      by decide)
  obtain ⟨a, -, c, -⟩ :=
    new_vertex_init_once example_wl true 0 2 2 (example_stream_state 2 0 true) r
      (by decide) (by decide) hr
  exact ⟨r, hr, a, c⟩

/-- Instance of C27: after the streaming callback of `A`, known leaf, its out-edge carries
`lb[1]` of `A`. -/
theorem out_edge_label_sync_witness :
    ∃ r, update example_wl true 0 0 2 (example_stream_state 2 0 false) = some r ∧
      ∀ e ∈ r.graph.edges, e.source = 0 →
        ∀ j, 1 ≤ j → j ≤ example_wl.K_HOPS → e.data.src j = (r.graph.vdata 0).lb j := by
  obtain ⟨r, hr⟩ := Option.isSome_iff_exists.mp
    (show (update example_wl true 0 0 2 (example_stream_state 2 0 false)).isSome = true
      by decide)
  exact ⟨r, hr,
    out_edge_label_sync example_wl true 0 0 2 (example_stream_state 2 0 false) r
      (by decide) hr⟩

end WeisfeilerLehman

namespace Histogram

/-- Instance of C25 on the histogram `{5 : 1}` over the reals. -/
theorem create_sketch_argmin_witness :
    ∃ h1, (example_hist [(5, (1 : ℝ))] (fun _ => 0) (fun _ => 1) 1).create_sketch
        (example_env 1 Real.exp Real.log 0 1 example_draws) = some h1 ∧
      ∀ i, i < (example_env 1 Real.exp Real.log 0 1 example_draws).SKETCH_SIZE →
        h1.sketch i ∈ h1.keys ∧
        ∃ c, h1.count (h1.sketch i) = some c ∧
          h1.hash i = A (example_env 1 Real.exp Real.log 0 1 example_draws) h1 (h1.sketch i) i c ∧
          ∀ L c1, h1.count L = some c1 →
            A (example_env 1 Real.exp Real.log 0 1 example_draws) h1 (h1.sketch i) i c
              ≤ A (example_env 1 Real.exp Real.log 0 1 example_draws) h1 L i c1 :=
  create_sketch_argmin (example_env 1 Real.exp Real.log 0 1 example_draws)
    (example_hist [(5, (1 : ℝ))] (fun _ => 0) (fun _ => 1) 1) (by simp [example_hist])
    (by simp [keys, example_hist])

/-- The min-hash invariant of the example state with `hash[0] = 0`, for every decay rate
and decay factor. -/
theorem example_invariant_decay (lambda factor : ℝ) :
    ∀ i, i < (example_env 1 Real.exp Real.log lambda 1 example_draws).SKETCH_SIZE → ∀ L1 c1,
      (example_hist [(5, (1 : ℝ))] (fun _ => 0) (fun _ => 0) factor).count L1 = some c1 →
      (example_hist [(5, (1 : ℝ))] (fun _ => 0) (fun _ => 0) factor).hash i
        ≤ A (example_env 1 Real.exp Real.log lambda 1 example_draws)
            (example_hist [(5, (1 : ℝ))] (fun _ => 0) (fun _ => 0) factor) L1 i c1 := by
  intro i hi L1 c1 hc
  have hi0 : i = 0 := by
    have : i < 1 := hi
    omega
  subst hi0
  rw [example_A]
  have hpos : (0 : ℝ) < Real.exp (Real.log c1 - 1 * (1 / 2)) * Real.exp 1 :=
    mul_pos (Real.exp_pos _) (Real.exp_pos _)
  show (0 : ℝ) ≤ _
  apply div_nonneg _ (le_of_lt hpos)
  split_ifs <;> norm_num

/-- Instance of C28 with `lambda = ln 2`, `DECAY = 1` and the histogram `{5 : 1}`: the decay
is triggered and the invariant holds afterwards. -/
theorem decay_keeps_min_hash_witness :
    (example_hist [(5, (1 : ℝ))] (fun _ => 0) (fun _ => 0) (Real.exp (-(Real.log 2)))).powerful
      ≤ 1 ∧
    ∀ i, i < (example_env 1 Real.exp Real.log (Real.log 2) 1 example_draws).SKETCH_SIZE →
      ∀ L c1,
      ((example_hist [(5, (1 : ℝ))] (fun _ => 0) (fun _ => 0) (Real.exp (-(Real.log 2)))).decay
        (example_env 1 Real.exp Real.log (Real.log 2) 1 example_draws) "").1.count L = some c1 →
      ((example_hist [(5, (1 : ℝ))] (fun _ => 0) (fun _ => 0) (Real.exp (-(Real.log 2)))).decay
        (example_env 1 Real.exp Real.log (Real.log 2) 1 example_draws) "").1.hash i
        ≤ A (example_env 1 Real.exp Real.log (Real.log 2) 1 example_draws)
            ((example_hist [(5, (1 : ℝ))] (fun _ => 0) (fun _ => 0)
              (Real.exp (-(Real.log 2)))).decay
              (example_env 1 Real.exp Real.log (Real.log 2) 1 example_draws) "").1 L i c1 :=
  ⟨by
      show Real.exp (-(Real.log 2)) ≤ 1
      rw [real_factor_half]
      norm_num,
  (decay_keeps_min_hash (example_env 1 Real.exp Real.log (Real.log 2) 1 example_draws)
    (example_hist [(5, (1 : ℝ))] (fun _ => 0) (fun _ => 0) (Real.exp (-(Real.log 2)))) ""
    (fun x => Real.exp_pos x) (fun _ _ hxy => Real.exp_le_exp.mpr hxy)
    (fun _ _ hx hxy => Real.log_le_log hx hxy)
    (Real.exp_pos _)
    (by
      show Real.exp (-(Real.log 2)) ≤ 1
      rw [real_factor_half]
      norm_num)
    (by
      intro L i
      show (0 : ℝ) ≤ (construct_hist_elem
        (example_env 1 Real.exp Real.log (Real.log 2) 1 example_draws) L).c i
      simp only [example_env, construct_hist_elem, example_draws]
      split_ifs <;> norm_num)
    (by
      intro L c hc
      have := mem_of_lookup L c _ hc
      simp only [example_hist, List.mem_singleton, Prod.mk.injEq] at this
      rw [this.2]
      norm_num)
    (example_invariant_decay (Real.log 2) (Real.exp (-(Real.log 2))))).1⟩

end Histogram

end Analyzer
